import Mathlib

/-!
# JPJson: the packed numeral `json::number` and its validator

A shallow embedding of `Source/json/value/unused/number2.hpp`.

* The character type `CharT` is instantiated at `char`; a character is a `Char`.
* A byte of `value_` is a natural number (below 256 in every reachable state).
* A call that may throw returns the bytes of `value_` at the moment control leaves
  the call, together with the message of the `std::runtime_error`, if one was thrown.
* `validate_number` reads `*first` before it looks at `last`, so what it does depends on
  the character stored at `last`; a range is therefore modelled with that character.
  The loop does not advance past `last`, hence it can spin: it runs on fuel, and
  `none` means the fuel ran out.
* A read of `value_` past its end is undefined behaviour and is modelled as `none`.
-/

set_option autoImplicit false

namespace json.internal

/-- The enum `number_type`. -/
inductive number_type where
  | BAD_NUMBER
  | Integer
  | Decimal
  | Float
  deriving DecidableEq, Repr

/-- The local enum `number_state` of `validate_number`. -/
inductive number_state where
  | number_state_start
  | number_state_sign
  | number_int_is_zero
  | number_state_int
  | number_state_point
  | number_state_fractional
  | number_state_exponent_start
  | number_state_exponent_sign
  | number_state_exponent
  deriving DecidableEq, Repr

open number_state

/-- The case range `'0'...'9'`. -/
def is_digit (ch : Char) : Bool := decide ('0' ≤ ch) && decide (ch ≤ '9')

/-- The case range `'1'...'9'`. -/
def is_digit19 (ch : Char) : Bool := decide ('1' ≤ ch) && decide (ch ≤ '9')

/-- The body of `switch (s)` in `validate_number`: `some s2` is the new value of `s`
(`done` stays false), `none` is `done = true` (and `s` keeps its value).
The locals `isNegative` and `exponentIsNegative` are written and never read. -/
def transition (s : number_state) (ch : Char) : Option number_state :=
  match s with
  | number_state_int =>
      if is_digit ch then some number_state_int
      else if ch = '.' then some number_state_point
      else if ch = 'e' ∨ ch = 'E' then some number_state_exponent_start
      else none
  | number_state_fractional =>
      if is_digit ch then some number_state_fractional
      else if ch = 'e' ∨ ch = 'E' then some number_state_exponent_start
      else none
  | number_state_exponent =>
      if is_digit ch then some number_state_exponent
      else none
  | number_state_start =>
      if ch = '-' then some number_state_sign
      else if ch = '0' then some number_int_is_zero
      else if is_digit19 ch then some number_state_int
      else none
  | number_state_sign =>
      if ch = '0' then some number_int_is_zero
      else if is_digit19 ch then some number_state_int
      else none
  | number_int_is_zero =>
      if ch = '.' then some number_state_point
      else if ch = 'e' ∨ ch = 'E' then some number_state_exponent_start
      else none
  | number_state_point =>
      if is_digit ch then some number_state_fractional
      else none
  | number_state_exponent_start =>
      if ch = '-' then some number_state_exponent_sign
      else if ch = '+' then some number_state_exponent_sign
      else if is_digit ch then some number_state_exponent
      else none
  | number_state_exponent_sign =>
      if is_digit ch then some number_state_exponent
      else none

/-- A range `[first, last)` of characters: `chars` are the characters of the range and
`at_last` is the character stored at `last` (0 for zero-terminated text). -/
structure char_range where
  chars : List Char
  at_last : Char
  deriving DecidableEq, Repr

/-- The range of a zero-terminated text. -/
def cstr (t : List Char) : char_range := ⟨t, '\x00'⟩

/-- The `while (not done)` loop of `validate_number`. `rest` is `[first, last)`.
Each turn reads `*first` (the character at `last` when `first == last`), and
advances `first` only when `first != last`. Returns `s` and the range left when
`done` is set; `none` when the fuel is used up. -/
def validate_loop : Nat → number_state → List Char → Char → Option (number_state × List Char)
  | 0, _, _, _ => none
  | fuel + 1, s, rest, at_last =>
      match transition s (rest.headD at_last) with
      | none => some (s, rest)
      | some s2 => validate_loop fuel s2 rest.tail at_last

/-- The final `switch (s)` of `validate_number`. -/
def classify : number_state → number_type
  | number_int_is_zero => .Integer
  | number_state_int => .Integer
  | number_state_fractional => .Decimal
  | number_state_exponent => .Float
  | _ => .BAD_NUMBER

/-- The function `validate_number(first, last)`. -/
def validate_number (fuel : Nat) (r : char_range) : Option number_type :=
  match validate_loop fuel number_state_start r.chars r.at_last with
  | none => none
  | some (s, rest) => some (if rest ≠ [] then .BAD_NUMBER else classify s)

end json.internal

namespace json

open json.internal

/-- The constant `capacity_`. -/
def capacity_ : Nat := 48

/-- The value of `sizeof(value_)`: `value_type` is `unsigned char[capacity_/2]`. -/
def sizeof_value_ : Nat := capacity_ / 2

/-- The value of `sizeof(unpacked_type)`: `char[capacity_ + 1]`. -/
def sizeof_unpacked_type : Nat := capacity_ + 1

/-- What a member function that may throw leaves behind: the bytes of `value_` and
the message of the exception, if any. -/
structure outcome where
  value_ : List Nat
  thrown : Option String
  deriving DecidableEq, Repr

/-- The call `memset(bytes + start, byte, count)`. -/
def memset (bytes : List Nat) (start byte : Nat) : Nat → List Nat
  | 0 => bytes
  | count + 1 => memset (bytes.set start byte) (start + 1) byte count

/-- The default constructor `number()`, run on storage that holds `storage`. -/
def number_default (storage : List Nat) : List Nat :=
  memset storage 0 0xFF sizeof_value_

/-- The locals of `pack` that live across loop turns (`p` as an index into `value_`). -/
structure pack_vars where
  value_ : List Nat
  p : Nat
  high : Bool
  buffer : Nat
  c : Nat
  deriving DecidableEq, Repr

/-- The tail of the loop body of `pack`, after the `switch`. -/
def pack_store (v : pack_vars) : pack_vars :=
  if !v.high then
    { v with high := true, buffer := ((v.c <<< 4) ||| 0x0F) % 256 }
  else
    { v with high := false,
             buffer := v.buffer &&& (0xF0 ||| v.c),
             value_ := v.value_.set v.p (v.buffer &&& (0xF0 ||| v.c)),
             p := v.p + 1 }

/-- One turn of the `while (first != last)` loop of `pack` on the character `ch`. -/
def pack_char (v : pack_vars) (ch : Char) : pack_vars :=
  if is_digit ch then pack_store { v with c := ch.toNat - '0'.toNat }
  else if ch = '+' then v
  else if ch = '-' then pack_store { v with c := 0x0C }
  else if ch = 'e' ∨ ch = 'E' then pack_store { v with c := 0xE }
  else if ch = '.' then pack_store { v with c := 0xD }
  else pack_store { v with value_ := v.value_.set 0 0xFF }

/-- The member `pack(first, last)` on the characters `text` of `[first, last)`. -/
def pack (value_ : List Nat) (text : List Char) : outcome :=
  if text = [] then
    ⟨memset value_ 0 0xFF sizeof_value_, none⟩
  else if text.length > capacity_ then
    ⟨value_, some "json::number range error"⟩
  else
    let v := text.foldl pack_char ⟨value_, 0, false, 0xFF, 0xFF⟩
    let v2 := if v.high then { v with value_ := v.value_.set v.p v.buffer, p := v.p + 1 } else v
    ⟨memset v2.value_ v2.p 0xFF (sizeof_value_ - v2.p), none⟩

/-- The table `map` of `unpack`: the 15 characters of the literal and its terminator. -/
def map : List Char :=
  ['0', '1', '2', '3', '4', '5', '6', '7', '8', '9', 'A', '+', '-', '.', 'e', '\x00']

/-- The loop of `unpack` and the store `buffer[i] = 0` after it. `ip` holds the bytes
of `value_` from the read pointer on, `buffer` the characters written before index `i`.
Returns the buffer and `i`; `none` is undefined behaviour: `*ip` read past the end of
`value_`, or `*op` or `buffer[i]` written past the end of the buffer. -/
def unpack_loop : List Nat → Nat → List Char → Option (List Char × Nat)
  | [], _, _ => none
  | b :: ip, i, buffer =>
      if i < sizeof_unpacked_type then
        if map.getD (b >>> 4) '\x00' = '\x00' then some (buffer, i)
        else if sizeof_unpacked_type ≤ i + 1 then none
        else if map.getD (0x0F &&& b) '\x00' = '\x00' then
          some (buffer ++ [map.getD (b >>> 4) '\x00'], i + 1)
        else
          unpack_loop ip (i + 2)
            (buffer ++ [map.getD (b >>> 4) '\x00', map.getD (0x0F &&& b) '\x00'])
      else none

/-- The member `unpack(buffer)`: the characters before the terminator it writes, and
the size it returns. -/
def unpack (value_ : List Nat) : Option (List Char × Nat) :=
  unpack_loop value_ 0 []

/-- The member `string()`. -/
def number_string (value_ : List Nat) : Option (List Char) :=
  if value_.getD 0 0 = 0xFF then some ['N', 'a', 'N']
  else
    match unpack value_ with
    | none => none
    | some (buffer, size) => some (buffer.take size)

/-- The member `assign(first, last)`; `first = none` is the null pointer. -/
def assign (fuel : Nat) (value_ : List Nat) (first : Option char_range) : Option outcome :=
  match first with
  | none => some ⟨memset value_ 0 0xFF sizeof_value_, none⟩
  | some r =>
      if r.chars = [] then some ⟨memset value_ 0 0xFF sizeof_value_, none⟩
      else
        match validate_number fuel r with
        | none => none
        | some result =>
            if result ≠ .BAD_NUMBER then some (pack value_ r.chars)
            else some ⟨value_, some "bad json::number"⟩

/-- The constructor `number(const CharT* s)` on zero-terminated text `t`, run on storage
that holds `storage`: `assign(s)` walks to the terminator and calls `assign(s, last)`. -/
def number_of_text (fuel : Nat) (storage : List Nat) (t : List Char) : Option outcome :=
  assign fuel storage (some (cstr t))

/-- The member `assign(s, len)`, which is `assign(s, s + len)`; `s` holds the characters
of the zero-terminated text at the pointer, so that `s[len]` is the character at `last`. -/
def assign_len (fuel : Nat) (value_ : List Nat) (s : List Char) (len : Nat) : Option outcome :=
  assign fuel value_ (some ⟨s.take len, s.getD len '\x00'⟩)

/-- The member `is_equal(other)`: `memcmp` over `sizeof(value_)` bytes. -/
def is_equal (value_ other : List Nat) : Bool :=
  decide (value_.take sizeof_value_ = other.take sizeof_value_)

/-- Modelled from the spec: `boost::lexical_cast<std::string>` is a library routine
outside the sources; for an integer it yields the decimal rendering, a minus sign in
front of a negative value. -/
def lexical_cast (v : Int) : List Char :=
  if v < 0 then '-' :: Nat.toDigits 10 v.natAbs else Nat.toDigits 10 v.natAbs

/-- The converting constructor `number(const T& v)` at an integral `T` (compiled
unless `JSON_NO_BOOST_LEXICAL_CAST` is defined), run on storage that holds `storage`. -/
def number_of_integral (storage : List Nat) (v : Int) : outcome :=
  pack storage (lexical_cast v)

/-- The friend `operator==(const number&, const U&)` at an integral `U`: the right
side is converted with `number(const T&)` (on `storage`), then `is_equal` runs.
`none` when the conversion throws. -/
def eq_integral (lhv : List Nat) (storage : List Nat) (rhv : Int) : Option Bool :=
  match (number_of_integral storage rhv).thrown with
  | some _ => none
  | none => some (is_equal lhv (number_of_integral storage rhv).value_)

end json

/-!
# The scratch buffer `string_buffer_base`

A shallow embedding of `Source/json/utility/string_buffer.hpp`.

* A code unit is a natural number. Pointers into the buffer are indices:
  `p_` stands for `p_ - buffer_start_`, and `buffer_end_ - buffer_start_` is the number
  of cells of the block `buffer_start_` points to (every assignment to `buffer_end_`
  in the source sets it to the end of that block).
* `size_type` values are natural numbers; sums and doublings are taken without
  wrap-around. The one subtraction that can wrap, `left()` with `p_` past
  `buffer_end_`, is taken modulo `2 ^ 64`.
* `malloc`, `realloc` and `valloc` are an oracle: whether a request for `n` code units
  is granted, and the value `junk` of every cell that has not been written.
* The loops of `grow` run on fuel; `none` means the fuel ran out.
-/

namespace json.internal

/-- The value of `std::numeric_limits<size_type>::max()` on a host with 64-bit `size_t`. -/
def size_type_max : Nat := 2 ^ 64 - 1

/-- The allocator: `grants n` tells whether a request for `n` code units succeeds,
`junk` is what a cell holds before it is written. -/
structure heap where
  grants : Nat → Bool
  junk : Nat

/-- What `buffer_start_` points to: the auto buffer, a block of the heap with its
cells, or nothing (the null pointer). -/
inductive buffer_block where
  | auto
  | heap (cells : List Nat)
  | null
  deriving DecidableEq, Repr

/-- The class `string_buffer_base`. `auto_buffer_` holds the cells of the array the
constructor was given (`auto_buffer_size_` is their number), `p_` is the index of the
write position in the block of `buffer_start_`. -/
structure string_buffer_base where
  auto_buffer_ : List Nat
  buffer_start_ : buffer_block
  p_ : Nat
  deriving DecidableEq, Repr

/-- What a member function leaves behind: the buffer, the value returned (if the call
returned) and the message of the exception (if one was thrown). -/
structure effect (α : Type) where
  buffer : string_buffer_base
  returned : Option α
  thrown : Option String
  deriving DecidableEq, Repr

namespace string_buffer_base

/-- The constructor `string_buffer_base(autoBuffer, autoBufferSize)`, the size being
the number of cells of the array. -/
def construct (autoBuffer : List Nat) : string_buffer_base :=
  ⟨autoBuffer, .auto, 0⟩

/-- The member `auto_buffer_size_`. -/
def auto_buffer_size_ (b : string_buffer_base) : Nat := b.auto_buffer_.length

/-- The cells of the block `buffer_start_` points to. -/
def cells (b : string_buffer_base) : List Nat :=
  match b.buffer_start_ with
  | .auto => b.auto_buffer_
  | .heap c => c
  | .null => []

/-- The member `size()`: `p_ - buffer_start_`. -/
def size (b : string_buffer_base) : Nat := b.p_

/-- The member `capazity()`: `buffer_end_ - buffer_start_`. -/
def capazity (b : string_buffer_base) : Nat := b.cells.length

/-- The member `left()`: `buffer_end_ - p_`, in `size_type`. -/
def left (b : string_buffer_base) : Nat :=
  if b.p_ ≤ b.capazity then b.capazity - b.p_
  else size_type_max + 1 - (b.p_ - b.capazity)

/-- The code units in `[buffer(), buffer() + size())`. -/
def content (b : string_buffer_base) : List Nat := b.cells.take b.p_

/-- The store `buffer_start_[i] = v`. -/
def store (b : string_buffer_base) (i v : Nat) : string_buffer_base :=
  match b.buffer_start_ with
  | .auto => { b with auto_buffer_ := b.auto_buffer_.set i v }
  | .heap c => { b with buffer_start_ := .heap (c.set i v) }
  | .null => b

/-- The copies `std::copy` and `memcpy`: the units `src` stored from index `i` on. -/
def write_at (dst : List Nat) (i : Nat) : List Nat → List Nat
  | [] => dst
  | v :: src => write_at (dst.set i v) (i + 1) src

/-- The store of `src` from index `i` on in the block of `buffer_start_`. -/
def store_all (b : string_buffer_base) (i : Nat) (src : List Nat) : string_buffer_base :=
  match b.buffer_start_ with
  | .auto => { b with auto_buffer_ := write_at b.auto_buffer_ i src }
  | .heap c => { b with buffer_start_ := .heap (write_at c i src) }
  | .null => b

/-- The member `reset(capazity)`. -/
def reset_to (h : heap) (b : string_buffer_base) (capazity : Nat) : effect Bool :=
  if capazity > b.auto_buffer_size_ then
    if h.grants capazity then
      ⟨{ b with buffer_start_ := .heap (List.replicate capazity h.junk), p_ := 0 }, some true, none⟩
    else
      ⟨{ b with buffer_start_ := .null, p_ := 0 }, some false, none⟩
  else
    ⟨{ b with buffer_start_ := .auto, p_ := 0 }, some true, none⟩

/-- The member `reset()`. -/
def reset (b : string_buffer_base) : string_buffer_base :=
  { b with buffer_start_ := .auto, p_ := 0 }

/-- The loop `while (new_size < min_size) new_size = 2 * new_size` of `grow`. The sizes
are natural numbers here; in the source they are `size_type` values, which these are as
long as `2 * new_size` does not wrap, that is for `min_size` of at most `2 ^ 63`. -/
def double_until : Nat → Nat → Nat → Option Nat
  | fuel, new_size, min_size =>
      if new_size < min_size then
        match fuel with
        | 0 => none
        | fuel + 1 => double_until fuel (2 * new_size) min_size
      else some new_size

/-- The loop `while (not allocationSuccess)` of `grow`, entered with `new_size`.
`current_size` is `size()` on entry to `grow`. Returns `allocationSuccess` and the
buffer. -/
def grow_loop (h : heap) (b : string_buffer_base) (min_size : Nat) :
    Nat → Nat → Option (Bool × string_buffer_base)
  | 0, _ => none
  | fuel + 1, new_size =>
      if h.grants new_size then
        some (true,
          { b with
            buffer_start_ :=
              match b.buffer_start_ with
              | .auto => .heap (write_at (List.replicate new_size h.junk) 0 b.auto_buffer_)
              | .heap c => .heap (c.take new_size ++ List.replicate (new_size - c.length) h.junk)
              | .null => .heap (List.replicate new_size h.junk),
            p_ := b.size })
      else
        let reduced :=
          if new_size > b.auto_buffer_size_ then
            new_size - min b.auto_buffer_size_ (new_size - b.auto_buffer_size_)
          else new_size
        if reduced < min_size then some (false, b)
        else grow_loop h b min_size fuel reduced

/-- The member `grow(min_size)`. -/
def grow (fuel : Nat) (h : heap) (b : string_buffer_base) (min_size : Nat) :
    Option (Bool × string_buffer_base) :=
  if min_size ≤ b.capazity then some (true, b)
  else
    match double_until fuel b.auto_buffer_size_ min_size with
    | none => none
    | some new_size => grow_loop h b min_size fuel new_size

/-- The member `reserve(size)`. -/
def reserve (fuel : Nat) (h : heap) (b : string_buffer_base) (size : Nat) :
    Option (effect Unit) :=
  if b.left < size then
    match grow fuel h b (size - b.left) with
    | none => none
    | some (true, b2) => some ⟨b2, some (), none⟩
    | some (false, b2) => some ⟨b2, none, some "could not grow buffer"⟩
  else some ⟨b, some (), none⟩

/-- The member `append(code_unit_t v)`. -/
def append (fuel : Nat) (h : heap) (b : string_buffer_base) (v : Nat) :
    Option (effect Unit) :=
  if b.p_ = b.capazity then
    match grow fuel h b (b.size + 1) with
    | none => none
    | some (true, b2) => some ⟨{ b2.store b2.p_ v with p_ := b2.p_ + 1 }, some (), none⟩
    | some (false, b2) => some ⟨b2, none, some "could not grow buffer"⟩
  else some ⟨{ b.store b.p_ v with p_ := b.p_ + 1 }, some (), none⟩

/-- The member `append(const code_unit_t* p, size_type len)`; `src` holds the `len`
code units at `p`. -/
def append_len (fuel : Nat) (h : heap) (b : string_buffer_base) (src : List Nat) :
    Option (effect Unit) :=
  if src.length > size_type_max >>> 3 then some ⟨b, none, some "string too large"⟩
  else if b.left < b.size + src.length then
    match grow fuel h b (b.size + src.length) with
    | none => none
    | some (true, b2) =>
        some ⟨{ b2.store_all b2.p_ src with p_ := b2.p_ + src.length }, some (), none⟩
    | some (false, b2) => some ⟨b2, none, some "could not grow buffer"⟩
  else some ⟨{ b.store_all b.p_ src with p_ := b.p_ + src.length }, some (), none⟩

/-- The member `append_ascii(char ch)`, for `ch` in `[0 .. 0x7F]` (the cast to
`code_unit_t` keeps such a value; the `assert` is compiled out of release builds). -/
def append_ascii (fuel : Nat) (h : heap) (b : string_buffer_base) (ch : Nat) :
    Option (effect Unit) :=
  append fuel h b ch

/-- The assertion `assert(ch <= 0x7F)` of `append_ascii(char ch)`; `ch` is the value of
the `char`, signed and of eight bits, in `[-128, 127]`. -/
def append_ascii_assert (ch : Int) : Bool := decide (ch ≤ 0x7F)

/-- The member `terminate_if()`. -/
def terminate_if (fuel : Nat) (h : heap) (b : string_buffer_base) : Option (effect Bool) :=
  if b.size > 0 ∧ b.cells.getD (b.p_ - 1) h.junk = 0 then some ⟨b, some false, none⟩
  else
    match append_ascii fuel h b 0 with
    | none => none
    | some e => some ⟨e.buffer, e.returned.map (fun _ => true), e.thrown⟩

/-- The member `append_unicode(codepoint)`. `buffer_size` is `EncodingT::buffer_size`
and `convert_one_unsafe` is `json::unicode::convert_one_unsafe(codepoint, p_, EncodingT())`
of `unicode_conversions.hpp`, which is not among the sources: for a code point it gives
the code units it stores from `p_` on (advancing `p_` past them) and the `int` it
returns. -/
def append_unicode (fuel : Nat) (h : heap) (buffer_size : Nat)
    ( convert_one_unsafe : Nat → List Nat × Int) (b : string_buffer_base) (codepoint : Nat) :
    Option (effect Nat) :=
  match reserve fuel h b (b.size + buffer_size) with
  | none => none
  | some e =>
      match e.thrown with
      | some msg => some ⟨e.buffer, none, some msg⟩
      | none =>
          let units := ( convert_one_unsafe codepoint).1
          let len := ( convert_one_unsafe codepoint).2
          some ⟨{ e.buffer.store_all e.buffer.p_ units with p_ := e.buffer.p_ + units.length },
            some (if len ≤ 0 then 0 else len.toNat), none⟩

/-- The member `append_cstr(cstr, len)` of a UTF-8 buffer (`append_cstr_impl` for
`UTF_8_encoding_tag`); `cstr` holds the `len` bytes at the pointer. -/
def append_cstr (fuel : Nat) (h : heap) (b : string_buffer_base) (cstr : List Nat) :
    Option (effect Nat) :=
  if cstr.length > size_type_max >>> 3 then some ⟨b, none, some "string too large"⟩
  else
    match append_len fuel h b cstr with
    | none => none
    | some e => some ⟨e.buffer, e.returned.map (fun _ => cstr.length), e.thrown⟩

/-- The member `append_str(str, len)` of a UTF-8 buffer: `append_utf_str_impl` for a
string with the code unit type of the buffer; `str` holds the `len` code units at the
pointer. -/
def append_str_len (fuel : Nat) (h : heap) (b : string_buffer_base) (str : List Nat) :
    Option (effect Nat) :=
  match append_len fuel h b str with
  | none => none
  | some e => some ⟨e.buffer, e.returned.map (fun _ => str.length), e.thrown⟩

/-- The loop of `append_utf_str_impl(str, encoding)` for a string with the code unit
type of the buffer. `str` holds the cells from the pointer on; each turn tests `*str`
and appends `*++str`. `none` when the fuel runs out or a cell past those given is read. -/
def append_utf_str_loop (fuel : Nat) (h : heap) :
    List Nat → string_buffer_base → Nat → Option (effect Nat)
  | [], _, _ => none
  | c :: str, b, count =>
      if c ≠ 0 then
        match str with
        | [] => none
        | d :: _ =>
            match append fuel h b d with
            | none => none
            | some e =>
                match e.thrown with
                | some msg => some ⟨e.buffer, none, some msg⟩
                | none => append_utf_str_loop fuel h str e.buffer (count + 1)
      else some ⟨b, some count, none⟩

/-- The member `append_str(str)` of a UTF-8 buffer on the memory `str`. -/
def append_str (fuel : Nat) (h : heap) (b : string_buffer_base) (str : List Nat) :
    Option (effect Nat) :=
  append_utf_str_loop fuel h str b 0

/-- The member `append_unicode_replacement_character()`. -/
def append_unicode_replacement_character (fuel : Nat) (h : heap) (buffer_size : Nat)
    ( convert_one_unsafe : Nat → List Nat × Int) (b : string_buffer_base) :
    Option (effect Nat) :=
  append_unicode fuel h buffer_size convert_one_unsafe b 0xFFFD

end string_buffer_base

/-- The conversion `char ch = *first` of `validate_number` and `pack` from a code unit
of 8, 16 or 32 bits: the low eight bits are kept. -/
def to_char (code_unit : Nat) : Char := Char.ofNat (code_unit % 256)

/-- The function `validate_number(first, last)` at a code unit type of 8, 16 or 32
bits: `units` are the code units of `[first, last)`, `at_last` is the code unit stored
at `last`, and every unit read goes through `char ch = *first`. -/
def validate_number_units (fuel : Nat) (units : List Nat) (at_last : Nat) :
    Option number_type :=
  validate_number fuel ⟨units.map to_char, to_char at_last⟩

end json.internal

/-!
# The string buffer of the parser, `parser_internal::string_buffer`

A shallow embedding of `Source/json/parser/string_buffer.hpp`. The string storage
`StringStorageT` is a template parameter; its `append(cu)` puts one code unit at the
end of the units it holds, which are modelled as a list.
-/

namespace json.parser_internal

/-- The endianness tags `host_endian_t` and `to_endian_t`. -/
inductive endian_tag where
  | little_endian
  | big_endian
  deriving DecidableEq, Repr

/-- The member `append(cu)` of the string storage. -/
def storage_append (string_storage_ : List Nat) (cu : Nat) : List Nat :=
  string_storage_ ++ [cu]

/-- The member `append_ascii(char ch)`, for `ch` in `[0 .. 0x7F]`: the line with
`byte_swap` is commented out ("TODO: fix"), the code unit is appended as it is. -/
def append_ascii (string_storage_ : List Nat) (ch : Nat) : List Nat :=
  storage_append string_storage_ ch

/-- The assertion `assert(ch >= 0 and ch < 0x80)` of `append_ascii(char ch)`; `ch` is
the value of the `char`, signed and of eight bits, in `[-128, 127]`. -/
def append_ascii_assert (ch : Int) : Bool := decide (ch ≥ 0 ∧ ch < 0x80)

/-- The member `append_unicode_imp(codepoint)` for `UTF_32_encoding_tag`. `byte_swap`
is `json::byte_swap<host_endian_t, to_endian_t>` of `byte_swap.hpp`, which is not
among the sources. -/
def append_unicode_imp (byte_swap : endian_tag → endian_tag → Nat → Nat)
    (host_endian_t to_endian_t : endian_tag) (string_storage_ : List Nat) (codepoint : Nat) :
    List Nat :=
  storage_append string_storage_ (byte_swap host_endian_t to_endian_t codepoint)

/-- The member `append_unicode(codepoint)` of a buffer on UTF-32 storage. -/
def append_unicode (byte_swap : endian_tag → endian_tag → Nat → Nat)
    (host_endian_t to_endian_t : endian_tag) (string_storage_ : List Nat) (codepoint : Nat) :
    List Nat :=
  append_unicode_imp byte_swap host_endian_t to_endian_t string_storage_ codepoint

end json.parser_internal

namespace json.spec

open json json.internal json.internal.number_state

/-- A decimal digit. -/
def Digit (c : Char) : Prop := '0' ≤ c ∧ c ≤ '9'

/-- The language `[0-9]*`. -/
def Digits (l : List Char) : Prop := ∀ c ∈ l, Digit c

/-- The language `0|[1-9][0-9]*`. -/
def IntPart (l : List Char) : Prop :=
  l = ['0'] ∨ ∃ d ds, l = d :: ds ∧ '1' ≤ d ∧ d ≤ '9' ∧ Digits ds

/-- The language `(\.[0-9]+)?`. -/
def FracPart (l : List Char) : Prop :=
  l = [] ∨ ∃ ds, l = '.' :: ds ∧ ds ≠ [] ∧ Digits ds

/-- The language `([eE][+-]?[0-9]+)?`. -/
def ExpPart (l : List Char) : Prop :=
  l = [] ∨ ∃ e sg ds, l = e :: (sg ++ ds) ∧ (e = 'e' ∨ e = 'E') ∧
    (sg = [] ∨ sg = ['+'] ∨ sg = ['-']) ∧ ds ≠ [] ∧ Digits ds

/-- The JSON number grammar `-?(0|[1-9][0-9]*)(\.[0-9]+)?([eE][+-]?[0-9]+)?`. -/
def JsonNumber (t : List Char) : Prop :=
  ∃ sg i f e, t = sg ++ (i ++ (f ++ e)) ∧ (sg = [] ∨ sg = ['-']) ∧
    IntPart i ∧ FracPart f ∧ ExpPart e

/-- The characters a numeral is written with. -/
def NumeralChar (c : Char) : Prop :=
  Digit c ∨ c = '+' ∨ c = '-' ∨ c = '.' ∨ c = 'e' ∨ c = 'E'

/-- The text after an optional sign. -/
def afterSign : List Char → List Char
  | [] => []
  | c :: r => if c = '+' ∨ c = '-' then r else c :: r

/-- No digit stands at the front of the text. -/
def NoDigitAhead (l : List Char) : Prop := ∀ c, l.head? = some c → ¬ Digit c

/-- The text with every `+` deleted. -/
def strip_plus (t : List Char) : List Char := t.filter (fun c => c ≠ '+')

/-- The text with every `+` deleted and every `E` replaced by `e`. -/
def normalise (t : List Char) : List Char :=
  (t.filter (fun c => c ≠ '+')).map (fun c => if c = 'E' then 'e' else c)

/-- The number written by a text of decimal digits. -/
def digits_value (ds : List Char) : Nat :=
  ds.foldl (fun n c => 10 * n + (c.toNat - '0'.toNat)) 0

/-- The signed digits of a numeral, point removed: `-12.50e3` gives `-1250`. -/
def mantissa (t : List Char) : Int :=
  let body := if t.head? = some '-' then t.tail else t
  let m := body.takeWhile (fun c => c ≠ 'e' ∧ c ≠ 'E')
  let n := digits_value (m.filter (fun c => c ≠ '.'))
  if t.head? = some '-' then -(n : Int) else (n : Int)

/-- The power of ten the mantissa of a numeral is scaled by: the exponent minus the
number of fraction digits; `-12.50e3` gives `1`. -/
def exponent10 (t : List Char) : Int :=
  let m := t.takeWhile (fun c => c ≠ 'e' ∧ c ≠ 'E')
  let x := (t.dropWhile (fun c => c ≠ 'e' ∧ c ≠ 'E')).tail
  let e : Int := if x.head? = some '-' then -(digits_value (afterSign x) : Int)
    else (digits_value (afterSign x) : Int)
  e - ((m.dropWhile (fun c => c ≠ '.')).tail.length : Int)

/-- The numeral `t` denotes the integer `v`: `mantissa t * 10 ^ exponent10 t = v`. -/
def Denotes (t : List Char) (v : Int) : Prop :=
  if 0 ≤ exponent10 t then mantissa t * 10 ^ (exponent10 t).toNat = v
  else mantissa t = v * 10 ^ (-exponent10 t).toNat

instance (t : List Char) (v : Int) : Decidable (Denotes t v) := by
  unfold Denotes
  infer_instance

end json.spec

namespace json.spec

/-- Modelled from the spec: `EncodingT::buffer_size` of `UTF_8_encoding_tag`
(`unicode_utilities.hpp` is not among the sources), the largest number of code
units one code point takes in UTF-8. -/
def utf8_buffer_size : Nat := 4

/-- Modelled from the spec: `json::unicode::convert_one_unsafe(codepoint, dest,
UTF_8_encoding_tag())` of `unicode_conversions.hpp`, which is not among the sources:
the UTF-8 code units of a Unicode scalar value, which it stores at `dest`, and their
number, which it returns. -/
def utf8_convert_one_unsafe (cp : Nat) : List Nat × Int :=
  if cp < 0x80 then ([cp], 1)
  else if cp < 0x800 then ([0xC0 ||| (cp >>> 6), 0x80 ||| (cp &&& 0x3F)], 2)
  else if cp < 0x10000 then
    ([0xE0 ||| (cp >>> 12), 0x80 ||| ((cp >>> 6) &&& 0x3F), 0x80 ||| (cp &&& 0x3F)], 3)
  else
    ([0xF0 ||| (cp >>> 18), 0x80 ||| ((cp >>> 12) &&& 0x3F), 0x80 ||| ((cp >>> 6) &&& 0x3F),
      0x80 ||| (cp &&& 0x3F)], 4)

/-- The least multiple of `k` that is not below `n`. -/
def round_up (k n : Nat) : Nat := k * ((n + k - 1) / k)

/-- An allocator that grants every request. -/
def Unlimited (h : json.internal.heap) : Prop := ∀ n, h.grants n = true

/-- The allocator that grants every request. -/
def unlimited_heap (junk : Nat) : json.internal.heap := ⟨fun _ => true, junk⟩

/-- The allocator that refuses every request. -/
def exhausted_heap (junk : Nat) : json.internal.heap := ⟨fun _ => false, junk⟩

/-- The allocator that grants exactly the requests of at most `M` code units. -/
def threshold_heap (M junk : Nat) : json.internal.heap := ⟨fun n => decide (n ≤ M), junk⟩

end json.spec

namespace json.spec

/-- The four bytes of a 32-bit value in reverse order. -/
def swap_bytes32 (v : Nat) : Nat :=
  ((v &&& 0xFF) <<< 24) ||| ((v &&& 0xFF00) <<< 8) ||| ((v >>> 8) &&& 0xFF00) |||
    ((v >>> 24) &&& 0xFF)

/-- Modelled from the spec: `json::byte_swap<FromEndian, ToEndian>(v)` of `byte_swap.hpp`,
which is not among the sources, on a 32-bit code unit: the value itself when the two
byte orders are the same, the value with its bytes reversed when they differ. -/
def byte_swap (from_endian to_endian : json.parser_internal.endian_tag) (v : Nat) : Nat :=
  if from_endian = to_endian then v else swap_bytes32 v

/-- Modelled from the spec: the calls of the control surface of `JPAsyncJsonParser`,
whose implementation is not among the sources (`JPAsyncJsonParser.h` declares them):
`start`, `parseBuffer:` with a buffer or with nil (end of input), `cancel`, `isRunning`. -/
inductive parser_call where
  | start
  | parseBuffer (eof : Bool)
  | cancel
  | isRunning
  deriving DecidableEq, Repr

/-- Modelled from the spec: the state of a `JPAsyncJsonParser` as far as the control
surface shows it: whether `start` has been sent, whether `cancel` has been sent, and
whether the end of input has been fed. -/
structure async_parser_state where
  started : Bool
  canceled : Bool
  finished : Bool
  deriving DecidableEq, Repr

/-- Modelled from the spec: a new parser is idle. -/
def async_parser_init : async_parser_state := ⟨false, false, false⟩

/-- Modelled from the spec: one call on the parser and the BOOL it returns (`cancel`
returns nothing, modelled as YES). `start` "returns YES if the parser has not yet been
started previously"; `parseBuffer:` "returns NO if ... the parser is in cancel or error
state", and the end of input is fed at most once; `isRunning` "returns YES if the parser
has been started and is currently running". -/
def async_parser_call (p : async_parser_state) : parser_call → Bool × async_parser_state
  | .start => (!p.started, { p with started := true })
  | .parseBuffer eof =>
      if p.canceled ∨ p.finished then (false, p)
      else (true, { p with finished := eof })
  | .cancel => (true, { p with canceled := true })
  | .isRunning => (p.started && !p.canceled && !p.finished, p)

/-- The values returned by a sequence of calls, each with its call. -/
def async_parser_run : async_parser_state → List parser_call → List (parser_call × Bool)
  | _, [] => []
  | p, c :: cs => (c, (async_parser_call p c).1) :: async_parser_run (async_parser_call p c).2 cs

/-- The values returned by the `start` calls of a sequence of calls. -/
def start_results (p : async_parser_state) (cs : List parser_call) : List Bool :=
  ((async_parser_run p cs).filter (fun r => r.1 = .start)).map (fun r => r.2)

end json.spec

namespace json.internal

open number_state json.spec

/-- The states reached by feeding `t` to `transition`, `none` once a character sets
`done`. -/
def run : number_state → List Char → Option number_state
  | s, [] => some s
  | s, c :: r =>
      match transition s c with
      | none => none
      | some s2 => run s2 r

/-- The result of `validate_number` in terms of `run`. -/
def verdict (t : List Char) : number_type :=
  match run number_state_start t with
  | none => .BAD_NUMBER
  | some s => classify s

/-- The texts that lead from state `s` to an accepting state, written with the parts
of the grammar. -/
def Lang : number_state → List Char → Prop
  | number_state_exponent, t => Digits t
  | number_state_exponent_sign, t => t ≠ [] ∧ Digits t
  | number_state_exponent_start, t =>
      ∃ sg ds, t = sg ++ ds ∧ (sg = [] ∨ sg = ['+'] ∨ sg = ['-']) ∧ ds ≠ [] ∧ Digits ds
  | number_state_fractional, t => ∃ ds e, t = ds ++ e ∧ Digits ds ∧ ExpPart e
  | number_state_point, t => ∃ ds e, t = ds ++ e ∧ ds ≠ [] ∧ Digits ds ∧ ExpPart e
  | number_state_int, t =>
      ∃ ds f e, t = ds ++ (f ++ e) ∧ Digits ds ∧ FracPart f ∧ ExpPart e
  | number_int_is_zero, t => ∃ f e, t = f ++ e ∧ FracPart f ∧ ExpPart e
  | number_state_sign, t =>
      ∃ i f e, t = i ++ (f ++ e) ∧ IntPart i ∧ FracPart f ∧ ExpPart e
  | number_state_start, t => JsonNumber t

/-- The text `t` leads from state `s` to an accepting state. -/
def Accepts (s : number_state) (t : List Char) : Prop :=
  ∃ s2, run s t = some s2 ∧ classify s2 ≠ .BAD_NUMBER

/-- How far the automaton has got: 0 in the integer part, 1 after the point, 2 after
the exponent marker. -/
def stage : number_state → Nat
  | number_state_start => 0
  | number_state_sign => 0
  | number_int_is_zero => 0
  | number_state_int => 0
  | number_state_point => 1
  | number_state_fractional => 1
  | number_state_exponent_start => 2
  | number_state_exponent_sign => 2
  | number_state_exponent => 2

/-- What the stage of the state says about the text read so far. -/
def StageInv (s : number_state) (pre : List Char) : Prop :=
  (stage s = 0 → '.' ∉ pre ∧ 'e' ∉ pre ∧ 'E' ∉ pre) ∧
  (stage s = 1 → '.' ∈ pre ∧ 'e' ∉ pre ∧ 'E' ∉ pre) ∧
  (stage s = 2 → ('e' ∈ pre ∨ 'E' ∈ pre))


end json.internal

namespace json

open json.internal json.spec

/-- The four bits `pack` stores for a character of a numeral other than `+`. -/
def nibble (ch : Char) : Nat :=
  if is_digit ch then ch.toNat - '0'.toNat
  else if ch = '-' then 0x0C
  else if ch = 'e' ∨ ch = 'E' then 0xE
  else 0xD

/-- The four-bit codes of a text, `+` left out. -/
def nibbles (t : List Char) : List Nat :=
  (t.filter (fun c => c ≠ '+')).map nibble

/-- Two codes to a byte, the first in the high half; an odd last code is followed
by the filler `0xF`. -/
def pair_up : List Nat → List Nat
  | [] => []
  | [a] => [16 * a + 15]
  | a :: b :: r => (16 * a + b) :: pair_up r

/-- The 24 bytes that hold the codes `ns`: the paired codes, then `0xFF` to the end. -/
def packed (ns : List Nat) : List Nat :=
  pair_up ns ++ List.replicate (sizeof_value_ - (ns.length + 1) / 2) 0xFF

/-- What `pack` does after its loop: the pending half byte is stored and the rest of
`value_` is filled with `0xFF`. -/
def pack_finish (v : pack_vars) : List Nat :=
  memset (if v.high then v.value_.set v.p v.buffer else v.value_)
    (if v.high then v.p + 1 else v.p) 0xFF
    (sizeof_value_ - (if v.high then v.p + 1 else v.p))

/-- The codes read back from bytes, up to the first filler. -/
def decode : List Nat → List Nat
  | [] => []
  | b :: r =>
      if b / 16 = 15 then []
      else if b % 16 = 15 then [b / 16]
      else b / 16 :: b % 16 :: decode r

end json

namespace json.internal

open string_buffer_base

/-- The calls of the claims on the buffer invariant. -/
inductive buffer_op where
  | append (v : Nat)
  | append_len (src : List Nat)
  | append_ascii (ch : Nat)
  | terminate_if
  | reserve (size : Nat)
  | reset
  | reset_to (capazity : Nat)

/-- The buffer after one call, whether it returned or threw; `none` when the call
does not return. -/
def apply_op (fuel : Nat) (h : heap) (b : string_buffer_base) :
    buffer_op → Option string_buffer_base
  | .append v => (append fuel h b v).map (fun e => e.buffer)
  | .append_len src => (append_len fuel h b src).map (fun e => e.buffer)
  | .append_ascii ch => (append_ascii fuel h b ch).map (fun e => e.buffer)
  | .terminate_if => (terminate_if fuel h b).map (fun e => e.buffer)
  | .reserve size => (reserve fuel h b size).map (fun e => e.buffer)
  | .reset => some (reset b)
  | .reset_to capazity => some (reset_to h b capazity).buffer

/-- The buffer after a sequence of calls, each with the allocator it meets. -/
def run_ops (fuel : Nat) : List (heap × buffer_op) → string_buffer_base →
    Option string_buffer_base
  | [], b => some b
  | (h, op) :: ops, b =>
      match apply_op fuel h b op with
      | none => none
      | some b2 => run_ops fuel ops b2

/-- The code units `us` appended one at a time with `append(code_unit_t)`. -/
def append_all (fuel : Nat) (h : heap) : List Nat → string_buffer_base → Option (effect Unit)
  | [], b => some ⟨b, some (), none⟩
  | v :: us, b =>
      match append fuel h b v with
      | none => none
      | some e =>
          match e.thrown with
          | some msg => some ⟨e.buffer, none, some msg⟩
          | none => append_all fuel h us e.buffer

end json.internal

namespace json.internal

open number_state json.spec

theorem char_eq_iff (a b : Char) : a = b ↔ a.toNat = b.toNat := by
  constructor
  · intro h; rw [h]
  · intro h
    apply Char.ext
    exact UInt32.ext (by simpa [Char.toNat, UInt32.toNat] using h)

theorem char_le_iff (a b : Char) : a ≤ b ↔ a.toNat ≤ b.toNat := by
  rw [Char.le_def]; rfl

theorem transition_nul (s : number_state) : transition s '\x00' = none := by
  cases s <;> decide

theorem validate_loop_cstr (t : List Char) :
    ∀ (fuel : Nat) (s : number_state), t.length < fuel →
      ∃ s2 rest, validate_loop fuel s t '\x00' = some (s2, rest) ∧
        ((rest = [] ∧ run s t = some s2) ∨ (rest ≠ [] ∧ run s t = none)) := by
  induction t with
  | nil =>
    intro fuel s h
    cases fuel with
    | zero => simp at h
    | succ n => exact ⟨s, [], by simp [validate_loop, run, transition_nul]⟩
  | cons c r ih =>
    intro fuel s h
    cases fuel with
    | zero => simp at h
    | succ n =>
      cases hc : transition s c with
      | none => exact ⟨s, c :: r, by simp [validate_loop, run, hc]⟩
      | some s2 =>
        obtain ⟨s3, rest, h1, h2⟩ := ih n s2 (by simpa using h)
        exact ⟨s3, rest, by simp [validate_loop, hc, h1], by simpa [run, hc] using h2⟩

theorem validate_number_cstr (t : List Char) (fuel : Nat) (h : t.length < fuel) :
    validate_number fuel (cstr t) = some (verdict t) := by
  obtain ⟨s2, rest, h1, h2⟩ := validate_loop_cstr t fuel number_state_start h
  rcases h2 with ⟨hr, hrun⟩ | ⟨hr, hrun⟩
  · simp [validate_number, cstr, h1, verdict, hrun, hr]
  · simp [validate_number, cstr, h1, verdict, hrun, hr]

theorem run_append (a b : List Char) : ∀ s, run s (a ++ b) = (run s a).bind (fun s2 => run s2 b) := by
  induction a with
  | nil => intro s; simp [run]
  | cons c r ih =>
    intro s
    simp only [List.cons_append, run]
    cases transition s c with
    | none => simp
    | some s2 => simpa using ih s2

theorem digit_iff (c : Char) : Digit c ↔ is_digit c = true := by
  simp [Digit, is_digit]

theorem transition_int {c : Char} {s2 : number_state}
    (h : transition number_state_int c = some s2) :
    (Digit c ∧ s2 = number_state_int) ∨ (c = '.' ∧ s2 = number_state_point) ∨
      ((c = 'e' ∨ c = 'E') ∧ s2 = number_state_exponent_start) := by
  simp only [transition] at h
  split_ifs at h <;> simp_all [digit_iff]

theorem transition_fractional {c : Char} {s2 : number_state}
    (h : transition number_state_fractional c = some s2) :
    (Digit c ∧ s2 = number_state_fractional) ∨
      ((c = 'e' ∨ c = 'E') ∧ s2 = number_state_exponent_start) := by
  simp only [transition] at h
  split_ifs at h <;> simp_all [digit_iff]

theorem transition_exponent {c : Char} {s2 : number_state}
    (h : transition number_state_exponent c = some s2) :
    Digit c ∧ s2 = number_state_exponent := by
  simp only [transition] at h
  split_ifs at h
  simp_all [digit_iff]

theorem transition_start {c : Char} {s2 : number_state}
    (h : transition number_state_start c = some s2) :
    (c = '-' ∧ s2 = number_state_sign) ∨ (c = '0' ∧ s2 = number_int_is_zero) ∨
      (('1' ≤ c ∧ c ≤ '9') ∧ s2 = number_state_int) := by
  simp only [transition] at h
  split_ifs at h <;> simp_all [is_digit19]

theorem transition_sign {c : Char} {s2 : number_state}
    (h : transition number_state_sign c = some s2) :
    (c = '0' ∧ s2 = number_int_is_zero) ∨
      (('1' ≤ c ∧ c ≤ '9') ∧ s2 = number_state_int) := by
  simp only [transition] at h
  split_ifs at h <;> simp_all [is_digit19]

theorem transition_zero {c : Char} {s2 : number_state}
    (h : transition number_int_is_zero c = some s2) :
    (c = '.' ∧ s2 = number_state_point) ∨
      ((c = 'e' ∨ c = 'E') ∧ s2 = number_state_exponent_start) := by
  simp only [transition] at h
  split_ifs at h <;> simp_all

theorem transition_point {c : Char} {s2 : number_state}
    (h : transition number_state_point c = some s2) :
    Digit c ∧ s2 = number_state_fractional := by
  simp only [transition] at h
  split_ifs at h
  simp_all [digit_iff]

theorem transition_exponent_start {c : Char} {s2 : number_state}
    (h : transition number_state_exponent_start c = some s2) :
    ((c = '-' ∨ c = '+') ∧ s2 = number_state_exponent_sign) ∨
      (Digit c ∧ s2 = number_state_exponent) := by
  simp only [transition] at h
  split_ifs at h <;> simp_all [digit_iff]

theorem transition_exponent_sign {c : Char} {s2 : number_state}
    (h : transition number_state_exponent_sign c = some s2) :
    Digit c ∧ s2 = number_state_exponent := by
  simp only [transition] at h
  split_ifs at h
  simp_all [digit_iff]

theorem digits_cons {c : Char} {r : List Char} (hc : Digit c) (hr : Digits r) :
    Digits (c :: r) := by
  intro x hx
  rcases List.mem_cons.mp hx with rfl | hx
  · exact hc
  · exact hr x hx

theorem digits_nil : Digits [] := by
  intro x hx; simp at hx

theorem expPart_of_marker {c : Char} {sg ds : List Char} (hc : c = 'e' ∨ c = 'E')
    (hsg : sg = [] ∨ sg = ['+'] ∨ sg = ['-']) (hne : ds ≠ []) (hds : Digits ds) :
    ExpPart (c :: (sg ++ ds)) :=
  Or.inr ⟨c, sg, ds, rfl, hc, hsg, hne, hds⟩

/-- Soundness of the automaton: what it accepts from a state lies in the language
of that state. -/
theorem lang_of_run (t : List Char) :
    ∀ (s s3 : number_state), run s t = some s3 → classify s3 ≠ .BAD_NUMBER → Lang s t := by
  induction t with
  | nil =>
    intro s s3 h hc
    simp only [run, Option.some.injEq] at h
    subst h
    cases s <;> simp only [classify, ne_eq, not_true_eq_false, reduceCtorEq,
      not_false_eq_true] at hc
    · exact ⟨[], [], rfl, Or.inl rfl, Or.inl rfl⟩
    · exact ⟨[], [], [], rfl, digits_nil, Or.inl rfl, Or.inl rfl⟩
    · exact ⟨[], [], rfl, digits_nil, Or.inl rfl⟩
    · exact digits_nil
  | cons c r ih =>
    intro s s3 h hc
    simp only [run] at h
    cases htr : transition s c with
    | none => simp [htr] at h
    | some s2 =>
      rw [htr] at h
      have hl := ih s2 s3 h hc
      cases s with
      | number_state_start =>
        rcases transition_start htr with ⟨rfl, rfl⟩ | ⟨rfl, rfl⟩ | ⟨hd, rfl⟩
        · obtain ⟨i, f, e, rfl, hi, hf, he⟩ := hl
          exact ⟨['-'], i, f, e, rfl, Or.inr rfl, hi, hf, he⟩
        · obtain ⟨f, e, rfl, hf, he⟩ := hl
          exact ⟨[], ['0'], f, e, rfl, Or.inl rfl, Or.inl rfl, hf, he⟩
        · obtain ⟨ds, f, e, rfl, hds, hf, he⟩ := hl
          exact ⟨[], c :: ds, f, e, rfl, Or.inl rfl, Or.inr ⟨c, ds, rfl, hd.1, hd.2, hds⟩, hf, he⟩
      | number_state_sign =>
        rcases transition_sign htr with ⟨rfl, rfl⟩ | ⟨hd, rfl⟩
        · obtain ⟨f, e, rfl, hf, he⟩ := hl
          exact ⟨['0'], f, e, rfl, Or.inl rfl, hf, he⟩
        · obtain ⟨ds, f, e, rfl, hds, hf, he⟩ := hl
          exact ⟨c :: ds, f, e, rfl, Or.inr ⟨c, ds, rfl, hd.1, hd.2, hds⟩, hf, he⟩
      | number_int_is_zero =>
        rcases transition_zero htr with ⟨rfl, rfl⟩ | ⟨hm, rfl⟩
        · obtain ⟨ds, e, rfl, hne, hds, he⟩ := hl
          exact ⟨'.' :: ds, e, rfl, Or.inr ⟨ds, rfl, hne, hds⟩, he⟩
        · obtain ⟨sg, ds, rfl, hsg, hne, hds⟩ := hl
          exact ⟨[], c :: (sg ++ ds), rfl, Or.inl rfl, expPart_of_marker hm hsg hne hds⟩
      | number_state_int =>
        rcases transition_int htr with ⟨hd, rfl⟩ | ⟨rfl, rfl⟩ | ⟨hm, rfl⟩
        · obtain ⟨ds, f, e, rfl, hds, hf, he⟩ := hl
          exact ⟨c :: ds, f, e, rfl, digits_cons hd hds, hf, he⟩
        · obtain ⟨ds, e, rfl, hne, hds, he⟩ := hl
          exact ⟨[], '.' :: ds, e, rfl, digits_nil, Or.inr ⟨ds, rfl, hne, hds⟩, he⟩
        · obtain ⟨sg, ds, rfl, hsg, hne, hds⟩ := hl
          exact ⟨[], [], c :: (sg ++ ds), rfl, digits_nil, Or.inl rfl,
            expPart_of_marker hm hsg hne hds⟩
      | number_state_point =>
        obtain ⟨hd, rfl⟩ := transition_point htr
        obtain ⟨ds, e, rfl, hds, he⟩ := hl
        exact ⟨c :: ds, e, rfl, by simp, digits_cons hd hds, he⟩
      | number_state_fractional =>
        rcases transition_fractional htr with ⟨hd, rfl⟩ | ⟨hm, rfl⟩
        · obtain ⟨ds, e, rfl, hds, he⟩ := hl
          exact ⟨c :: ds, e, rfl, digits_cons hd hds, he⟩
        · obtain ⟨sg, ds, rfl, hsg, hne, hds⟩ := hl
          exact ⟨[], c :: (sg ++ ds), rfl, digits_nil, expPart_of_marker hm hsg hne hds⟩
      | number_state_exponent_start =>
        rcases transition_exponent_start htr with ⟨hm, rfl⟩ | ⟨hd, rfl⟩
        · obtain ⟨hne, hds⟩ := hl
          rcases hm with rfl | rfl
          · exact ⟨['-'], r, rfl, Or.inr (Or.inr rfl), hne, hds⟩
          · exact ⟨['+'], r, rfl, Or.inr (Or.inl rfl), hne, hds⟩
        · exact ⟨[], c :: r, rfl, Or.inl rfl, by simp, digits_cons hd hl⟩
      | number_state_exponent_sign =>
        obtain ⟨hd, rfl⟩ := transition_exponent_sign htr
        exact ⟨by simp, digits_cons hd hl⟩
      | number_state_exponent =>
        obtain ⟨hd, rfl⟩ := transition_exponent htr
        exact digits_cons hd hl

theorem accepts_cons {s s2 : number_state} {c : Char} {r : List Char}
    (h : transition s c = some s2) (hr : Accepts s2 r) : Accepts s (c :: r) := by
  obtain ⟨s3, h3, hc⟩ := hr
  exact ⟨s3, by simp [run, h, h3], hc⟩

theorem accepts_append {s s2 : number_state} {a b : List Char}
    (h : run s a = some s2) (hb : Accepts s2 b) : Accepts s (a ++ b) := by
  obtain ⟨s3, h3, hc⟩ := hb
  exact ⟨s3, by simp [run_append, h, h3], hc⟩

theorem run_digits {s : number_state} (hs : ∀ c, Digit c → transition s c = some s)
    (ds : List Char) (hds : Digits ds) : run s ds = some s := by
  induction ds with
  | nil => rfl
  | cons c r ih =>
    have hc : Digit c := hds c (by simp)
    have hr : Digits r := fun x hx => hds x (by simp [hx])
    simp [run, hs c hc, ih hr]

theorem digit_int {c : Char} (h : Digit c) :
    transition number_state_int c = some number_state_int := by
  simp [transition, (digit_iff c).mp h]

theorem digit_fractional {c : Char} (h : Digit c) :
    transition number_state_fractional c = some number_state_fractional := by
  simp [transition, (digit_iff c).mp h]

theorem digit_exponent {c : Char} (h : Digit c) :
    transition number_state_exponent c = some number_state_exponent := by
  simp [transition, (digit_iff c).mp h]

theorem digit_point {c : Char} (h : Digit c) :
    transition number_state_point c = some number_state_fractional := by
  simp [transition, (digit_iff c).mp h]

theorem digit_exponent_sign {c : Char} (h : Digit c) :
    transition number_state_exponent_sign c = some number_state_exponent := by
  simp [transition, (digit_iff c).mp h]

theorem digit_exponent_start {c : Char} (h : Digit c) :
    transition number_state_exponent_start c = some number_state_exponent := by
  have h2 := (digit_iff c).mp h
  simp only [Digit, char_le_iff, Char.reduceToNat] at h
  simp only [transition, h2, char_eq_iff, Char.reduceToNat]
  rw [if_neg (by omega), if_neg (by omega)]
  simp

theorem digit19_start {c : Char} (h1 : '1' ≤ c) (h9 : c ≤ '9') :
    transition number_state_start c = some number_state_int := by
  have h2 : is_digit19 c = true := by simp [is_digit19, h1, h9]
  simp only [char_le_iff, Char.reduceToNat] at h1 h9
  simp only [transition, h2, char_eq_iff, Char.reduceToNat]
  rw [if_neg (by omega), if_neg (by omega)]
  simp

theorem digit19_sign {c : Char} (h1 : '1' ≤ c) (h9 : c ≤ '9') :
    transition number_state_sign c = some number_state_int := by
  have h2 : is_digit19 c = true := by simp [is_digit19, h1, h9]
  simp only [char_le_iff, Char.reduceToNat] at h1 h9
  simp only [transition, h2, char_eq_iff, Char.reduceToNat]
  rw [if_neg (by omega)]
  simp

theorem accepts_exponent {t : List Char} (h : Digits t) : Accepts number_state_exponent t :=
  ⟨number_state_exponent, run_digits (fun _ hc => digit_exponent hc) t h, by decide⟩

theorem accepts_exponent_sign {t : List Char} (hne : t ≠ []) (h : Digits t) :
    Accepts number_state_exponent_sign t := by
  cases t with
  | nil => exact absurd rfl hne
  | cons c r =>
    exact accepts_cons (digit_exponent_sign (h c (by simp)))
      (accepts_exponent (fun x hx => h x (by simp [hx])))

theorem accepts_exponent_start {sg ds : List Char} (hsg : sg = [] ∨ sg = ['+'] ∨ sg = ['-'])
    (hne : ds ≠ []) (h : Digits ds) : Accepts number_state_exponent_start (sg ++ ds) := by
  rcases hsg with rfl | rfl | rfl
  · cases ds with
    | nil => exact absurd rfl hne
    | cons c r =>
      exact accepts_cons (digit_exponent_start (h c (by simp)))
        (accepts_exponent (fun x hx => h x (by simp [hx])))
  · exact accepts_cons (by decide) (accepts_exponent_sign hne h)
  · exact accepts_cons (by decide) (accepts_exponent_sign hne h)

/-- From each of the three accepting states without exponent an exponent part is
accepted. -/
theorem accepts_expPart {s : number_state} {e : List Char}
    (hs : s = number_int_is_zero ∨ s = number_state_int ∨ s = number_state_fractional)
    (he : ExpPart e) : Accepts s e := by
  rcases he with rfl | ⟨c, sg, ds, rfl, hc, hsg, hne, hds⟩
  · rcases hs with rfl | rfl | rfl <;> exact ⟨_, rfl, by decide⟩
  · have hx := accepts_exponent_start hsg hne hds
    rcases hs with rfl | rfl | rfl <;> rcases hc with rfl | rfl <;>
      exact accepts_cons (by decide) hx

theorem accepts_fractional {ds e : List Char} (hds : Digits ds) (he : ExpPart e) :
    Accepts number_state_fractional (ds ++ e) :=
  accepts_append (run_digits (fun _ hc => digit_fractional hc) ds hds)
    (accepts_expPart (Or.inr (Or.inr rfl)) he)

theorem accepts_fracPart {s : number_state} {f e : List Char}
    (hs : s = number_int_is_zero ∨ s = number_state_int)
    (hf : FracPart f) (he : ExpPart e) : Accepts s (f ++ e) := by
  rcases hf with rfl | ⟨ds, rfl, hne, hds⟩
  · rcases hs with rfl | rfl
    · exact accepts_expPart (Or.inl rfl) he
    · exact accepts_expPart (Or.inr (Or.inl rfl)) he
  · cases ds with
    | nil => exact absurd rfl hne
    | cons d r =>
      have hx : Accepts number_state_point ((d :: r) ++ e) :=
        accepts_cons (digit_point (hds d (by simp)))
          (accepts_fractional (fun x hx => hds x (by simp [hx])) he)
      rcases hs with rfl | rfl <;> exact accepts_cons (by decide) hx

theorem accepts_intPart {s : number_state} {i f e : List Char}
    (hs : s = number_state_start ∨ s = number_state_sign)
    (hi : IntPart i) (hf : FracPart f) (he : ExpPart e) : Accepts s (i ++ (f ++ e)) := by
  rcases hi with rfl | ⟨d, ds, rfl, h1, h9, hds⟩
  · have hx := accepts_fracPart (Or.inl rfl) hf he
    rcases hs with rfl | rfl <;> exact accepts_cons (by decide) hx
  · have hx : Accepts number_state_int (ds ++ (f ++ e)) :=
      accepts_append (run_digits (fun _ hc => digit_int hc) ds hds)
        (accepts_fracPart (Or.inr rfl) hf he)
    rcases hs with rfl | rfl
    · exact accepts_cons (digit19_start h1 h9) hx
    · exact accepts_cons (digit19_sign h1 h9) hx

/-- Completeness of the automaton on the grammar. -/
theorem accepts_of_jsonNumber {t : List Char} (h : JsonNumber t) :
    Accepts number_state_start t := by
  obtain ⟨sg, i, f, e, rfl, hsg, hi, hf, he⟩ := h
  rcases hsg with rfl | rfl
  · show Accepts number_state_start (i ++ (f ++ e))
    exact accepts_intPart (Or.inl rfl) hi hf he
  · show Accepts number_state_start ('-' :: (i ++ (f ++ e)))
    exact accepts_cons (by decide) (accepts_intPart (Or.inr rfl) hi hf he)

theorem verdict_ne_bad_iff (t : List Char) : verdict t ≠ .BAD_NUMBER ↔ JsonNumber t := by
  constructor
  · intro h
    unfold verdict at h
    cases hr : run number_state_start t with
    | none => simp [hr] at h
    | some s => exact lang_of_run t _ s hr (by simpa [hr] using h)
  · intro h
    obtain ⟨s, hs, hc⟩ := accepts_of_jsonNumber h
    simpa [verdict, hs] using hc

theorem verdict_append_bad (a x : List Char)
    (hx : ∀ s s3, run s x = some s3 → classify s3 = .BAD_NUMBER) :
    verdict (a ++ x) = .BAD_NUMBER := by
  unfold verdict
  rw [run_append]
  cases ha : run number_state_start a with
  | none => simp
  | some s2 =>
    simp only [Option.some_bind]
    cases h3 : run s2 x with
    | none => rfl
    | some s3 => exact hx s2 s3 h3

theorem not_numeralChar_transition {c : Char} (hc : ¬ NumeralChar c) (s : number_state) :
    transition s c = none := by
  simp only [NumeralChar, not_or] at hc
  obtain ⟨h0, h1, h2, h3, h4, h5⟩ := hc
  have hd : is_digit c = false := by
    rw [digit_iff] at h0; simpa using h0
  have hd19 : is_digit19 c = false := by
    cases h : is_digit19 c with
    | false => rfl
    | true =>
      exfalso
      apply h0
      simp only [is_digit19, Bool.and_eq_true, decide_eq_true_eq, char_le_iff,
        Char.reduceToNat] at h
      simp only [Digit, char_le_iff, Char.reduceToNat]
      omega
  have h00 : c ≠ '0' := by
    intro h; apply h0; rw [h]; exact ⟨by decide, by decide⟩
  cases s <;> simp [transition, hd, hd19, h00, h1, h2, h3, h4, h5]

theorem run_bad_char {c : Char} (hc : ¬ NumeralChar c) (b : List Char) (s s3 : number_state) :
    run s (c :: b) = some s3 → classify s3 = .BAD_NUMBER := by
  simp [run, not_numeralChar_transition hc s]

theorem run_point_no_digit {b : List Char} (hb : NoDigitAhead b) (s3 : number_state)
    (h : run number_state_point b = some s3) : classify s3 = .BAD_NUMBER := by
  cases b with
  | nil =>
    simp only [run, Option.some.injEq] at h
    subst h; rfl
  | cons c r =>
    have hc : ¬ Digit c := hb c rfl
    have : transition number_state_point c = none := by
      simp only [digit_iff] at hc
      simp [transition, hc]
    simp [run, this] at h

theorem run_dot_no_digit {b : List Char} (hb : NoDigitAhead b) (s s3 : number_state)
    (h : run s ('.' :: b) = some s3) : classify s3 = .BAD_NUMBER := by
  have ht : transition s '.' = none ∨ transition s '.' = some number_state_point := by
    cases s <;> decide
  simp only [run] at h
  rcases ht with ht | ht
  · simp [ht] at h
  · rw [ht] at h
    exact run_point_no_digit hb s3 h

theorem run_exponent_sign_no_digit {b : List Char} (hb : NoDigitAhead b) (s3 : number_state)
    (h : run number_state_exponent_sign b = some s3) : classify s3 = .BAD_NUMBER := by
  cases b with
  | nil =>
    simp only [run, Option.some.injEq] at h
    subst h; rfl
  | cons c r =>
    have hc : ¬ Digit c := hb c rfl
    have : transition number_state_exponent_sign c = none := by
      simp only [digit_iff] at hc
      simp [transition, hc]
    simp [run, this] at h

theorem run_exponent_start_no_digit {b : List Char} (hb : NoDigitAhead (afterSign b))
    (s3 : number_state) (h : run number_state_exponent_start b = some s3) :
    classify s3 = .BAD_NUMBER := by
  cases b with
  | nil =>
    simp only [run, Option.some.injEq] at h
    subst h; rfl
  | cons c r =>
    simp only [run] at h
    cases htr : transition number_state_exponent_start c with
    | none => simp [htr] at h
    | some s2 =>
      rw [htr] at h
      rcases transition_exponent_start htr with ⟨hm, rfl⟩ | ⟨hd, rfl⟩
      · have : afterSign (c :: r) = r := by
          rcases hm with rfl | rfl <;> simp [afterSign]
        rw [this] at hb
        exact run_exponent_sign_no_digit hb s3 h
      · exfalso
        have hne : ¬ (c = '+' ∨ c = '-') := by
          simp only [Digit, char_le_iff, Char.reduceToNat] at hd
          simp only [char_eq_iff, Char.reduceToNat]
          omega
        have : afterSign (c :: r) = c :: r := by simp [afterSign, hne]
        rw [this] at hb
        exact hb c rfl hd

theorem run_marker_no_digit {m : Char} (hm : m = 'e' ∨ m = 'E') {b : List Char}
    (hb : NoDigitAhead (afterSign b)) (s s3 : number_state)
    (h : run s (m :: b) = some s3) : classify s3 = .BAD_NUMBER := by
  have ht : transition s m = none ∨ transition s m = some number_state_exponent_start := by
    rcases hm with rfl | rfl <;> cases s <;> decide
  simp only [run] at h
  rcases ht with ht | ht
  · simp [ht] at h
  · rw [ht] at h
    exact run_exponent_start_no_digit hb s3 h

theorem verdict_plus (rest : List Char) : verdict ('+' :: rest) = .BAD_NUMBER := by
  simp [verdict, run, show transition number_state_start '+' = none by decide]

theorem verdict_leading_zero {d : Char} (hd : Digit d) (rest : List Char) :
    verdict ('0' :: d :: rest) = .BAD_NUMBER ∧ verdict ('-' :: '0' :: d :: rest) = .BAD_NUMBER := by
  have h0 : transition number_int_is_zero d = none := by
    simp only [Digit, char_le_iff, Char.reduceToNat] at hd
    simp only [transition, char_eq_iff, Char.reduceToNat]
    rw [if_neg (by omega), if_neg (by omega)]
  constructor
  · simp [verdict, run, show transition number_state_start '0' = some number_int_is_zero by decide, h0]
  · simp [verdict, run, show transition number_state_start '-' = some number_state_sign by decide,
      show transition number_state_sign '0' = some number_int_is_zero by decide, h0]

theorem digit_not_mark {c : Char} (h : Digit c) : c ≠ '.' ∧ c ≠ 'e' ∧ c ≠ 'E' := by
  simp only [Digit, char_le_iff, Char.reduceToNat] at h
  simp only [ne_eq, char_eq_iff, Char.reduceToNat]
  omega

theorem digit19_digit {c : Char} (h : '1' ≤ c ∧ c ≤ '9') : Digit c := by
  simp only [Digit, char_le_iff, Char.reduceToNat] at h ⊢
  omega

theorem stageInv_step {s s2 : number_state} {c : Char} {pre : List Char}
    (hinv : StageInv s pre) (htr : transition s c = some s2) : StageInv s2 (pre ++ [c]) := by
  have key : (stage s2 = stage s ∧ c ≠ '.' ∧ c ≠ 'e' ∧ c ≠ 'E') ∨
      (stage s = 0 ∧ stage s2 = 1 ∧ c = '.') ∨
      (stage s2 = 2 ∧ (c = 'e' ∨ c = 'E')) := by
    cases s with
    | number_state_start =>
      rcases transition_start htr with ⟨rfl, rfl⟩ | ⟨rfl, rfl⟩ | ⟨hd, rfl⟩
      · exact Or.inl ⟨rfl, by decide⟩
      · exact Or.inl ⟨rfl, by decide⟩
      · exact Or.inl ⟨rfl, digit_not_mark (digit19_digit hd)⟩
    | number_state_sign =>
      rcases transition_sign htr with ⟨rfl, rfl⟩ | ⟨hd, rfl⟩
      · exact Or.inl ⟨rfl, by decide⟩
      · exact Or.inl ⟨rfl, digit_not_mark (digit19_digit hd)⟩
    | number_int_is_zero =>
      rcases transition_zero htr with ⟨rfl, rfl⟩ | ⟨hm, rfl⟩
      · exact Or.inr (Or.inl ⟨rfl, rfl, rfl⟩)
      · exact Or.inr (Or.inr ⟨rfl, hm⟩)
    | number_state_int =>
      rcases transition_int htr with ⟨hd, rfl⟩ | ⟨rfl, rfl⟩ | ⟨hm, rfl⟩
      · exact Or.inl ⟨rfl, digit_not_mark hd⟩
      · exact Or.inr (Or.inl ⟨rfl, rfl, rfl⟩)
      · exact Or.inr (Or.inr ⟨rfl, hm⟩)
    | number_state_point =>
      obtain ⟨hd, rfl⟩ := transition_point htr
      exact Or.inl ⟨rfl, digit_not_mark hd⟩
    | number_state_fractional =>
      rcases transition_fractional htr with ⟨hd, rfl⟩ | ⟨hm, rfl⟩
      · exact Or.inl ⟨rfl, digit_not_mark hd⟩
      · exact Or.inr (Or.inr ⟨rfl, hm⟩)
    | number_state_exponent_start =>
      rcases transition_exponent_start htr with ⟨hm, rfl⟩ | ⟨hd, rfl⟩
      · rcases hm with rfl | rfl
        · exact Or.inl ⟨rfl, by decide⟩
        · exact Or.inl ⟨rfl, by decide⟩
      · exact Or.inl ⟨rfl, digit_not_mark hd⟩
    | number_state_exponent_sign =>
      obtain ⟨hd, rfl⟩ := transition_exponent_sign htr
      exact Or.inl ⟨rfl, digit_not_mark hd⟩
    | number_state_exponent =>
      obtain ⟨hd, rfl⟩ := transition_exponent htr
      exact Or.inl ⟨rfl, digit_not_mark hd⟩
  obtain ⟨i0, i1, i2⟩ := hinv
  rcases key with ⟨hst, hdot, he, hE⟩ | ⟨h0, h1, rfl⟩ | ⟨h2, hm⟩
  · rw [StageInv, hst]
    have e1 : ('.' : Char) ≠ c := fun h => hdot h.symm
    have e2 : ('e' : Char) ≠ c := fun h => he h.symm
    have e3 : ('E' : Char) ≠ c := fun h => hE h.symm
    refine ⟨fun h => ?_, fun h => ?_, fun h => ?_⟩
    · simpa [e1, e2, e3] using i0 h
    · simpa [e1, e2, e3] using i1 h
    · simpa [e1, e2, e3] using i2 h
  · rw [StageInv, h1]
    refine ⟨fun h => by omega, fun _ => ?_, fun h => by omega⟩
    have := i0 h0
    simp [this]
  · rw [StageInv, h2]
    refine ⟨fun h => by omega, fun h => by omega, fun _ => ?_⟩
    rcases hm with rfl | rfl <;> simp

theorem stageInv_run (t : List Char) :
    ∀ (s s3 : number_state) (pre : List Char), StageInv s pre → run s t = some s3 →
      StageInv s3 (pre ++ t) := by
  induction t with
  | nil =>
    intro s s3 pre hinv h
    simp only [run, Option.some.injEq] at h
    subst h
    simpa using hinv
  | cons c r ih =>
    intro s s3 pre hinv h
    simp only [run] at h
    cases htr : transition s c with
    | none => simp [htr] at h
    | some s2 =>
      rw [htr] at h
      have := ih s2 s3 (pre ++ [c]) (stageInv_step hinv htr) h
      simpa using this

theorem stageInv_start : StageInv number_state_start [] := by
  refine ⟨fun _ => by simp, fun h => ?_, fun h => ?_⟩
  · simp [stage] at h
  · simp [stage] at h

/-- The verdict on an accepted text, read off its characters. -/
theorem verdict_classification {t : List Char} (h : verdict t ≠ .BAD_NUMBER) :
    (verdict t = .Integer ↔ ('.' ∉ t ∧ 'e' ∉ t ∧ 'E' ∉ t)) ∧
    (verdict t = .Decimal ↔ ('.' ∈ t ∧ 'e' ∉ t ∧ 'E' ∉ t)) ∧
    (verdict t = .Float ↔ ('e' ∈ t ∨ 'E' ∈ t)) := by
  unfold verdict at h ⊢
  cases hr : run number_state_start t with
  | none => simp [hr] at h
  | some s3 =>
    have hinv := stageInv_run t _ s3 [] stageInv_start hr
    simp only [List.nil_append] at hinv
    obtain ⟨i0, i1, i2⟩ := hinv
    simp only [hr] at h ⊢
    cases s3 <;> simp only [classify, ne_eq, not_true_eq_false, reduceCtorEq,
      not_false_eq_true] at h ⊢
    · have := i0 rfl
      simp [this]
    · have := i0 rfl
      simp [this]
    · have := i1 rfl
      simp [this]
    · have := i2 rfl
      simp only [false_iff, true_iff, not_and_or, not_not]
      refine ⟨?_, ?_, this⟩
      · rcases this with h | h
        · exact Or.inr (Or.inl h)
        · exact Or.inr (Or.inr h)
      · rcases this with h | h
        · exact Or.inr (Or.inl h)
        · exact Or.inr (Or.inr h)

end json.internal

namespace json

open json.internal json.internal.number_state json.spec

theorem memset_eq (byte : Nat) : ∀ (count : Nat) (bytes : List Nat) (start : Nat),
    start + count = bytes.length →
    memset bytes start byte count = bytes.take start ++ List.replicate count byte := by
  intro count
  induction count with
  | zero =>
    intro bytes start h
    simp only [Nat.add_zero] at h
    simp [memset, h]
  | succ n ih =>
    intro bytes start h
    have hlt : start < bytes.length := by omega
    rw [memset, ih (bytes.set start byte) (start + 1) (by simp; omega)]
    rw [List.set_eq_take_append_cons_drop, if_pos hlt]
    have hl : (List.take start bytes).length = start := by simp; omega
    rw [List.take_append_eq_append_take, hl]
    simp [List.replicate_succ, List.take_take]

theorem memset_all (bytes : List Nat) (h : bytes.length = 24) :
    memset bytes 0 0xFF sizeof_value_ = List.replicate 24 0xFF := by
  rw [memset_eq 0xFF sizeof_value_ bytes 0 (by simp [sizeof_value_, capacity_, h])]
  simp [sizeof_value_, capacity_]

theorem pack_eq (value_ : List Nat) (text : List Char) (hne : text ≠ [])
    (hlen : text.length ≤ 48) :
    pack value_ text =
      ⟨pack_finish (text.foldl pack_char ⟨value_, 0, false, 0xFF, 0xFF⟩), none⟩ := by
  have h2 : ¬ text.length > capacity_ := by simp [capacity_]; omega
  simp only [pack, if_neg hne, if_neg h2, pack_finish]
  split <;> simp_all

theorem bits_high : ∀ c < 16, ((c <<< 4) ||| 0x0F) % 256 = 16 * c + 15 := by decide

theorem bits_low : ∀ a < 16, ∀ c < 16, (16 * a + 15) &&& (0xF0 ||| c) = 16 * a + c := by
  decide

theorem nibble_le (ch : Char) : nibble ch ≤ 14 := by
  unfold nibble
  split_ifs with h1 h2 h3
  · simp only [is_digit, Bool.and_eq_true, decide_eq_true_eq, char_le_iff,
      Char.reduceToNat] at h1
    simp only [Char.reduceToNat]
    omega
  · omega
  · omega
  · omega

theorem nibbles_cons (c : Char) (t : List Char) :
    nibbles (c :: t) = if c = '+' then nibbles t else nibble c :: nibbles t := by
  by_cases h : c = '+' <;> simp [nibbles, List.filter_cons, h]

theorem pack_char_plus (v : pack_vars) : pack_char v '+' = v := by
  simp [pack_char, show is_digit '+' = false by decide]

theorem pack_char_numeral {c : Char} (hc : NumeralChar c) (hp : c ≠ '+') (v : pack_vars) :
    pack_char v c = pack_store { v with c := nibble c } := by
  unfold pack_char nibble
  by_cases hd : is_digit c = true
  · simp [hd]
  · have hnd : ¬ Digit c := by rwa [digit_iff]
    simp only [hd, Bool.false_eq_true, if_false, if_neg hp]
    rcases hc with h | h | h | h | h | h
    · exact absurd h hnd
    · exact absurd h hp
    · subst h; simp
    · subst h; simp
    · subst h; simp
    · subst h; simp

/-- The loop of `pack` on the characters of a numeral, followed by the code after
the loop, in terms of the codes of the text. -/
theorem pack_fold (t : List Char) (ht : ∀ c ∈ t, NumeralChar c) :
    ∀ v : pack_vars, v.value_.length = 24 →
      (v.high = false → 2 * v.p + (nibbles t).length ≤ 48 →
        pack_finish (t.foldl pack_char v) =
          v.value_.take v.p ++ (pair_up (nibbles t) ++
            List.replicate (24 - v.p - ((nibbles t).length + 1) / 2) 0xFF)) ∧
      (v.high = true → ∀ a, a < 16 → v.buffer = 16 * a + 15 →
        2 * v.p + 1 + (nibbles t).length ≤ 48 →
        pack_finish (t.foldl pack_char v) =
          v.value_.take v.p ++ (pair_up (a :: nibbles t) ++
            List.replicate (24 - v.p - ((nibbles t).length + 2) / 2) 0xFF)) := by
  induction t with
  | nil =>
    intro v hlen
    constructor
    · intro hh hb
      simp only [nibbles, List.filter_nil, List.map_nil, List.length_nil] at hb
      simp only [List.foldl_nil, pack_finish, hh, Bool.false_eq_true, if_false]
      rw [memset_eq 0xFF _ _ _ (by simp [sizeof_value_, capacity_, hlen]; omega)]
      simp [nibbles, pair_up, sizeof_value_, capacity_]
    · intro hh a ha hbuf hb
      simp only [nibbles, List.filter_nil, List.map_nil, List.length_nil] at hb
      simp only [List.foldl_nil, pack_finish, hh, if_true]
      rw [memset_eq 0xFF _ _ _ (by simp [sizeof_value_, capacity_, hlen]; omega)]
      rw [List.set_eq_take_append_cons_drop, if_pos (by omega)]
      have hl : (List.take v.p v.value_).length = v.p := by simp; omega
      rw [List.take_append_eq_append_take, hl]
      simp [nibbles, pair_up, sizeof_value_, capacity_, List.take_take, hbuf]
      omega
  | cons c r ih =>
    intro v hlen
    have hr : ∀ x ∈ r, NumeralChar x := fun x hx => ht x (by simp [hx])
    have hc : NumeralChar c := ht c (by simp)
    simp only [List.foldl_cons, nibbles_cons]
    by_cases hp : c = '+'
    · subst hp
      simp only [pack_char_plus, if_true]
      exact ih hr v hlen
    · simp only [if_neg hp, pack_char_numeral hc hp, List.length_cons]
      have hn := nibble_le c
      constructor
      · intro hh hb
        have hst : pack_store { v with c := nibble c } =
            pack_vars.mk v.value_ v.p true (16 * nibble c + 15) (nibble c) := by
          simp [pack_store, hh, bits_high (nibble c) (by omega)]
        rw [hst]
        have := (ih hr (pack_vars.mk v.value_ v.p true (16 * nibble c + 15) (nibble c))
          hlen).2 rfl (nibble c) (by omega) rfl (by simp only; omega)
        rw [this]
      · intro hh a ha hbuf hb
        have hst : pack_store { v with c := nibble c } =
            pack_vars.mk (v.value_.set v.p (16 * a + nibble c)) (v.p + 1) false
              (16 * a + nibble c) (nibble c) := by
          simp [pack_store, hh, hbuf, bits_low a ha (nibble c) (by omega)]
        rw [hst]
        have := (ih hr (pack_vars.mk (v.value_.set v.p (16 * a + nibble c)) (v.p + 1) false
              (16 * a + nibble c) (nibble c))
          (by simpa using hlen)).1 rfl (by simp only; omega)
        rw [this]
        simp only [pair_up]
        rw [List.set_eq_take_append_cons_drop, if_pos (by omega)]
        have hl : (List.take v.p v.value_).length = v.p := by simp; omega
        rw [List.take_append_eq_append_take, hl]
        have e1 : 24 - (v.p + 1) - ((nibbles r).length + 1) / 2 =
            24 - v.p - ((nibbles r).length + 1 + 2) / 2 := by omega
        simp only [List.take_take, List.take_append_eq_append_take, hl]
        simp
        omega

theorem nibbles_length_le (t : List Char) : (nibbles t).length ≤ t.length := by
  simp only [nibbles, List.length_map]
  exact List.length_filter_le _ _

/-- The bytes `pack` leaves for a text written with the characters of a numeral. -/
theorem pack_numeral (storage : List Nat) (t : List Char) (hs : storage.length = 24)
    (hne : t ≠ []) (hlen : t.length ≤ 48) (ht : ∀ c ∈ t, NumeralChar c) :
    pack storage t = ⟨packed (nibbles t), none⟩ := by
  rw [pack_eq storage t hne hlen]
  have hn := nibbles_length_le t
  have := (pack_fold t ht ⟨storage, 0, false, 0xFF, 0xFF⟩ hs).1 rfl (by simp only; omega)
  rw [this]
  simp [packed, sizeof_value_, capacity_]

theorem numeralChar_of_accepted {t : List Char} (h : verdict t ≠ .BAD_NUMBER) :
    ∀ c ∈ t, NumeralChar c := by
  intro c hc
  by_contra hn
  obtain ⟨a, b, rfl⟩ := List.append_of_mem hc
  exact h (verdict_append_bad a _ (run_bad_char hn b))

/-- An accepted text starts with a minus sign or a digit. -/
theorem head_of_accepted {t : List Char} (h : verdict t ≠ .BAD_NUMBER) :
    ∃ c r, t = c :: r ∧ (c = '-' ∨ Digit c) := by
  cases t with
  | nil => exact absurd rfl h
  | cons c r =>
    refine ⟨c, r, rfl, ?_⟩
    unfold verdict at h
    simp only [run] at h
    cases htr : transition number_state_start c with
    | none => simp [htr] at h
    | some s2 =>
      rcases transition_start htr with ⟨rfl, _⟩ | ⟨rfl, _⟩ | ⟨hd, _⟩
      · exact Or.inl rfl
      · exact Or.inr ⟨by decide, by decide⟩
      · exact Or.inr (digit19_digit hd)

theorem map_ne_nul : ∀ n < 15, map.getD n '\x00' ≠ '\x00' := by decide

theorem byte_split : ∀ a < 15, ∀ b < 16,
    (16 * a + b) >>> 4 = a ∧ 0x0F &&& (16 * a + b) = b := by decide

/-- The loop of `unpack` reads the codes back, when a filler follows them within
the 24 bytes. -/
theorem unpack_loop_packed (ns : List Nat) :
    ∀ (i : Nat) (buffer : List Char) (m : Nat), (∀ n ∈ ns, n < 15) →
      i + ns.length < 49 → (ns.length % 2 = 0 → 0 < m) →
      unpack_loop (pair_up ns ++ List.replicate m 0xFF) i buffer =
        some (buffer ++ ns.map (fun n => map.getD n '\x00'), i + ns.length) := by
  induction ns using pair_up.induct with
  | case1 =>
    intro i buffer m _ hi hm
    obtain ⟨k, rfl⟩ : ∃ k, m = k + 1 := ⟨m - 1, by have := hm rfl; omega⟩
    simp only [pair_up, List.nil_append, List.replicate_succ, unpack_loop,
      sizeof_unpacked_type, capacity_]
    simp only [List.length_nil, Nat.add_zero] at hi
    rw [if_pos hi, if_pos (by decide)]
    simp
  | case2 a =>
    intro i buffer m hns hi _
    have ha : a < 15 := hns a (by simp)
    simp only [List.length_singleton] at hi
    obtain ⟨h1, h2⟩ := byte_split a ha 15 (by omega)
    simp only [pair_up, List.singleton_append, unpack_loop, sizeof_unpacked_type, capacity_,
      h1, h2]
    rw [if_pos (by omega), if_neg (map_ne_nul a ha), if_neg (by omega), if_pos (by decide)]
    simp
  | case3 a b r ih =>
    intro i buffer m hns hi hm
    have ha : a < 15 := hns a (by simp)
    have hb : b < 15 := hns b (by simp)
    simp only [List.length_cons] at hi hm
    obtain ⟨h1, h2⟩ := byte_split a ha b (by omega)
    simp only [pair_up, List.cons_append, unpack_loop, sizeof_unpacked_type, capacity_,
      h1, h2]
    rw [if_pos (by omega), if_neg (map_ne_nul a ha), if_neg (by omega),
      if_neg (map_ne_nul b hb)]
    have := ih (i + 2) (buffer ++ [map.getD a '\x00', map.getD b '\x00']) m
      (fun n hn => hns n (by simp [hn])) (by omega) (fun h => hm (by omega))
    show unpack_loop (pair_up r ++ List.replicate m 255) (i + 2) _ = _
    rw [this]
    simp
    omega

theorem digit_char_cases {c : Char} (h : Digit c) :
    c = '0' ∨ c = '1' ∨ c = '2' ∨ c = '3' ∨ c = '4' ∨ c = '5' ∨ c = '6' ∨ c = '7' ∨
      c = '8' ∨ c = '9' := by
  simp only [Digit, char_le_iff, Char.reduceToNat] at h
  simp only [char_eq_iff, Char.reduceToNat]
  omega

/-- The table of `unpack` gives back the character `pack` stored, an `E` as `e`. -/
theorem map_nibble {c : Char} (hc : NumeralChar c) (hp : c ≠ '+') :
    map.getD (nibble c) '\x00' = if c = 'E' then 'e' else c := by
  rcases hc with h | h | h | h | h | h
  · rcases digit_char_cases h with h | h | h | h | h | h | h | h | h | h <;> subst h <;> decide
  · exact absurd h hp
  · subst h; decide
  · subst h; decide
  · subst h; decide
  · subst h; decide

theorem nibble_normalise (c : Char) : nibble (if c = 'E' then 'e' else c) = nibble c := by
  by_cases h : c = 'E'
  · subst h; decide
  · simp [h]

theorem map_nibbles {t : List Char} (ht : ∀ c ∈ t, NumeralChar c) :
    (nibbles t).map (fun n => map.getD n '\x00') = normalise t := by
  simp only [nibbles, normalise, List.map_map]
  apply List.map_congr_left
  intro c hc
  have hm := List.mem_filter.mp hc
  exact map_nibble (ht c hm.1) (by simpa using hm.2)

theorem nibbles_of_normalise (t : List Char) : (normalise t).map nibble = nibbles t := by
  simp only [nibbles, normalise, List.map_map]
  apply List.map_congr_left
  intro c _
  exact nibble_normalise c

theorem nibbles_lt (t : List Char) : ∀ n ∈ nibbles t, n < 15 := by
  intro n hn
  simp only [nibbles, List.mem_map] at hn
  obtain ⟨c, _, rfl⟩ := hn
  have := nibble_le c
  omega

/-- Two texts of numeral characters have the same codes exactly when they agree after
`+` is deleted and `E` is written `e`. -/
theorem nibbles_eq_iff {s t : List Char} (hs : ∀ c ∈ s, NumeralChar c)
    (ht : ∀ c ∈ t, NumeralChar c) : nibbles s = nibbles t ↔ normalise s = normalise t := by
  constructor
  · intro h
    rw [← map_nibbles hs, ← map_nibbles ht, h]
  · intro h
    rw [← nibbles_of_normalise s, ← nibbles_of_normalise t, h]

theorem pair_up_length (ns : List Nat) : (pair_up ns).length = (ns.length + 1) / 2 := by
  induction ns using pair_up.induct with
  | case1 => simp [pair_up]
  | case2 a => simp [pair_up]
  | case3 a b r ih =>
    simp only [pair_up, List.length_cons, ih]
    omega

theorem packed_length (ns : List Nat) (h : ns.length ≤ 48) : (packed ns).length = 24 := by
  simp only [packed, List.length_append, pair_up_length, List.length_replicate, sizeof_value_,
    capacity_]
  omega

theorem decode_pair_up (ns : List Nat) : ∀ (m : Nat), (∀ n ∈ ns, n < 15) →
    decode (pair_up ns ++ List.replicate m 0xFF) = ns := by
  induction ns using pair_up.induct with
  | case1 =>
    intro m _
    cases m with
    | zero => simp [pair_up, decode]
    | succ k => simp [pair_up, decode, List.replicate_succ]
  | case2 a =>
    intro m hns
    have ha : a < 15 := hns a (by simp)
    have h1 : (16 * a + 15) / 16 = a := by omega
    have h2 : (16 * a + 15) % 16 = 15 := by omega
    simp only [pair_up, List.singleton_append, decode, h1, h2]
    rw [if_neg (by omega)]
    simp
  | case3 a b r ih =>
    intro m hns
    have ha : a < 15 := hns a (by simp)
    have hb : b < 15 := hns b (by simp)
    have h1 : (16 * a + b) / 16 = a := by omega
    have h2 : (16 * a + b) % 16 = b := by omega
    have := ih m (fun n hn => hns n (by simp [hn]))
    simp only [pair_up, List.cons_append, decode, h1, h2]
    rw [if_neg (by omega), if_neg (by omega)]
    show a :: b :: decode (pair_up r ++ List.replicate m 255) = a :: b :: r
    rw [this]

/-- Packing is injective on code lists. -/
theorem packed_inj {ns ms : List Nat} (hn : ∀ n ∈ ns, n < 15) (hm : ∀ n ∈ ms, n < 15)
    (h : packed ns = packed ms) : ns = ms := by
  have h1 := decode_pair_up ns (sizeof_value_ - (ns.length + 1) / 2) hn
  have h2 := decode_pair_up ms (sizeof_value_ - (ms.length + 1) / 2) hm
  rw [← h1, ← h2]
  exact congrArg decode h

theorem packed_head_ne (ns : List Nat) (hne : ns ≠ []) (hn : ∀ n ∈ ns, n < 15) :
    (packed ns).getD 0 0 ≠ 0xFF := by
  cases ns with
  | nil => exact absurd rfl hne
  | cons a r =>
    have ha : a < 15 := hn a (by simp)
    cases r with
    | nil =>
      simp only [packed, pair_up, List.singleton_append, List.getD_cons_zero]
      omega
    | cons b r2 =>
      have hb : b < 15 := hn b (by simp)
      simp only [packed, pair_up, List.cons_append, List.getD_cons_zero]
      omega

/-- The member `string()` on the bytes of fewer than 48 codes gives the characters
of the codes. -/
theorem number_string_packed (ns : List Nat) (hne : ns ≠ []) (hn : ∀ n ∈ ns, n < 15)
    (hlen : ns.length < 48) :
    number_string (packed ns) = some (ns.map (fun n => map.getD n '\x00')) := by
  have hu := unpack_loop_packed ns 0 [] (sizeof_value_ - (ns.length + 1) / 2) hn (by omega)
    (fun _ => by simp only [sizeof_value_, capacity_]; omega)
  simp only [number_string, if_neg (packed_head_ne ns hne hn), unpack]
  show (match unpack_loop (pair_up ns ++ List.replicate (sizeof_value_ - (ns.length + 1) / 2) 255)
      0 [] with
    | none => none
    | some (buffer, size) => some (buffer.take size)) = _
  rw [hu]
  simp

theorem assign_cstr_eq (fuel : Nat) (value_ : List Nat) (t : List Char) (hne : t ≠ [])
    (hfuel : t.length < fuel) :
    assign fuel value_ (some (cstr t)) =
      some (if verdict t ≠ .BAD_NUMBER then pack value_ t
        else ⟨value_, some "bad json::number"⟩) := by
  have hc : (cstr t).chars = t := rfl
  simp only [assign, hc, if_neg hne, validate_number_cstr t fuel hfuel]
  split_ifs <;> rfl

/-- The member `assign` on an accepted text that fits: the codes of the text are stored. -/
theorem assign_accepted (fuel : Nat) (storage : List Nat) (t : List Char)
    (hs : storage.length = 24) (hfuel : t.length < fuel) (hacc : verdict t ≠ .BAD_NUMBER)
    (hcap : t.length ≤ 48) :
    assign fuel storage (some (cstr t)) = some ⟨packed (nibbles t), none⟩ := by
  obtain ⟨c, r, rfl, _⟩ := head_of_accepted hacc
  rw [assign_cstr_eq fuel storage _ (by simp) hfuel, if_pos hacc,
    pack_numeral storage _ hs (by simp) hcap (numeralChar_of_accepted hacc)]

theorem nibbles_ne_nil_of_accepted {t : List Char} (hacc : verdict t ≠ .BAD_NUMBER) :
    nibbles t ≠ [] := by
  obtain ⟨c, r, rfl, hc⟩ := head_of_accepted hacc
  have hp : c ≠ '+' := by
    rcases hc with rfl | hd
    · decide
    · simp only [Digit, char_le_iff, Char.reduceToNat] at hd
      simp only [ne_eq, char_eq_iff, Char.reduceToNat]
      omega
  simp [nibbles_cons, hp]

theorem unpack_loop_mem : ∀ (bytes : List Nat) (i : Nat) (buffer out : List Char) (size : Nat),
    unpack_loop bytes i buffer = some (out, size) →
    ∀ c ∈ out, c ∈ buffer ∨ c ∈ map := by
  intro bytes
  induction bytes with
  | nil =>
    intro i buffer out size h c hc
    simp [unpack_loop] at h
  | cons b r ih =>
    intro i buffer out size h c hc
    have hm : ∀ k, map.getD k '\x00' ∈ map := by
      intro k
      by_cases hk : k < 16
      · revert k; decide
      · have : map.length ≤ k := by simp [map]; omega
        rw [List.getD_eq_default _ _ this]
        decide
    simp only [unpack_loop] at h
    split_ifs at h
    · simp only [Option.some.injEq, Prod.mk.injEq] at h
      rw [← h.1] at hc
      exact Or.inl hc
    · simp only [Option.some.injEq, Prod.mk.injEq] at h
      rw [← h.1] at hc
      rcases List.mem_append.mp hc with h1 | h1
      · exact Or.inl h1
      · simp only [List.mem_singleton] at h1
        rw [h1]
        exact Or.inr (hm _)
    · rcases ih _ _ _ _ h c hc with h1 | h1
      · rcases List.mem_append.mp h1 with h2 | h2
        · exact Or.inl h2
        · simp only [List.mem_cons, List.mem_singleton, List.not_mem_nil, or_false] at h2
          rcases h2 with h2 | h2 <;> rw [h2] <;> exact Or.inr (hm _)
      · exact Or.inr h1

/-- The member `string()` gives "NaN" only when the first byte is `0xFF`. -/
theorem number_string_nan {value_ : List Nat} (h : number_string value_ = some ['N', 'a', 'N']) :
    value_.getD 0 0 = 0xFF := by
  by_contra hne
  simp only [number_string, if_neg hne, unpack] at h
  cases hu : unpack_loop value_ 0 [] with
  | none => simp [hu] at h
  | some p =>
    obtain ⟨out, size⟩ := p
    simp only [hu, Option.some.injEq] at h
    have hN : 'N' ∈ out := List.mem_of_mem_take (by rw [h]; simp)
    rcases unpack_loop_mem _ _ _ _ _ hu 'N' hN with h1 | h1
    · simp at h1
    · revert h1; decide

theorem digitChar_digit (n : Nat) (h : n < 10) : Digit (Nat.digitChar n) := by
  interval_cases n <;> exact ⟨by decide, by decide⟩

theorem digitChar_value (n : Nat) (h : n < 10) : (Nat.digitChar n).toNat - '0'.toNat = n := by
  interval_cases n <;> rfl

theorem digits_value_snoc (pre : List Char) (d : Char) :
    digits_value (pre ++ [d]) = 10 * digits_value pre + (d.toNat - '0'.toNat) := by
  simp [digits_value, List.foldl_append]

theorem toDigitsCore_spec : ∀ (fuel n : Nat) (ds : List Char),
    ∃ pre, Nat.toDigitsCore 10 fuel n ds = pre ++ ds ∧ (∀ c ∈ pre, Digit c) ∧
      (0 < fuel → pre ≠ []) ∧ (∀ k, n < 10 ^ (k + 1) → pre.length ≤ k + 1) ∧
      (n < fuel → digits_value pre = n) := by
  intro fuel
  induction fuel with
  | zero =>
    intro n ds
    exact ⟨[], by simp [Nat.toDigitsCore], by simp, by simp, by simp, by simp⟩
  | succ f ih =>
    intro n ds
    have hd : Digit (Nat.digitChar (n % 10)) := digitChar_digit _ (Nat.mod_lt _ (by omega))
    have hval := digitChar_value (n % 10) (Nat.mod_lt _ (by omega))
    by_cases h0 : n / 10 = 0
    · refine ⟨[Nat.digitChar (n % 10)], by simp [Nat.toDigitsCore, h0], ?_, by simp, by simp, ?_⟩
      · intro c hc
        simp only [List.mem_singleton] at hc
        rw [hc]; exact hd
      · intro _
        have := digits_value_snoc [] (Nat.digitChar (n % 10))
        simp only [List.nil_append] at this
        rw [this, hval]
        simp only [digits_value, List.foldl_nil]
        omega
    · obtain ⟨pre, h1, h2, _, h4, h5⟩ := ih (n / 10) (Nat.digitChar (n % 10) :: ds)
      refine ⟨pre ++ [Nat.digitChar (n % 10)], by simp [Nat.toDigitsCore, h0, h1], ?_, by simp,
        ?_, ?_⟩
      · intro c hc
        rcases List.mem_append.mp hc with hc | hc
        · exact h2 c hc
        · simp only [List.mem_singleton] at hc
          rw [hc]; exact hd
      · intro k hk
        cases k with
        | zero => exfalso; simp only [Nat.zero_add, Nat.pow_one] at hk; omega
        | succ j =>
          have : n / 10 < 10 ^ (j + 1) := by
            apply Nat.div_lt_of_lt_mul
            rw [← Nat.pow_succ']
            exact hk
          have := h4 j this
          simp only [List.length_append, List.length_singleton]
          omega
      · intro hf
        rw [digits_value_snoc, hval, h5 (by omega)]
        omega

theorem digit_numeralChar {c : Char} (h : Digit c) : NumeralChar c := Or.inl h

/-- The decimal rendering: a possible minus sign, then at least one digit. -/
theorem lexical_cast_spec (v : Int) :
    ∃ ds, ds ≠ [] ∧ (∀ c ∈ ds, Digit c) ∧
      (∀ k, v.natAbs < 10 ^ (k + 1) → ds.length ≤ k + 1) ∧
      digits_value ds = v.natAbs ∧
      lexical_cast v = if v < 0 then '-' :: ds else ds := by
  obtain ⟨pre, h1, h2, h3, h4, h5⟩ := toDigitsCore_spec (v.natAbs + 1) v.natAbs []
  refine ⟨pre, h3 (by omega), h2, h4, h5 (by omega), ?_⟩
  simp only [lexical_cast, Nat.toDigits, h1, List.append_nil]

theorem lexical_cast_chars (v : Int) :
    lexical_cast v ≠ [] ∧ (∀ c ∈ lexical_cast v, NumeralChar c) ∧
      normalise (lexical_cast v) = lexical_cast v ∧
      (v.natAbs < 10 ^ 47 → (lexical_cast v).length ≤ 48) := by
  obtain ⟨ds, hne, hds, hlen, _, heq⟩ := lexical_cast_spec v
  have hall : ∀ c ∈ lexical_cast v, c = '-' ∨ Digit c := by
    intro c hc
    rw [heq] at hc
    split_ifs at hc
    · rcases List.mem_cons.mp hc with h | h
      · exact Or.inl h
      · exact Or.inr (hds c h)
    · exact Or.inr (hds c hc)
  have hplain : ∀ c ∈ lexical_cast v, c ≠ '+' ∧ c ≠ 'E' := by
    intro c hc
    rcases hall c hc with rfl | hd
    · decide
    · simp only [Digit, char_le_iff, Char.reduceToNat] at hd
      simp only [ne_eq, char_eq_iff, Char.reduceToNat]
      omega
  refine ⟨?_, ?_, ?_, ?_⟩
  · rw [heq]; split_ifs
    · simp
    · exact hne
  · intro c hc
    rcases hall c hc with rfl | hd
    · exact Or.inr (Or.inr (Or.inl rfl))
    · exact Or.inl hd
  · unfold normalise
    have hf : (lexical_cast v).filter (fun c => c ≠ '+') = lexical_cast v := by
      rw [List.filter_eq_self]
      intro c hc
      simpa using (hplain c hc).1
    rw [hf]
    conv_rhs => rw [← List.map_id (lexical_cast v)]
    apply List.map_congr_left
    intro c hc
    simp [(hplain c hc).2]
  · intro hv
    have := hlen 46 hv
    rw [heq]; split_ifs
    · simp only [List.length_cons]; omega
    · omega

/-- Comparing the bytes of two code lists compares the code lists. -/
theorem is_equal_packed {ns ms : List Nat} (hn : ∀ n ∈ ns, n < 15) (hm : ∀ n ∈ ms, n < 15)
    (hnl : ns.length ≤ 48) (hml : ms.length ≤ 48) :
    is_equal (packed ns) (packed ms) = true ↔ ns = ms := by
  have h1 : (packed ns).take sizeof_value_ = packed ns :=
    List.take_of_length_le (by rw [packed_length ns hnl]; decide)
  have h2 : (packed ms).take sizeof_value_ = packed ms :=
    List.take_of_length_le (by rw [packed_length ms hml]; decide)
  simp only [is_equal, h1, h2, decide_eq_true_eq]
  exact ⟨packed_inj hn hm, fun h => by rw [h]⟩

theorem normalise_eq_self {l : List Char} (h : ∀ c ∈ l, c ≠ '+' ∧ c ≠ 'E') :
    normalise l = l := by
  unfold normalise
  have hf : l.filter (fun c => c ≠ '+') = l := by
    rw [List.filter_eq_self]
    intro c hc
    simpa using (h c hc).1
  rw [hf]
  conv_rhs => rw [← List.map_id l]
  apply List.map_congr_left
  intro c hc
  simp [(h c hc).2]

theorem mem_normalise_e {t : List Char} (h : 'e' ∈ t ∨ 'E' ∈ t) : 'e' ∈ normalise t := by
  simp only [normalise, List.mem_map, List.mem_filter]
  rcases h with h | h
  · exact ⟨'e', ⟨h, by decide⟩, by decide⟩
  · exact ⟨'E', ⟨h, by decide⟩, by decide⟩

/-- An accepted text without exponent marker is its own normal form. -/
theorem normalise_of_no_exponent {t : List Char} (hacc : verdict t ≠ .BAD_NUMBER)
    (he : 'e' ∉ t) (hE : 'E' ∉ t) : normalise t = t := by
  obtain ⟨sg, i, f, e, rfl, hsg, hi, hf, hx⟩ := (verdict_ne_bad_iff t).mp hacc
  apply normalise_eq_self
  have hdig : ∀ c, Digit c → c ≠ '+' ∧ c ≠ 'E' := by
    intro c hd
    simp only [Digit, char_le_iff, Char.reduceToNat] at hd
    simp only [ne_eq, char_eq_iff, Char.reduceToNat]
    omega
  have hx0 : e = [] := by
    rcases hx with rfl | ⟨m, sg2, ds, rfl, hm, _⟩
    · rfl
    · exfalso
      rcases hm with rfl | rfl
      · exact he (by simp)
      · exact hE (by simp)
  subst hx0
  intro c hc
  simp only [List.append_nil, List.mem_append] at hc
  rcases hc with hc | hc | hc
  · rcases hsg with rfl | rfl
    · simp at hc
    · simp only [List.mem_singleton] at hc
      subst hc; decide
  · rcases hi with rfl | ⟨d, ds, rfl, h1, h9, hds⟩
    · simp only [List.mem_singleton] at hc
      subst hc; decide
    · rcases List.mem_cons.mp hc with rfl | hc
      · exact hdig _ (digit19_digit ⟨h1, h9⟩)
      · exact hdig c (hds c hc)
  · rcases hf with rfl | ⟨ds, rfl, _, hds⟩
    · simp at hc
    · rcases List.mem_cons.mp hc with rfl | hc
      · decide
      · exact hdig c (hds c hc)

theorem digits_plain {ds : List Char} (hds : ∀ c ∈ ds, Digit c) :
    ∀ c ∈ ds, c ≠ 'e' ∧ c ≠ 'E' ∧ c ≠ '.' ∧ c ≠ '-' := by
  intro c hc
  have hd := hds c hc
  simp only [Digit, char_le_iff, Char.reduceToNat] at hd
  simp only [ne_eq, char_eq_iff, Char.reduceToNat]
  omega

theorem exponent10_plain {l : List Char} (h : ∀ c ∈ l, c ≠ 'e' ∧ c ≠ 'E' ∧ c ≠ '.') :
    exponent10 l = 0 := by
  have htw : l.takeWhile (fun c => decide (c ≠ 'e' ∧ c ≠ 'E')) = l := by
    rw [List.takeWhile_eq_self_iff]
    intro c hc
    simpa using ⟨(h c hc).1, (h c hc).2.1⟩
  have hdw : l.dropWhile (fun c => decide (c ≠ 'e' ∧ c ≠ 'E')) = [] := by
    rw [List.dropWhile_eq_nil_iff]
    intro c hc
    simpa using ⟨(h c hc).1, (h c hc).2.1⟩
  have hdot : l.dropWhile (fun c => decide (c ≠ '.')) = [] := by
    rw [List.dropWhile_eq_nil_iff]
    intro c hc
    simpa using (h c hc).2.2
  unfold exponent10
  simp only [htw, hdw, hdot]
  simp [afterSign, digits_value]

theorem mantissa_abs {ds : List Char} (h : ∀ c ∈ ds, c ≠ 'e' ∧ c ≠ 'E' ∧ c ≠ '.') :
    digits_value ((ds.takeWhile (fun c => decide (c ≠ 'e' ∧ c ≠ 'E'))).filter
      (fun c => decide (c ≠ '.'))) = digits_value ds := by
  have htw : ds.takeWhile (fun c => decide (c ≠ 'e' ∧ c ≠ 'E')) = ds := by
    rw [List.takeWhile_eq_self_iff]
    intro c hc
    simpa using ⟨(h c hc).1, (h c hc).2.1⟩
  have hfl : ds.filter (fun c => decide (c ≠ '.')) = ds := by
    rw [List.filter_eq_self]
    intro c hc
    simpa using (h c hc).2.2
  rw [htw, hfl]

/-- The decimal rendering of an integer denotes that integer. -/
theorem denotes_lexical_cast (v : Int) : Denotes (lexical_cast v) v := by
  obtain ⟨ds, hne, hds, _, hval, heq⟩ := lexical_cast_spec v
  have hp := digits_plain hds
  have hp3 : ∀ c ∈ ds, c ≠ 'e' ∧ c ≠ 'E' ∧ c ≠ '.' :=
    fun c hc => ⟨(hp c hc).1, (hp c hc).2.1, (hp c hc).2.2.1⟩
  have hhead : ¬ ds.head? = some '-' := by
    cases ds with
    | nil => simp
    | cons d r =>
      simp only [List.head?_cons, Option.some.injEq]
      exact (hp d (by simp)).2.2.2
  by_cases hneg : v < 0
  · rw [heq, if_pos hneg]
    have hexp : exponent10 ('-' :: ds) = 0 := by
      apply exponent10_plain
      intro c hc
      rcases List.mem_cons.mp hc with rfl | hc
      · decide
      · exact hp3 c hc
    have hman : mantissa ('-' :: ds) = -(v.natAbs : Int) := by
      unfold mantissa
      simp only [List.head?_cons, if_true, List.tail_cons]
      rw [mantissa_abs hp3, hval]
    unfold Denotes
    rw [hexp, hman]
    simp only [le_refl, if_true, Int.toNat_zero, pow_zero, mul_one]
    omega
  · rw [heq, if_neg hneg]
    have hexp : exponent10 ds = 0 := exponent10_plain hp3
    have hman : mantissa ds = (v.natAbs : Int) := by
      unfold mantissa
      simp only [if_neg hhead]
      rw [mantissa_abs hp3, hval]
    unfold Denotes
    rw [hexp, hman]
    simp only [le_refl, if_true, Int.toNat_zero, pow_zero, mul_one]
    omega

/-- An accepted text whose normal form is the decimal rendering of an integer denotes
that integer. -/
theorem denotes_of_normalise_eq {t : List Char} {v : Int} (hacc : verdict t ≠ .BAD_NUMBER)
    (h : normalise t = lexical_cast v) : Denotes t v := by
  obtain ⟨ds, _, hds, _, _, heq⟩ := lexical_cast_spec v
  have hno : 'e' ∉ lexical_cast v := by
    intro hm
    rw [heq] at hm
    have hd : ('e' : Char) ∈ ds := by
      split_ifs at hm
      · rcases List.mem_cons.mp hm with h0 | h0
        · exact absurd h0 (by decide)
        · exact h0
      · exact hm
    exact (digits_plain hds 'e' hd).1 rfl
  have hn : 'e' ∉ normalise t := by rw [h]; exact hno
  have he : 'e' ∉ t := fun hm => hn (mem_normalise_e (Or.inl hm))
  have hE : 'E' ∉ t := fun hm => hn (mem_normalise_e (Or.inr hm))
  have ht : t = lexical_cast v := by
    rw [← normalise_of_no_exponent hacc he hE]
    exact h
  rw [ht]
  exact denotes_lexical_cast v

end json

namespace json.internal.string_buffer_base

open json.spec

theorem write_at_length (src : List Nat) : ∀ (dst : List Nat) (i : Nat),
    (write_at dst i src).length = dst.length := by
  induction src with
  | nil => intro dst i; rfl
  | cons v r ih => intro dst i; simp [write_at, ih]

theorem write_at_eq (src : List Nat) : ∀ (dst : List Nat) (i : Nat),
    i + src.length ≤ dst.length →
    write_at dst i src = dst.take i ++ src ++ dst.drop (i + src.length) := by
  induction src with
  | nil => intro dst i _; simp [write_at]
  | cons v r ih =>
    intro dst i h
    simp only [List.length_cons] at h
    have hlt : i < dst.length := by omega
    rw [write_at, ih (dst.set i v) (i + 1) (by simp; omega)]
    rw [List.set_eq_take_append_cons_drop, if_pos hlt]
    have hl : (List.take i dst).length = i := by simp; omega
    have e1 : List.take (i + 1) (List.take i dst ++ v :: List.drop (i + 1) dst) =
        List.take i dst ++ [v] := by
      rw [List.take_append_eq_append_take, hl]
      simp [List.take_take]
    have e2 : List.drop (i + 1 + r.length) (List.take i dst ++ v :: List.drop (i + 1) dst) =
        List.drop (i + (r.length + 1)) dst := by
      rw [List.drop_append_eq_append_drop, hl]
      have : List.drop (i + 1 + r.length) (List.take i dst) = [] := by
        apply List.drop_eq_nil_of_le; simp; omega
      rw [this]
      have e3 : i + 1 + r.length - i = r.length + 1 := by omega
      simp only [e3, List.nil_append, List.drop_succ_cons, List.drop_drop, List.length_cons]
      congr 1
      omega
    rw [e1, e2]
    simp

theorem write_at_take (src dst : List Nat) (i : Nat) (h : i + src.length ≤ dst.length) :
    (write_at dst i src).take (i + src.length) = dst.take i ++ src := by
  rw [write_at_eq src dst i h]
  have hl : (List.take i dst ++ src).length = i + src.length := by simp; omega
  rw [List.take_append_eq_append_take, hl]
  simp [List.take_of_length_le, hl]

/-- The doubling loop returns once the fuel covers the distance to `min_size`. -/
theorem double_until_spec : ∀ (fuel n0 min_size : Nat), 0 < n0 → min_size ≤ n0 + fuel →
    ∃ n, double_until fuel n0 min_size = some n ∧ min_size ≤ n ∧ n0 ≤ n ∧ n0 ∣ n ∧
      (n0 < min_size → n < 2 * min_size) := by
  intro fuel
  induction fuel with
  | zero =>
    intro n0 min_size h0 hf
    refine ⟨n0, ?_, by omega, le_refl _, dvd_refl _, fun h => by omega⟩
    unfold double_until
    rw [if_neg (by omega)]
  | succ f ih =>
    intro n0 min_size h0 hf
    by_cases hlt : n0 < min_size
    · obtain ⟨n, h1, h2, h3, h4, h5⟩ := ih (2 * n0) min_size (by omega) (by omega)
      refine ⟨n, ?_, h2, by omega, Dvd.dvd.trans (Dvd.intro_left 2 rfl) h4, fun _ => ?_⟩
      · unfold double_until
        rw [if_pos hlt]
        exact h1
      · by_cases h6 : 2 * n0 < min_size
        · exact h5 h6
        · have : double_until f (2 * n0) min_size = some (2 * n0) := by
            unfold double_until
            rw [if_neg h6]
          rw [this] at h1
          simp only [Option.some.injEq] at h1
          omega
    · refine ⟨n0, ?_, by omega, le_refl _, dvd_refl _, fun h => absurd h hlt⟩
      unfold double_until
      rw [if_neg hlt]

theorem double_until_ge : ∀ (fuel n0 min_size n : Nat),
    double_until fuel n0 min_size = some n → min_size ≤ n := by
  intro fuel
  induction fuel with
  | zero =>
    intro n0 min_size n hh
    unfold double_until at hh
    by_cases hx : n0 < min_size
    · rw [if_pos hx] at hh; simp at hh
    · rw [if_neg hx] at hh
      simp only [Option.some.injEq] at hh
      omega
  | succ f ih =>
    intro n0 min_size n hh
    unfold double_until at hh
    by_cases hx : n0 < min_size
    · rw [if_pos hx] at hh
      exact ih _ _ _ hh
    · rw [if_neg hx] at hh
      simp only [Option.some.injEq] at hh
      omega

/-- The invariant of a buffer: the write position is inside its block. -/
theorem valid_content_length {b : string_buffer_base} (hv : b.p_ ≤ b.capazity) :
    b.content.length = b.p_ := by
  simp only [content, List.length_take]
  exact Nat.min_eq_left hv

/-- What one successful turn of the allocation loop leaves. -/
theorem grow_block_spec (h : heap) (b : string_buffer_base) (n : Nat)
    (hv : b.p_ ≤ b.capazity) (hn : b.capazity ≤ n) :
    ∀ b2 : string_buffer_base,
      b2 = { b with
            buffer_start_ :=
              match b.buffer_start_ with
              | .auto => .heap (write_at (List.replicate n h.junk) 0 b.auto_buffer_)
              | .heap c => .heap (c.take n ++ List.replicate (n - c.length) h.junk)
              | .null => .heap (List.replicate n h.junk),
            p_ := b.size } →
      b2.p_ = b.p_ ∧ b2.auto_buffer_ = b.auto_buffer_ ∧ b2.capazity = n ∧
        b2.content = b.content := by
  intro b2 hb2
  subst hb2
  cases hbs : b.buffer_start_ with
  | auto =>
    simp only [capazity, cells, hbs] at hv hn
    refine ⟨rfl, rfl, ?_, ?_⟩
    · simp [capazity, cells, write_at_length]
    · simp only [content, cells, hbs, size]
      have := write_at_eq b.auto_buffer_ (List.replicate n h.junk) 0 (by simpa using hn)
      rw [this]
      simp only [List.take_zero, List.nil_append, Nat.zero_add]
      rw [List.take_append_of_le_length hv]
  | heap c =>
    simp only [capazity, cells, hbs] at hv hn
    refine ⟨rfl, rfl, ?_, ?_⟩
    · simp only [capazity, cells, List.length_append, List.length_take, List.length_replicate]
      omega
    · simp only [content, cells, hbs, size]
      rw [List.take_of_length_le hn]
      rw [List.take_append_of_le_length hv]
  | null =>
    simp only [capazity, cells, hbs, List.length_nil] at hv hn
    refine ⟨rfl, rfl, ?_, ?_⟩
    · simp [capazity, cells]
    · have hp : b.p_ = 0 := by omega
      simp [content, cells, hbs, size, hp]

/-- What the allocation loop leaves when it returns: on failure the buffer it was
given, on success a block of at least `min_size` cells with the same content. -/
theorem grow_loop_spec (h : heap) (b : string_buffer_base) (min_size : Nat)
    (hv : b.p_ ≤ b.capazity) (hc : b.capazity < min_size) :
    ∀ (fuel n : Nat) (ok : Bool) (b2 : string_buffer_base), min_size ≤ n →
      grow_loop h b min_size fuel n = some (ok, b2) →
      (ok = false → b2 = b) ∧
      (ok = true → b2.p_ = b.p_ ∧ b2.auto_buffer_ = b.auto_buffer_ ∧
        min_size ≤ b2.capazity ∧ b2.content = b.content) := by
  intro fuel
  induction fuel with
  | zero => intro n ok b2 _ hg; simp [grow_loop] at hg
  | succ f ih =>
    intro n ok b2 hn hg
    simp only [grow_loop] at hg
    by_cases hgr : h.grants n = true
    · rw [if_pos hgr] at hg
      simp only [Option.some.injEq, Prod.mk.injEq] at hg
      obtain ⟨hok, hb2⟩ := hg
      obtain ⟨h1, h2, h3, h4⟩ := grow_block_spec h b n hv (by omega) b2 hb2.symm
      exact ⟨fun hf => by rw [← hok] at hf; simp at hf, fun _ => ⟨h1, h2, by omega, h4⟩⟩
    · rw [if_neg hgr] at hg
      split_ifs at hg with h1 h2 h2
      · simp only [Option.some.injEq, Prod.mk.injEq] at hg
        exact ⟨fun _ => hg.2.symm, fun ht => by rw [← hg.1] at ht; simp at ht⟩
      · exact ih _ ok b2 (by omega) hg
      · simp only [Option.some.injEq, Prod.mk.injEq] at hg
        exact ⟨fun _ => hg.2.symm, fun ht => by rw [← hg.1] at ht; simp at ht⟩
      · exact ih _ ok b2 (by omega) hg

/-- What `grow` leaves when it returns. -/
theorem grow_spec (fuel : Nat) (h : heap) (b : string_buffer_base) (min_size : Nat)
    (ok : Bool) (b2 : string_buffer_base) (hv : b.p_ ≤ b.capazity)
    (hg : grow fuel h b min_size = some (ok, b2)) :
    (ok = false → b2 = b ∧ b.capazity < min_size) ∧
    (ok = true → b2.p_ = b.p_ ∧ b2.auto_buffer_ = b.auto_buffer_ ∧
      min_size ≤ b2.capazity ∧ b.capazity ≤ b2.capazity ∧ b2.content = b.content) := by
  unfold grow at hg
  by_cases hle : min_size ≤ b.capazity
  · rw [if_pos hle] at hg
    simp only [Option.some.injEq, Prod.mk.injEq] at hg
    obtain ⟨hok, hb2⟩ := hg
    subst hb2
    exact ⟨fun hf => by rw [← hok] at hf; simp at hf, fun _ => ⟨rfl, rfl, hle, le_refl _, rfl⟩⟩
  · rw [if_neg hle] at hg
    cases hd : double_until fuel b.auto_buffer_size_ min_size with
    | none => simp [hd] at hg
    | some n =>
      simp only [hd] at hg
      have hn : min_size ≤ n := double_until_ge _ _ _ _ hd
      obtain ⟨h1, h2⟩ := grow_loop_spec h b min_size hv (by omega) fuel n ok b2 hn hg
      refine ⟨fun hf => ⟨h1 hf, by omega⟩, fun ht => ?_⟩
      obtain ⟨a1, a2, a3, a4⟩ := h2 ht
      exact ⟨a1, a2, a3, by omega, a4⟩

/-- With an allocator that grants every request, `grow` returns true once the fuel
covers `min_size`. -/
theorem grow_unlimited (fuel : Nat) (h : heap) (b : string_buffer_base) (min_size : Nat)
    (hu : Unlimited h) (hK : 0 < b.auto_buffer_size_) (hf : min_size ≤ fuel) :
    ∃ b2, grow fuel h b min_size = some (true, b2) := by
  unfold grow
  by_cases hle : min_size ≤ b.capazity
  · exact ⟨b, by rw [if_pos hle]⟩
  · rw [if_neg hle]
    obtain ⟨n, h1, _⟩ := double_until_spec fuel b.auto_buffer_size_ min_size hK (by omega)
    rw [h1]
    cases fuel with
    | zero => omega
    | succ f =>
      simp only [grow_loop, hu n, if_true]
      exact ⟨_, rfl⟩

theorem store_spec (b : string_buffer_base) (v : Nat) (hlt : b.p_ < b.capazity) :
    ({ b.store b.p_ v with p_ := b.p_ + 1 } : string_buffer_base).content = b.content ++ [v] ∧
    ({ b.store b.p_ v with p_ := b.p_ + 1 } : string_buffer_base).capazity = b.capazity ∧
    ({ b.store b.p_ v with p_ := b.p_ + 1 } : string_buffer_base).auto_buffer_size_ =
      b.auto_buffer_size_ := by
  have key : ∀ (l : List Nat), b.p_ < l.length →
      (l.set b.p_ v).take (b.p_ + 1) = l.take b.p_ ++ [v] := by
    intro l hl
    have := write_at_take [v] l b.p_ (by simpa using hl)
    simpa [write_at] using this
  cases hbs : b.buffer_start_ with
  | auto =>
    simp only [capazity, cells, hbs] at hlt
    simp [store, hbs, content, cells, capazity, auto_buffer_size_, key _ hlt]
  | heap c =>
    simp only [capazity, cells, hbs] at hlt
    simp [store, hbs, content, cells, capazity, auto_buffer_size_, key _ hlt]
  | null =>
    simp [capazity, cells, hbs] at hlt

theorem store_all_spec (b : string_buffer_base) (src : List Nat)
    (hle : b.p_ + src.length ≤ b.capazity) :
    ({ b.store_all b.p_ src with p_ := b.p_ + src.length } : string_buffer_base).content =
      b.content ++ src ∧
    ({ b.store_all b.p_ src with p_ := b.p_ + src.length } : string_buffer_base).capazity =
      b.capazity ∧
    ({ b.store_all b.p_ src with p_ := b.p_ + src.length } : string_buffer_base).auto_buffer_size_ =
      b.auto_buffer_size_ := by
  cases hbs : b.buffer_start_ with
  | auto =>
    simp only [capazity, cells, hbs] at hle
    simp [store_all, hbs, content, cells, capazity, auto_buffer_size_, write_at_take _ _ _ hle,
      write_at_length]
  | heap c =>
    simp only [capazity, cells, hbs] at hle
    simp [store_all, hbs, content, cells, capazity, auto_buffer_size_, write_at_take _ _ _ hle,
      write_at_length]
  | null =>
    simp only [capazity, cells, hbs, List.length_nil] at hle
    have h0 : src = [] := List.eq_nil_of_length_eq_zero (by omega)
    have hp : b.p_ = 0 := by omega
    simp [store_all, hbs, content, cells, capazity, auto_buffer_size_, h0]

theorem left_valid {b : string_buffer_base} (hv : b.p_ ≤ b.capazity) :
    b.left = b.capazity - b.p_ := by
  simp [left, hv]

/-- The member `append(code_unit_t)` with an allocator that grants every request. -/
theorem append_unlimited (fuel : Nat) (h : heap) (b : string_buffer_base) (v : Nat)
    (hu : Unlimited h) (hK : 0 < b.auto_buffer_size_) (hv : b.p_ ≤ b.capazity)
    (hf : b.p_ < fuel) :
    ∃ b2, append fuel h b v = some ⟨b2, some (), none⟩ ∧ b2.p_ = b.p_ + 1 ∧
      b2.content = b.content ++ [v] ∧ b2.p_ ≤ b2.capazity ∧
      b2.auto_buffer_size_ = b.auto_buffer_size_ ∧ b.capazity ≤ b2.capazity := by
  unfold append
  by_cases hfull : b.p_ = b.capazity
  · rw [if_pos hfull]
    obtain ⟨b1, hg⟩ := grow_unlimited fuel h b (b.size + 1) hu hK (by simp only [size]; omega)
    obtain ⟨g1, g2, g3, g4, g5⟩ := (grow_spec fuel h b _ true b1 hv hg).2 rfl
    simp only [size] at g3
    obtain ⟨s1, s2, s3⟩ := store_spec b1 v (by omega)
    rw [hg]
    refine ⟨_, rfl, ?_, ?_, ?_, ?_, ?_⟩
    · simp only [g1]
    · rw [s1, g5]
    · rw [s2]; simp only; omega
    · rw [s3]; simp only [auto_buffer_size_, g2]
    · rw [s2]; exact g4
  · rw [if_neg hfull]
    obtain ⟨s1, s2, s3⟩ := store_spec b v (by omega)
    refine ⟨_, rfl, rfl, s1, ?_, s3, by rw [s2]⟩
    rw [s2]; simp only; omega

/-- The member `append(p, len)` with an allocator that grants every request. -/
theorem append_len_unlimited (fuel : Nat) (h : heap) (b : string_buffer_base) (src : List Nat)
    (hu : Unlimited h) (hK : 0 < b.auto_buffer_size_) (hv : b.p_ ≤ b.capazity)
    (hlen : src.length ≤ size_type_max >>> 3) (hf : b.p_ + src.length ≤ fuel) :
    ∃ b2, append_len fuel h b src = some ⟨b2, some (), none⟩ ∧
      b2.p_ = b.p_ + src.length ∧ b2.content = b.content ++ src ∧ b2.p_ ≤ b2.capazity ∧
      b2.auto_buffer_size_ = b.auto_buffer_size_ := by
  unfold append_len
  rw [if_neg (by omega)]
  by_cases hroom : b.left < b.size + src.length
  · rw [if_pos hroom]
    obtain ⟨b1, hg⟩ := grow_unlimited fuel h b (b.size + src.length) hu hK
      (by simp only [size]; omega)
    obtain ⟨g1, g2, g3, g4, g5⟩ := (grow_spec fuel h b _ true b1 hv hg).2 rfl
    simp only [size] at g3
    obtain ⟨s1, s2, s3⟩ := store_all_spec b1 src (by omega)
    rw [hg]
    refine ⟨_, rfl, ?_, ?_, ?_, ?_⟩
    · simp only [g1]
    · rw [s1, g5]
    · rw [s2]; simp only; omega
    · rw [s3]; simp only [auto_buffer_size_, g2]
  · rw [if_neg hroom]
    rw [left_valid hv] at hroom
    simp only [size] at hroom
    obtain ⟨s1, s2, s3⟩ := store_all_spec b src (by omega)
    refine ⟨_, rfl, rfl, s1, ?_, s3⟩
    rw [s2]; simp only; omega

/-- The member `append(code_unit_t)` keeps the invariant; when it throws, the buffer is
the one it was given. -/
theorem append_valid (fuel : Nat) (h : heap) (b : string_buffer_base) (v : Nat)
    (e : effect Unit) (hv : b.p_ ≤ b.capazity) (he : append fuel h b v = some e) :
    e.buffer.p_ ≤ e.buffer.capazity ∧
    (e.thrown = none ∨ (e.thrown = some "could not grow buffer" ∧ e.buffer = b)) := by
  unfold append at he
  by_cases hfull : b.p_ = b.capazity
  · rw [if_pos hfull] at he
    cases hg : grow fuel h b (b.size + 1) with
    | none => simp [hg] at he
    | some r =>
      obtain ⟨ok, b1⟩ := r
      obtain ⟨gf, gt⟩ := grow_spec fuel h b _ ok b1 hv hg
      cases ok with
      | false =>
        simp only [hg, Option.some.injEq] at he
        obtain ⟨hb, _⟩ := gf rfl
        subst he
        exact ⟨by rw [hb]; exact hv, Or.inr ⟨rfl, hb⟩⟩
      | true =>
        simp only [hg, Option.some.injEq] at he
        obtain ⟨g1, g2, g3, g4, g5⟩ := gt rfl
        simp only [size] at g3
        obtain ⟨s1, s2, s3⟩ := store_spec b1 v (by omega)
        subst he
        refine ⟨?_, Or.inl rfl⟩
        show b1.p_ + 1 ≤ _
        rw [s2]; omega
  · rw [if_neg hfull] at he
    simp only [Option.some.injEq] at he
    obtain ⟨s1, s2, s3⟩ := store_spec b v (by omega)
    subst he
    refine ⟨?_, Or.inl rfl⟩
    show b.p_ + 1 ≤ _
    rw [s2]; omega

/-- The member `append(p, len)` keeps the invariant; when it throws, the buffer is the
one it was given. -/
theorem append_len_valid (fuel : Nat) (h : heap) (b : string_buffer_base) (src : List Nat)
    (e : effect Unit) (hv : b.p_ ≤ b.capazity) (he : append_len fuel h b src = some e) :
    e.buffer.p_ ≤ e.buffer.capazity ∧
    (e.thrown = none ∨ ((e.thrown = some "could not grow buffer" ∨
      e.thrown = some "string too large") ∧ e.buffer = b)) := by
  unfold append_len at he
  by_cases hbig : src.length > size_type_max >>> 3
  · rw [if_pos hbig] at he
    simp only [Option.some.injEq] at he
    subst he
    exact ⟨hv, Or.inr ⟨Or.inr rfl, rfl⟩⟩
  · rw [if_neg hbig] at he
    by_cases hroom : b.left < b.size + src.length
    · rw [if_pos hroom] at he
      cases hg : grow fuel h b (b.size + src.length) with
      | none => simp [hg] at he
      | some r =>
        obtain ⟨ok, b1⟩ := r
        obtain ⟨gf, gt⟩ := grow_spec fuel h b _ ok b1 hv hg
        cases ok with
        | false =>
          simp only [hg, Option.some.injEq] at he
          obtain ⟨hb, _⟩ := gf rfl
          subst he
          exact ⟨by rw [hb]; exact hv, Or.inr ⟨Or.inl rfl, hb⟩⟩
        | true =>
          simp only [hg, Option.some.injEq] at he
          obtain ⟨g1, g2, g3, g4, g5⟩ := gt rfl
          simp only [size] at g3
          obtain ⟨s1, s2, s3⟩ := store_all_spec b1 src (by omega)
          subst he
          refine ⟨?_, Or.inl rfl⟩
          show b1.p_ + src.length ≤ _
          rw [s2]; omega
    · rw [if_neg hroom] at he
      simp only [Option.some.injEq] at he
      rw [left_valid hv] at hroom
      simp only [size] at hroom
      obtain ⟨s1, s2, s3⟩ := store_all_spec b src (by omega)
      subst he
      refine ⟨?_, Or.inl rfl⟩
      show b.p_ + src.length ≤ _
      rw [s2]; omega

/-- The member `reserve` keeps the invariant; when it throws, the buffer is the one it
was given. -/
theorem reserve_valid (fuel : Nat) (h : heap) (b : string_buffer_base) (n : Nat)
    (e : effect Unit) (hv : b.p_ ≤ b.capazity) (he : reserve fuel h b n = some e) :
    e.buffer.p_ ≤ e.buffer.capazity ∧ e.buffer.content = b.content ∧
    e.buffer.p_ = b.p_ ∧ b.capazity ≤ e.buffer.capazity ∧
    (e.thrown = none ∨ (e.thrown = some "could not grow buffer" ∧ e.buffer = b)) := by
  unfold reserve at he
  by_cases hroom : b.left < n
  · rw [if_pos hroom] at he
    cases hg : grow fuel h b (n - b.left) with
    | none => simp [hg] at he
    | some r =>
      obtain ⟨ok, b1⟩ := r
      obtain ⟨gf, gt⟩ := grow_spec fuel h b _ ok b1 hv hg
      cases ok with
      | false =>
        simp only [hg, Option.some.injEq] at he
        obtain ⟨hb, _⟩ := gf rfl
        subst he
        subst hb
        exact ⟨hv, rfl, rfl, le_refl _, Or.inr ⟨rfl, rfl⟩⟩
      | true =>
        simp only [hg, Option.some.injEq] at he
        obtain ⟨g1, g2, g3, g4, g5⟩ := gt rfl
        subst he
        exact ⟨by show b1.p_ ≤ b1.capazity; omega, g5, g1, g4, Or.inl rfl⟩
  · rw [if_neg hroom] at he
    simp only [Option.some.injEq] at he
    subst he
    exact ⟨hv, rfl, rfl, le_refl _, Or.inl rfl⟩

/-- Appending code units one at a time, with an allocator that grants every request. -/
theorem append_all_unlimited (fuel : Nat) (h : heap) (hu : Unlimited h) (us : List Nat) :
    ∀ b : string_buffer_base, 0 < b.auto_buffer_size_ → b.p_ ≤ b.capazity →
      b.p_ + us.length ≤ fuel →
      ∃ b2, append_all fuel h us b = some ⟨b2, some (), none⟩ ∧
        b2.size = b.size + us.length ∧ b2.content = b.content ++ us ∧
        b2.p_ ≤ b2.capazity := by
  induction us with
  | nil =>
    intro b _ hv _
    exact ⟨b, rfl, by simp, by simp, hv⟩
  | cons v r ih =>
    intro b hK hv hf
    simp only [List.length_cons] at hf
    obtain ⟨b1, h1, h2, h3, h4, h5, _⟩ := append_unlimited fuel h b v hu hK hv (by omega)
    obtain ⟨b2, k1, k2, k3, k4⟩ := ih b1 (by rw [h5]; exact hK) h4 (by omega)
    refine ⟨b2, ?_, ?_, ?_, k4⟩
    · simp only [append_all, h1]
      exact k1
    · simp only [size] at k2 ⊢
      simp only [List.length_cons]
      omega
    · rw [k3, h3]
      simp

/-- The member `terminate_if` with an allocator that grants every request: afterwards
the buffer ends with a zero, and a second call changes nothing. -/
theorem terminate_if_unlimited (fuel : Nat) (h : heap) (b : string_buffer_base)
    (hu : Unlimited h) (hK : 0 < b.auto_buffer_size_) (hv : b.p_ ≤ b.capazity)
    (hf : b.p_ < fuel) :
    ∃ b1 r, terminate_if fuel h b = some ⟨b1, some r, none⟩ ∧
      terminate_if fuel h b1 = some ⟨b1, some false, none⟩ ∧
      (r = false → b1 = b) ∧
      (r = true → b1.content = b.content ++ [0] ∧ b1.size = b.size + 1) ∧
      b1.p_ ≤ b1.capazity := by
  by_cases hz : b.size > 0 ∧ b.cells.getD (b.p_ - 1) h.junk = 0
  · refine ⟨b, false, ?_, ?_, fun _ => rfl, fun hr => by simp at hr, hv⟩
    · simp only [terminate_if, if_pos hz]
    · simp only [terminate_if, if_pos hz]
  · obtain ⟨b1, h1, h2, h3, h4, h5, _⟩ := append_unlimited fuel h b 0 hu hK hv hf
    have hlast : b1.cells.getD (b1.p_ - 1) h.junk = 0 := by
      have hc : b1.content.getD b.p_ h.junk = 0 := by
        rw [h3]
        have hl := valid_content_length hv
        rw [List.getD_append_right _ _ _ _ (by omega), hl]
        simp
      have : b1.content.getD b.p_ h.junk = b1.cells.getD b.p_ h.junk := by
        simp only [content, List.getD_eq_getElem?_getD]
        rw [List.getElem?_take_of_lt (by omega)]
      rw [this] at hc
      rw [h2]
      simpa using hc
    have hz1 : b1.size > 0 ∧ b1.cells.getD (b1.p_ - 1) h.junk = 0 :=
      ⟨by simp only [size]; omega, hlast⟩
    refine ⟨b1, true, ?_, ?_, fun hr => by simp at hr, fun _ => ⟨h3, by simp only [size]; omega⟩,
      h4⟩
    · simp only [terminate_if, if_neg hz, append_ascii, h1, Option.map_some']
    · simp only [terminate_if, if_pos hz1]

theorem terminate_if_valid (fuel : Nat) (h : heap) (b : string_buffer_base)
    (e : effect Bool) (hv : b.p_ ≤ b.capazity) (he : terminate_if fuel h b = some e) :
    e.buffer.p_ ≤ e.buffer.capazity := by
  unfold terminate_if at he
  split_ifs at he with hz
  · simp only [Option.some.injEq] at he
    subst he
    exact hv
  · cases ha : append_ascii fuel h b 0 with
    | none => simp [ha] at he
    | some e1 =>
      simp only [ha, Option.some.injEq] at he
      subst he
      exact (append_valid fuel h b 0 e1 hv ha).1

/-- The member `reset()`: no content, the auto buffer. -/
theorem reset_spec (b : string_buffer_base) :
    (reset b).size = 0 ∧ (reset b).capazity = b.auto_buffer_size_ ∧
      (reset b).auto_buffer_size_ = b.auto_buffer_size_ ∧ (reset b).content = [] := by
  simp [reset, size, capazity, cells, auto_buffer_size_, content]

/-- The member `reset(capazity)`. -/
theorem reset_to_spec (h : heap) (b : string_buffer_base) (c : Nat) :
    (reset_to h b c).thrown = none ∧
    (reset_to h b c).buffer.size = 0 ∧
    (reset_to h b c).buffer.auto_buffer_size_ = b.auto_buffer_size_ ∧
    ((reset_to h b c).returned = some true ∨ (reset_to h b c).returned = some false) ∧
    ((reset_to h b c).returned = some true → c ≤ b.auto_buffer_size_ →
      (reset_to h b c).buffer.capazity = b.auto_buffer_size_) ∧
    ((reset_to h b c).returned = some true → b.auto_buffer_size_ < c →
      (reset_to h b c).buffer.capazity = c) ∧
    ((reset_to h b c).returned = some false ↔
      (b.auto_buffer_size_ < c ∧ h.grants c = false)) ∧
    ((reset_to h b c).returned = some false → (reset_to h b c).buffer.capazity = 0) := by
  unfold reset_to
  by_cases hc : c > b.auto_buffer_size_
  · by_cases hg : h.grants c = true
    · rw [if_pos hc, if_pos hg]
      refine ⟨rfl, rfl, rfl, Or.inl rfl, fun _ hle => by omega, fun _ _ => ?_, ?_, ?_⟩
      · simp [capazity, cells]
      · simp [hg]
      · intro hf; simp at hf
    · rw [if_pos hc, if_neg hg]
      simp only [Bool.not_eq_true] at hg
      refine ⟨rfl, rfl, rfl, Or.inr rfl, fun hf => by simp at hf, fun hf => by simp at hf, ?_, ?_⟩
      · simp only [true_iff]
        exact ⟨hc, hg⟩
      · intro _; simp [capazity, cells]
  · rw [if_neg hc]
    refine ⟨rfl, rfl, rfl, Or.inl rfl, fun _ _ => ?_, fun _ hlt => by omega, ?_, ?_⟩
    · simp [capazity, cells, auto_buffer_size_]
    · constructor
      · intro hf; simp at hf
      · intro hf; omega
    · intro hf; simp at hf

theorem round_up_dvd (k n : Nat) : k ∣ round_up k n := Dvd.intro _ rfl

theorem round_up_ge (k n : Nat) (hk : 0 < k) : n ≤ round_up k n := by
  unfold round_up
  have h1 := Nat.div_add_mod (n + k - 1) k
  have h2 := Nat.mod_lt (n + k - 1) hk
  omega

theorem round_up_le (k n m : Nat) (hk : 0 < k) (hd : k ∣ m) (hn : n ≤ m) :
    round_up k n ≤ m := by
  obtain ⟨c, rfl⟩ := hd
  unfold round_up
  apply Nat.mul_le_mul_left
  have : n + k - 1 < k * (c + 1) := by
    rw [Nat.mul_add, Nat.mul_one]
    omega
  have := (Nat.div_lt_iff_lt_mul hk).mpr (by rw [Nat.mul_comm] at this; exact this)
  omega

/-- The allocation loop tries the multiples of the auto buffer size from `n` down to
`min_size`, and succeeds exactly when one of them is granted. -/
theorem grow_loop_tries (h : heap) (b : string_buffer_base) (min_size : Nat)
    (hK : 0 < b.auto_buffer_size_) (hmin : b.auto_buffer_size_ < min_size) :
    ∀ (fuel n : Nat), n < fuel → b.auto_buffer_size_ ∣ n → min_size ≤ n →
      ∃ ok b2, grow_loop h b min_size fuel n = some (ok, b2) ∧
        (ok = true ↔ ∃ m, b.auto_buffer_size_ ∣ m ∧ min_size ≤ m ∧ m ≤ n ∧
          h.grants m = true) := by
  intro fuel
  induction fuel with
  | zero => intro n hn; omega
  | succ f ih =>
    intro n hn hd hle
    by_cases hgr : h.grants n = true
    · have hs : ∃ b2, grow_loop h b min_size (f + 1) n = some (true, b2) := by
        simp only [grow_loop, if_pos hgr]
        exact ⟨_, rfl⟩
      obtain ⟨b2, hb2⟩ := hs
      refine ⟨true, b2, hb2, ?_⟩
      simp only [true_iff]
      exact ⟨n, hd, hle, le_refl _, hgr⟩
    · have hgt : n > b.auto_buffer_size_ := by omega
      have hd2 : b.auto_buffer_size_ ∣ n - b.auto_buffer_size_ := Nat.dvd_sub' hd (dvd_refl _)
      have h2k : b.auto_buffer_size_ ≤ n - b.auto_buffer_size_ :=
        Nat.le_of_dvd (by omega) hd2
      have hred : (if n > b.auto_buffer_size_ then
            n - min b.auto_buffer_size_ (n - b.auto_buffer_size_) else n) =
          n - b.auto_buffer_size_ := by
        rw [if_pos hgt, Nat.min_eq_left h2k]
      have only_n : ∀ m, b.auto_buffer_size_ ∣ m → m ≤ n → n - b.auto_buffer_size_ < m →
          m = n := by
        intro m hm h1 h3
        have hd3 : b.auto_buffer_size_ ∣ n - m := Nat.dvd_sub' hd hm
        have := Nat.eq_zero_of_dvd_of_lt hd3 (by omega)
        omega
      by_cases hgive : n - b.auto_buffer_size_ < min_size
      · refine ⟨false, b, ?_, ?_⟩
        · simp only [grow_loop, if_neg hgr, hred, if_pos hgive]
        · constructor
          · intro hf; simp at hf
          · rintro ⟨m, hm, h1, h3, h4⟩
            have := only_n m hm h3 (by omega)
            rw [this] at h4
            exact absurd h4 hgr
      · obtain ⟨ok, b2, hg, hiff⟩ := ih (n - b.auto_buffer_size_) (by omega) hd2 (by omega)
        refine ⟨ok, b2, ?_, ?_⟩
        · simp only [grow_loop, if_neg hgr, hred, if_neg hgive]
          exact hg
        · rw [hiff]
          constructor
          · rintro ⟨m, hm, h1, h3, h4⟩
            exact ⟨m, hm, h1, by omega, h4⟩
          · rintro ⟨m, hm, h1, h3, h4⟩
            refine ⟨m, hm, h1, ?_, h4⟩
            by_contra hcon
            have := only_n m hm h3 (by omega)
            rw [this] at h4
            exact absurd h4 hgr

/-- The member `grow` on a buffer that holds its auto buffer or a heap block: it
returns, and succeeds exactly when some multiple of the auto buffer size between
`min_size` and the doubled start size is granted. -/
theorem grow_tries (fuel : Nat) (h : heap) (b : string_buffer_base) (min_size : Nat)
    (hK : 0 < b.auto_buffer_size_) (hcap : b.auto_buffer_size_ ≤ b.capazity)
    (hmin : b.capazity < min_size) (hf : 2 * min_size ≤ fuel) :
    ∃ ok b2 n, grow fuel h b min_size = some (ok, b2) ∧
      b.auto_buffer_size_ ∣ n ∧ min_size ≤ n ∧ n < 2 * min_size ∧
      (ok = true ↔ ∃ m, b.auto_buffer_size_ ∣ m ∧ min_size ≤ m ∧ m ≤ n ∧
        h.grants m = true) := by
  obtain ⟨n, h1, h2, _, h4, h5⟩ :=
    double_until_spec fuel b.auto_buffer_size_ min_size hK (by omega)
  have hn : n < 2 * min_size := h5 (by omega)
  obtain ⟨ok, b2, hg, hiff⟩ :=
    grow_loop_tries h b min_size hK (by omega) fuel n (by omega) h4 h2
  refine ⟨ok, b2, n, ?_, h4, h2, hn, hiff⟩
  unfold grow
  rw [if_neg (by omega), h1]
  exact hg

theorem unlimited_heap_unlimited (junk : Nat) : Unlimited (unlimited_heap junk) :=
  fun _ => rfl

/-- When the allocator refuses a size that is neither above the auto buffer size nor
below `min_size`, the allocation loop tries it again and again. -/
theorem grow_loop_spins (h : heap) (b : string_buffer_base) (min_size n : Nat)
    (hg : h.grants n = false) (hn : ¬ n > b.auto_buffer_size_) (hm : ¬ n < min_size) :
    ∀ fuel, grow_loop h b min_size fuel n = none := by
  intro fuel
  induction fuel with
  | zero => rfl
  | succ f ih =>
    simp only [grow_loop, hg, Bool.false_eq_true, if_false, if_neg hn, if_neg hm]
    exact ih

/-- The loop of `append_str(str)` on a zero-terminated string `s`: it appends the
units after the first one and the terminator. -/
theorem append_utf_str_loop_shifted (fuel : Nat) (h : heap) (hu : Unlimited h)
    (s : List Nat) (hs : ∀ c ∈ s, c ≠ 0) :
    ∀ (b : string_buffer_base) (count : Nat), 0 < b.auto_buffer_size_ → b.p_ ≤ b.capazity →
      b.p_ + s.length ≤ fuel →
      ∃ b2, append_utf_str_loop fuel h (s ++ [0]) b count =
          some ⟨b2, some (count + s.length), none⟩ ∧
        b2.content = b.content ++ (s ++ [0]).tail := by
  induction s with
  | nil =>
    intro b count _ _ _
    exact ⟨b, by simp [append_utf_str_loop], by simp⟩
  | cons c r ih =>
    intro b count hK hv hf
    simp only [List.length_cons] at hf
    have hc : c ≠ 0 := hs c (by simp)
    have hr : ∀ x ∈ r, x ≠ 0 := fun x hx => hs x (by simp [hx])
    obtain ⟨d, t, hdt⟩ : ∃ d t, r ++ [0] = d :: t := by
      cases r with
      | nil => exact ⟨0, [], rfl⟩
      | cons d t => exact ⟨d, t ++ [0], by simp⟩
    obtain ⟨b1, h1, h2, h3, h4, h5, _⟩ := append_unlimited fuel h b d hu hK hv (by omega)
    obtain ⟨b2, k1, k2⟩ := ih hr b1 (count + 1) (by rw [h5]; exact hK) h4 (by omega)
    refine ⟨b2, ?_, ?_⟩
    · have e1 : (c :: r) ++ [0] = c :: d :: t := by rw [List.cons_append, hdt]
      rw [e1, append_utf_str_loop, if_pos hc]
      simp only [h1]
      rw [← hdt, k1]
      simp only [List.length_cons]
      have e2 : count + 1 + r.length = count + (r.length + 1) := by omega
      rw [e2]
    · have e1 : ((c :: r) ++ [0]).tail = r ++ [0] := by simp
      rw [k2, h3, e1, hdt]
      simp

/-- On a buffer that holds its auto buffer or a heap block, `grow` with an allocator
that refuses every request returns false and leaves the buffer as it was. -/
theorem grow_exhausted (fuel : Nat) (h : heap) (b : string_buffer_base) (min_size : Nat)
    (hx : ∀ n, h.grants n = false) (hK : 0 < b.auto_buffer_size_)
    (hcap : b.auto_buffer_size_ ≤ b.capazity) (hv : b.p_ ≤ b.capazity)
    (hmin : b.capazity < min_size) (hf : 2 * min_size ≤ fuel) :
    grow fuel h b min_size = some (false, b) := by
  obtain ⟨ok, b2, n, hg, _, _, _, hiff⟩ := grow_tries fuel h b min_size hK hcap hmin hf
  have hok : ok = false := by
    cases ok with
    | false => rfl
    | true =>
      obtain ⟨m, _, _, _, h4⟩ := hiff.mp rfl
      rw [hx m] at h4
      simp at h4
  subst hok
  rw [hg, ((grow_spec fuel h b min_size false b2 hv hg).1 rfl).1]

/-- On a buffer that holds its auto buffer or a heap block, a call that needs more
room while the allocator refuses every request throws "could not grow buffer" and
leaves the buffer as it was. -/
theorem allocation_failure_atomic (fuel : Nat) (h : heap) (b : string_buffer_base)
    (hx : ∀ n, h.grants n = false) (hK : 0 < b.auto_buffer_size_)
    (hcap : b.auto_buffer_size_ ≤ b.capazity) (hv : b.p_ ≤ b.capazity) :
    (∀ v, b.p_ = b.capazity → 2 * (b.size + 1) ≤ fuel →
      append fuel h b v = some ⟨b, none, some "could not grow buffer"⟩) ∧
    (∀ src : List Nat, src.length ≤ size_type_max >>> 3 → b.capazity < b.size + src.length →
      2 * (b.size + src.length) ≤ fuel →
      append_len fuel h b src = some ⟨b, none, some "could not grow buffer"⟩) ∧
    (∀ n, b.left < n → b.capazity < n - b.left → 2 * (n - b.left) ≤ fuel →
      reserve fuel h b n = some ⟨b, none, some "could not grow buffer"⟩) := by
  refine ⟨fun v hfull hf => ?_, fun src hlen hneed hf => ?_, fun n hl hneed hf => ?_⟩
  · have hg := grow_exhausted fuel h b (b.size + 1) hx hK hcap hv
      (by simp only [size]; omega) hf
    simp only [append, if_pos hfull, hg]
  · have hg := grow_exhausted fuel h b (b.size + src.length) hx hK hcap hv hneed hf
    have hl : b.left < b.size + src.length := by
      rw [left_valid hv]; omega
    simp only [append_len, if_neg (not_lt.mpr hlen), if_pos hl, hg]
  · have hg := grow_exhausted fuel h b (n - b.left) hx hK hcap hv hneed hf
    simp only [reserve, if_pos hl, hg]

/-- The doubling loop of `grow` ends at the first `n0 * 2 ^ j` that reaches `min_size`. -/
theorem double_until_min : ∀ (fuel n0 min_size : Nat), 0 < n0 → min_size ≤ n0 + fuel →
    ∃ j, double_until fuel n0 min_size = some (n0 * 2 ^ j) ∧ min_size ≤ n0 * 2 ^ j ∧
      ∀ i, min_size ≤ n0 * 2 ^ i → j ≤ i := by
  intro fuel
  induction fuel with
  | zero =>
    intro n0 min_size h0 hf
    refine ⟨0, ?_, by simpa using hf, fun i _ => Nat.zero_le i⟩
    unfold double_until
    rw [if_neg (by omega)]
    simp
  | succ f ih =>
    intro n0 min_size h0 hf
    by_cases hlt : n0 < min_size
    · obtain ⟨j, h1, h2, h3⟩ := ih (2 * n0) min_size (by omega) (by omega)
      have e : ∀ k, 2 * n0 * 2 ^ k = n0 * 2 ^ (k + 1) := fun k => by rw [pow_succ]; ring
      refine ⟨j + 1, ?_, by rw [← e]; exact h2, fun i hi => ?_⟩
      · unfold double_until
        rw [if_pos hlt]
        show double_until f (2 * n0) min_size = _
        rw [h1, e]
      · cases i with
        | zero => simp at hi; omega
        | succ k =>
          rw [← e] at hi
          have := h3 k hi
          omega
    · refine ⟨0, ?_, by simp; omega, fun i _ => Nat.zero_le i⟩
      unfold double_until
      rw [if_neg hlt]
      simp

/-- With an allocator that grants every request, `grow` beyond the capacity takes the
first `auto_buffer_size_ * 2 ^ j` that reaches `min_size`. -/
theorem grow_unlimited_capazity (fuel : Nat) (h : heap) (b : string_buffer_base)
    (min_size : Nat) (hu : Unlimited h) (hK : 0 < b.auto_buffer_size_)
    (hv : b.p_ ≤ b.capazity) (hc : b.capazity < min_size) (hf : min_size ≤ fuel) :
    ∃ b2 j, grow fuel h b min_size = some (true, b2) ∧
      b2.capazity = b.auto_buffer_size_ * 2 ^ j ∧ min_size ≤ b.auto_buffer_size_ * 2 ^ j ∧
      (∀ i, min_size ≤ b.auto_buffer_size_ * 2 ^ i → j ≤ i) ∧
      b2.p_ = b.p_ ∧ b2.content = b.content ∧ b2.auto_buffer_ = b.auto_buffer_ := by
  obtain ⟨j, h1, h2, h3⟩ := double_until_min fuel b.auto_buffer_size_ min_size hK (by omega)
  cases fuel with
  | zero => omega
  | succ f =>
    obtain ⟨g1, g2, g3, g4⟩ := grow_block_spec h b (b.auto_buffer_size_ * 2 ^ j) hv (by omega)
      _ rfl
    refine ⟨_, j, ?_, g3, h2, h3, g1, g4, g2⟩
    unfold grow
    rw [if_neg (by omega), h1]
    simp only [grow_loop, hu _, if_true]

/-- The member `reserve` with an allocator that grants every request. -/
theorem reserve_unlimited (fuel : Nat) (h : heap) (b : string_buffer_base) (n : Nat)
    (hu : Unlimited h) (hK : 0 < b.auto_buffer_size_) (hv : b.p_ ≤ b.capazity)
    (hf : n ≤ fuel) :
    ∃ b1, reserve fuel h b n = some ⟨b1, some (), none⟩ ∧ b1.p_ = b.p_ ∧
      b1.content = b.content ∧ b1.p_ ≤ b1.capazity := by
  by_cases hroom : b.left < n
  · obtain ⟨b1, hg⟩ := grow_unlimited fuel h b (n - b.left) hu hK (by omega)
    have he : reserve fuel h b n = some ⟨b1, some (), none⟩ := by
      unfold reserve
      rw [if_pos hroom, hg]
    obtain ⟨r1, r2, r3, _, _⟩ := reserve_valid fuel h b n _ hv he
    exact ⟨b1, he, r3, r2, r1⟩
  · refine ⟨b, ?_, rfl, rfl, hv⟩
    unfold reserve
    rw [if_neg hroom]

/-- Storing no code unit leaves the buffer as it is. -/
theorem store_all_nil (b : string_buffer_base) (i : Nat) : b.store_all i [] = b := by
  obtain ⟨a, bs, p⟩ := b
  cases bs with
  | auto => simp [store_all, write_at]
  | heap c => simp [store_all, write_at]
  | null => rfl

/-- The member `append_unicode` when the conversion fails: it returns 0, and the buffer
is the one `reserve` left with the code units the converter stored written from `p_`
on and `p_` moved past them. -/
theorem append_unicode_failed (fuel : Nat) (h : heap) (buffer_size : Nat)
    (conv : Nat → List Nat × Int) (b : string_buffer_base) (codepoint : Nat)
    (hu : Unlimited h) (hK : 0 < b.auto_buffer_size_) (hv : b.p_ ≤ b.capazity)
    (hf : b.p_ + buffer_size ≤ fuel) (hfail : (conv codepoint).2 ≤ 0) :
    ∃ b0 e, reserve fuel h b (b.size + buffer_size) = some ⟨b0, some (), none⟩ ∧
      append_unicode fuel h buffer_size conv b codepoint = some e ∧
      e.thrown = none ∧ e.returned = some 0 ∧
      e.buffer.size = b.size + (conv codepoint).1.length ∧
      (b.size + (conv codepoint).1.length ≤ b0.capazity →
        e.buffer.content = b.content ++ (conv codepoint).1) ∧
      ((conv codepoint).1 = [] → e.buffer.content = b.content) := by
  obtain ⟨b0, h1, h2, h3, _⟩ := reserve_unlimited fuel h b (b.size + buffer_size) hu hK hv hf
  refine ⟨b0, ⟨{ b0.store_all b0.p_ (conv codepoint).1 with
    p_ := b0.p_ + (conv codepoint).1.length }, some 0, none⟩, h1, ?_, rfl, rfl, ?_, ?_, ?_⟩
  · unfold append_unicode
    rw [h1]
    simp only [if_pos hfail]
  · simp only [size, h2]
  · intro hfit
    simp only [size] at hfit
    rw [(store_all_spec b0 (conv codepoint).1 (by omega)).1, h3]
  · intro hnil
    simp only [hnil, store_all_nil, List.length_nil, Nat.add_zero]
    exact h3

/-- The last code unit of the content of a buffer that is not empty. -/
theorem content_getLast (b : string_buffer_base) (junk : Nat) (hv : b.p_ ≤ b.capazity)
    (hp : 0 < b.p_) : b.content.getLast? = some (b.cells.getD (b.p_ - 1) junk) := by
  have hl := valid_content_length hv
  have hlt : b.p_ - 1 < b.cells.length := by simp only [capazity] at hv; omega
  rw [List.getLast?_eq_getElem?, hl]
  simp only [content]
  rw [List.getElem?_take_of_lt (by omega), List.getD_eq_getElem?_getD,
    List.getElem?_eq_getElem hlt]
  rfl

/-- The content of a buffer of size 0. -/
theorem content_empty (b : string_buffer_base) (hp : b.p_ = 0) : b.content = [] := by
  simp [content, hp]

/-- The member `terminate_if` with an allocator that grants every request, by cases on
the last code unit. -/
theorem terminate_if_cases (fuel : Nat) (h : heap) (b : string_buffer_base)
    (hu : Unlimited h) (hK : 0 < b.auto_buffer_size_) (hv : b.p_ ≤ b.capazity)
    (hf : b.p_ < fuel) :
    ∃ b1 r, terminate_if fuel h b = some ⟨b1, some r, none⟩ ∧
      (b.content.getLast? ≠ some 0 →
        r = true ∧ b1.content = b.content ++ [0] ∧ b1.size = b.size + 1) ∧
      (b.content.getLast? = some 0 → r = false ∧ b1 = b) ∧
      b1.content.getLast? = some 0 := by
  obtain ⟨b1, r, h1, _, h3, h4, _⟩ := terminate_if_unlimited fuel h b hu hK hv hf
  have hz : (b.size > 0 ∧ b.cells.getD (b.p_ - 1) h.junk = 0) ↔ b.content.getLast? = some 0 := by
    by_cases hp : 0 < b.p_
    · rw [content_getLast b h.junk hv hp]
      simp only [size, Option.some.injEq]
      exact ⟨fun x => x.2, fun x => ⟨hp, x⟩⟩
    · rw [content_empty b (by omega)]
      simp only [size]
      constructor
      · intro x; omega
      · intro x; simp at x
  have hr : r = true ↔ b.content.getLast? ≠ some 0 := by
    rw [Ne, ← hz]
    by_cases hc : b.size > 0 ∧ b.cells.getD (b.p_ - 1) h.junk = 0
    · simp only [terminate_if, if_pos hc, Option.some.injEq, effect.mk.injEq] at h1
      have : r = false := by
        have := h1.2.1
        simpa using this.symm
      rw [this]
      exact ⟨fun x => Bool.noConfusion x, fun x => absurd hc x⟩
    · simp only [terminate_if, if_neg hc, append_ascii] at h1
      cases ha : append fuel h b 0 with
      | none => simp [ha] at h1
      | some e =>
        simp only [ha, Option.some.injEq, effect.mk.injEq] at h1
        have h5 := h1.2.1
        cases hret : e.returned with
        | none => simp [hret] at h5
        | some u =>
          simp only [hret, Option.map_some', Option.some.injEq] at h5
          rw [← h5]
          exact ⟨fun _ => hc, fun _ => rfl⟩
  refine ⟨b1, r, h1, fun hne => ?_, fun he => ?_, ?_⟩
  · have ht := hr.2 hne
    exact ⟨ht, (h4 ht).1, (h4 ht).2⟩
  · have hfalse : r = false := by
      cases r with
      | false => rfl
      | true => exact absurd he (hr.1 rfl)
    exact ⟨hfalse, h3 hfalse⟩
  · cases r with
    | false =>
      rw [h3 rfl]
      by_contra hne
      have := hr.2 hne
      simp at this
    | true =>
      rw [(h4 rfl).1]
      simp

/-- The member `grow` on a buffer with less capacity than its auto buffer, asked for no
more than the auto buffer holds, with an allocator that refuses that request: the loop
`while (not allocationSuccess)` does not end. -/
theorem grow_spins (fuel : Nat) (h : heap) (b : string_buffer_base) (min_size : Nat)
    (hg : h.grants b.auto_buffer_size_ = false) (hcap : b.capazity < min_size)
    (hmin : min_size ≤ b.auto_buffer_size_) :
    grow fuel h b min_size = none := by
  have hd : double_until fuel b.auto_buffer_size_ min_size = some b.auto_buffer_size_ := by
    unfold double_until
    rw [if_neg (by omega)]
  unfold grow
  rw [if_neg (by omega), hd]
  exact grow_loop_spins h b min_size b.auto_buffer_size_ hg (by omega) (by omega) fuel

/-- The member `grow` returns, whatever the allocator does, on a buffer that holds its
auto buffer or a heap block. -/
theorem grow_returns (h : heap) (b : string_buffer_base) (min_size fuel : Nat)
    (hK : 0 < b.auto_buffer_size_) (hcap : b.auto_buffer_size_ ≤ b.capazity)
    (hf : 2 * min_size ≤ fuel) :
    ∃ r, grow fuel h b min_size = some r := by
  by_cases hle : min_size ≤ b.capazity
  · refine ⟨(true, b), ?_⟩
    unfold grow
    rw [if_pos hle]
  · obtain ⟨ok, b2, _, hg, _⟩ := grow_tries fuel h b min_size hK hcap (by omega) hf
    exact ⟨_, hg⟩

/-- The block `grow` allocates is no larger than the size its retry loop was entered
with. -/
theorem grow_loop_cap_le (h : heap) (b : string_buffer_base) (min_size : Nat)
    (hv : b.p_ ≤ b.capazity) (hc : b.capazity < min_size) :
    ∀ (fuel n : Nat) (b2 : string_buffer_base), min_size ≤ n →
      grow_loop h b min_size fuel n = some (true, b2) → b2.capazity ≤ n := by
  intro fuel
  induction fuel with
  | zero => intro n b2 _ hg; simp [grow_loop] at hg
  | succ f ih =>
    intro n b2 hn hg
    simp only [grow_loop] at hg
    by_cases hgr : h.grants n = true
    · rw [if_pos hgr] at hg
      simp only [Option.some.injEq, Prod.mk.injEq, true_and] at hg
      obtain ⟨_, _, h3, _⟩ := grow_block_spec h b n hv (by omega) b2 hg.symm
      omega
    · rw [if_neg hgr] at hg
      split_ifs at hg with h1 h2 h2
      · simp at hg
      · have := ih _ b2 (by omega) hg
        omega
      · simp at hg
      · exact ih _ b2 (by omega) hg

/-- The block `grow` allocates holds fewer than twice `min_size` code units, so that
its size in bytes fits `size_type` for code units of up to four bytes when `min_size`
is at most `max size_type >> 3`. -/
theorem grow_cap_fits (fuel : Nat) (h : heap) (b b2 : string_buffer_base) (min_size : Nat)
    (hK : 0 < b.auto_buffer_size_) (hcap : b.auto_buffer_size_ ≤ b.capazity)
    (hv : b.p_ ≤ b.capazity) (hmin : b.capazity < min_size)
    (hfit : min_size ≤ size_type_max >>> 3) (hf : min_size ≤ fuel)
    (hg : grow fuel h b min_size = some (true, b2)) :
    b2.capazity < 2 * min_size ∧ 4 * b2.capazity ≤ size_type_max := by
  obtain ⟨n, h1, h2, _, _, h5⟩ :=
    double_until_spec fuel b.auto_buffer_size_ min_size hK (by omega)
  have hn : n < 2 * min_size := h5 (by omega)
  unfold grow at hg
  rw [if_neg (by omega), h1] at hg
  have hle := grow_loop_cap_le h b min_size hv hmin fuel n b2 h2 hg
  have e : size_type_max >>> 3 = 2305843009213693951 := by decide
  have e2 : size_type_max = 18446744073709551615 := by decide
  rw [e] at hfit
  rw [e2]
  omega

end json.internal.string_buffer_base

namespace json.internal

open string_buffer_base

/-- Every call of the list keeps the write position inside the block. -/
theorem apply_op_valid (fuel : Nat) (h : heap) (b b2 : string_buffer_base) (op : buffer_op)
    (hv : b.p_ ≤ b.capazity) (ha : apply_op fuel h b op = some b2) :
    b2.p_ ≤ b2.capazity := by
  cases op with
  | append v =>
    simp only [apply_op, Option.map_eq_some'] at ha
    obtain ⟨e, he, rfl⟩ := ha
    exact (append_valid fuel h b v e hv he).1
  | append_len src =>
    simp only [apply_op, Option.map_eq_some'] at ha
    obtain ⟨e, he, rfl⟩ := ha
    exact (append_len_valid fuel h b src e hv he).1
  | append_ascii ch =>
    simp only [apply_op, Option.map_eq_some'] at ha
    obtain ⟨e, he, rfl⟩ := ha
    exact (append_valid fuel h b ch e hv he).1
  | terminate_if =>
    simp only [apply_op, Option.map_eq_some'] at ha
    obtain ⟨e, he, rfl⟩ := ha
    exact terminate_if_valid fuel h b e hv he
  | reserve n =>
    simp only [apply_op, Option.map_eq_some'] at ha
    obtain ⟨e, he, rfl⟩ := ha
    exact (reserve_valid fuel h b n e hv he).1
  | reset =>
    simp only [apply_op, Option.some.injEq] at ha
    subst ha
    simp [reset]
  | reset_to c =>
    simp only [apply_op, Option.some.injEq] at ha
    subst ha
    have := (reset_to_spec h b c).2.1
    simp only [size] at this
    rw [this]
    exact Nat.zero_le _

theorem run_ops_valid (fuel : Nat) (ops : List (heap × buffer_op)) :
    ∀ (b b2 : string_buffer_base), b.p_ ≤ b.capazity → run_ops fuel ops b = some b2 →
      b2.p_ ≤ b2.capazity := by
  induction ops with
  | nil =>
    intro b b2 hv hr
    simp only [run_ops, Option.some.injEq] at hr
    subst hr
    exact hv
  | cons x r ih =>
    intro b b2 hv hr
    obtain ⟨h, op⟩ := x
    simp only [run_ops] at hr
    cases ha : apply_op fuel h b op with
    | none => simp [ha] at hr
    | some b1 =>
      simp only [ha] at hr
      exact ih b1 b2 (apply_op_valid fuel h b b1 op hv ha) hr

end json.internal

namespace json.internal

open json.spec number_state

/-- The conversion `char ch = *first` keeps a code unit below 256. -/
theorem to_char_toNat (u : Nat) (h : u < 256) : (to_char u).toNat = u := by
  have hv : u.isValidChar := Or.inl (by omega)
  unfold to_char
  rw [Nat.mod_eq_of_lt h]
  simp only [Char.ofNat, dif_pos hv, Char.ofNatAux, Char.toNat]
  rfl

/-- The conversion `char ch = *first` looks at the low eight bits only. -/
theorem to_char_mod (u : Nat) : to_char (u % 256) = to_char u := by
  unfold to_char
  rw [Nat.mod_mod]

/-- A code unit of eight bits with the high bit set is no character of a numeral. -/
theorem to_char_not_numeral (u : Nat) (hlo : 0x80 ≤ u) (hhi : u < 256) :
    ¬ NumeralChar (to_char u) := by
  have ht := to_char_toNat u hhi
  simp only [NumeralChar, Digit, char_le_iff, char_eq_iff, Char.reduceToNat, ht]
  omega

/-- The function `validate_number` reads the low eight bits of each code unit. -/
theorem validate_number_units_mod (fuel : Nat) (units : List Nat) (at_last : Nat) :
    validate_number_units fuel (units.map (fun u => u % 256)) (at_last % 256) =
      validate_number_units fuel units at_last := by
  unfold validate_number_units
  rw [List.map_map, to_char_mod]
  congr 3
  funext u
  exact to_char_mod u

/-- On zero-terminated text of eight-bit code units, a unit with the high bit set makes
`validate_number` return `BAD_NUMBER`. -/
theorem validate_number_units_8bit (fuel : Nat) (units : List Nat)
    (hlt : units.length < fuel) (u : Nat) (hu : u ∈ units) (hlo : 0x80 ≤ u) (hhi : u < 256) :
    validate_number_units fuel units 0 = some .BAD_NUMBER := by
  have e : validate_number_units fuel units 0 = validate_number fuel (cstr (units.map to_char)) :=
    rfl
  rw [e, validate_number_cstr _ _ (by simpa using hlt)]
  obtain ⟨a, b, hab⟩ := List.append_of_mem hu
  rw [hab, List.map_append, List.map_cons]
  exact congrArg some (verdict_append_bad _ _
    (fun s s3 => run_bad_char (to_char_not_numeral u hlo hhi) _ s s3))

end json.internal

namespace json.parser_internal

open json.spec

/-- On an ASCII character, `append_ascii` and the UTF-32 `append_unicode` append the
same code unit exactly when the byte orders agree or the character is NUL. -/
theorem append_ascii_eq_iff (host_endian_t to_endian_t : endian_tag) (s : List Nat) (ch : Nat)
    (hch : ch < 128) :
    append_ascii s ch = append_unicode byte_swap host_endian_t to_endian_t s ch ↔
      (host_endian_t = to_endian_t ∨ ch = 0) := by
  have key : ∀ c < 128, swap_bytes32 c = c ↔ c = 0 := by
    unfold swap_bytes32
    decide
  simp only [append_ascii, append_unicode, append_unicode_imp, storage_append,
    List.append_cancel_left_eq, List.cons.injEq, and_true, byte_swap]
  by_cases he : host_endian_t = to_endian_t
  · simp [he]
  · rw [if_neg he]
    constructor
    · intro h
      exact Or.inr ((key ch hch).1 h.symm)
    · rintro (h | h)
      · exact absurd h he
      · exact ((key ch hch).2 h).symm

end json.parser_internal

namespace json.spec

/-- No call takes back that the parser has been started. -/
theorem started_stays (p : async_parser_state) (c : parser_call) (h : p.started = true) :
    (async_parser_call p c).2.started = true := by
  cases c with
  | start => rfl
  | parseBuffer eof =>
    simp only [async_parser_call]
    split_ifs <;> exact h
  | cancel => exact h
  | isRunning => exact h

/-- A call other than `start` does not start the parser. -/
theorem started_of_other (p : async_parser_state) (c : parser_call) (hc : c ≠ .start) :
    (async_parser_call p c).2.started = p.started := by
  cases c with
  | start => exact absurd rfl hc
  | parseBuffer eof =>
    simp only [async_parser_call]
    split_ifs <;> rfl
  | cancel => rfl
  | isRunning => rfl

/-- Once the parser has been started, every `start` returns NO. -/
theorem start_results_started (cs : List parser_call) :
    ∀ p : async_parser_state, p.started = true →
      start_results p cs = List.replicate (cs.count .start) false := by
  induction cs with
  | nil => intro p _; rfl
  | cons c r ih =>
    intro p hp
    have hr := ih _ (started_stays p c hp)
    unfold start_results at hr ⊢
    by_cases hc : c = .start
    · subst hc
      simp only [async_parser_run, List.filter_cons_of_pos, decide_True, List.map_cons,
        List.count_cons_self, List.replicate_succ, hr]
      simp [async_parser_call, hp]
    · have hne : (c == parser_call.start) = false := by simpa using hc
      simp only [async_parser_run, List.filter_cons, decide_eq_true_eq, hc, if_false, hr,
        List.count_cons, hne]
      simp

/-- Before the parser has been started, the first `start` returns YES and every later
one NO. -/
theorem start_results_idle (cs : List parser_call) :
    ∀ p : async_parser_state, p.started = false →
      start_results p cs =
        match cs.count .start with
        | 0 => []
        | k + 1 => true :: List.replicate k false := by
  induction cs with
  | nil => intro p _; rfl
  | cons c r ih =>
    intro p hp
    by_cases hc : c = .start
    · subst hc
      have hr := start_results_started r (async_parser_call p .start).2 rfl
      unfold start_results at hr ⊢
      simp only [async_parser_run, List.filter_cons_of_pos, decide_True, List.map_cons,
        List.count_cons_self, hr]
      simp [async_parser_call, hp]
    · have hne : (c == parser_call.start) = false := by simpa using hc
      have hr := ih _ ((started_of_other p c hc).trans hp)
      unfold start_results at hr ⊢
      simp only [async_parser_run, List.filter_cons, decide_eq_true_eq, hc, if_false, hr,
        List.count_cons, hne]
      simp

/-- Once `cancel` has been sent, every `parseBuffer:` returns NO and leaves the state. -/
theorem parseBuffer_canceled (p : async_parser_state) (eof : Bool) (h : p.canceled = true) :
    async_parser_call p (.parseBuffer eof) = (false, p) := by
  simp [async_parser_call, h]

end json.spec

namespace json.internal

open json.spec number_state

/-- A character that is not a digit, read twice, makes at most one transition. -/
theorem transition_twice (s s2 : number_state) (c : Char) (hc : is_digit c = false)
    (h : transition s c = some s2) : transition s2 c = none := by
  have hd : ¬ Digit c := by
    rw [digit_iff, hc]
    exact Bool.false_ne_true
  have h19 : ¬ ('1' ≤ c ∧ c ≤ '9') := fun x => hd (digit19_digit x)
  cases s with
  | number_state_int =>
    rcases transition_int h with ⟨hx, _⟩ | ⟨rfl, rfl⟩ | ⟨rfl | rfl, rfl⟩
    · exact absurd hx hd
    · decide
    · decide
    · decide
  | number_state_fractional =>
    rcases transition_fractional h with ⟨hx, _⟩ | ⟨rfl | rfl, rfl⟩
    · exact absurd hx hd
    · decide
    · decide
  | number_state_exponent => exact absurd (transition_exponent h).1 hd
  | number_state_start =>
    rcases transition_start h with ⟨rfl, rfl⟩ | ⟨rfl, rfl⟩ | ⟨hx, _⟩
    · decide
    · decide
    · exact absurd hx h19
  | number_state_sign =>
    rcases transition_sign h with ⟨rfl, rfl⟩ | ⟨hx, _⟩
    · decide
    · exact absurd hx h19
  | number_int_is_zero =>
    rcases transition_zero h with ⟨rfl, rfl⟩ | ⟨rfl | rfl, rfl⟩
    · decide
    · decide
    · decide
  | number_state_point => exact absurd (transition_point h).1 hd
  | number_state_exponent_start =>
    rcases transition_exponent_start h with ⟨rfl | rfl, rfl⟩ | ⟨hx, _⟩
    · decide
    · decide
    · exact absurd hx hd
  | number_state_exponent_sign => exact absurd (transition_exponent_sign h).1 hd

/-- The loop of `validate_number` ends within `(last - first) + 2` turns when the
character at `last` is not a digit. -/
theorem validate_loop_terminates (c : Char) (hc : is_digit c = false) (t : List Char) :
    ∀ (s : number_state) (fuel : Nat), t.length + 2 ≤ fuel →
      ∃ res, validate_loop fuel s t c = some res := by
  induction t with
  | nil =>
    intro s fuel hf
    obtain ⟨f, rfl⟩ : ∃ f, fuel = f + 2 := ⟨fuel - 2, by simp at hf; omega⟩
    simp only [validate_loop, List.headD_nil, List.tail_nil]
    cases h1 : transition s c with
    | none => exact ⟨_, rfl⟩
    | some s2 =>
      simp only [transition_twice s s2 c hc h1]
      exact ⟨_, rfl⟩
  | cons x r ih =>
    intro s fuel hf
    obtain ⟨f, rfl⟩ : ∃ f, fuel = f + 1 := ⟨fuel - 1, by simp at hf; omega⟩
    simp only [validate_loop, List.headD_cons, List.tail_cons]
    cases h1 : transition s x with
    | none => exact ⟨_, rfl⟩
    | some s2 =>
      simp only []
      exact ih s2 f (by simp only [List.length_cons] at hf; omega)

/-- The loop of `validate_number` in state Int at `last`, with a digit stored there,
does not end. -/
theorem validate_loop_spins (c : Char) (hc : Digit c) :
    ∀ fuel, validate_loop fuel number_state_int [] c = none := by
  intro fuel
  induction fuel with
  | zero => rfl
  | succ f ih =>
    simp only [validate_loop, List.headD_nil, List.tail_nil, digit_int hc]
    exact ih

/-- The characters `E` and `e` make the same transitions. -/
theorem transition_normalised (s : number_state) (c : Char) :
    transition s (if c = 'E' then 'e' else c) = transition s c := by
  by_cases h : c = 'E'
  · subst h
    cases s <;> decide
  · rw [if_neg h]

/-- Only the start of an exponent takes a `+`. -/
theorem transition_plus {s s2 : number_state} (h : transition s '+' = some s2) :
    s = number_state_exponent_start ∧ s2 = number_state_exponent_sign := by
  have e : ∀ s, transition s '+' =
      if s = number_state_exponent_start then some number_state_exponent_sign else none := by
    intro s
    cases s <;> decide
  rw [e] at h
  by_cases hs : s = number_state_exponent_start
  · rw [if_pos hs] at h
    exact ⟨hs, (Option.some.inj h).symm⟩
  · rw [if_neg hs] at h
    exact absurd h (by simp)

theorem normalise_cons (c : Char) (r : List Char) :
    normalise (c :: r) =
      if c = '+' then normalise r else (if c = 'E' then 'e' else c) :: normalise r := by
  by_cases h : c = '+' <;> simp [normalise, List.filter_cons, h]

/-- The automaton on a text and on the text with `+` deleted and `E` replaced by `e`:
the states reached are the same, or the one after the sign of an exponent and the one
before it. -/
theorem run_normalise (t : List Char) :
    ∀ (a b s2 : number_state),
      (a = b ∨ (a = number_state_exponent_sign ∧ b = number_state_exponent_start)) →
      run a t = some s2 →
      ∃ s3, run b (normalise t) = some s3 ∧
        (s2 = s3 ∨ (s2 = number_state_exponent_sign ∧ s3 = number_state_exponent_start)) := by
  induction t with
  | nil =>
    intro a b s2 hab hr
    simp only [run, Option.some.injEq] at hr
    subst hr
    exact ⟨b, rfl, hab⟩
  | cons c r ih =>
    intro a b s2 hab hr
    simp only [run] at hr
    cases h1 : transition a c with
    | none => simp [h1] at hr
    | some a2 =>
      simp only [h1] at hr
      rw [normalise_cons]
      by_cases hp : c = '+'
      · subst hp
        rw [if_pos rfl]
        obtain ⟨ha, ha2⟩ := transition_plus h1
        subst ha
        subst ha2
        rcases hab with hab | ⟨hab, _⟩
        · subst hab
          exact ih _ _ s2 (Or.inr ⟨rfl, rfl⟩) hr
        · exact absurd hab (by decide)
      · rw [if_neg hp]
        simp only [run, transition_normalised]
        rcases hab with hab | ⟨ha, hb⟩
        · subst hab
          simp only [h1]
          exact ih a2 a2 s2 (Or.inl rfl) hr
        · subst ha
          subst hb
          obtain ⟨hd, ha2⟩ := transition_exponent_sign h1
          subst ha2
          simp only [digit_exponent_start hd]
          exact ih _ _ s2 (Or.inl rfl) hr

/-- An accepted text keeps its classification when `+` is deleted and `E` replaced. -/
theorem verdict_normalise (t : List Char) (h : verdict t ≠ .BAD_NUMBER) :
    verdict (normalise t) = verdict t := by
  unfold verdict at h ⊢
  cases hr : run number_state_start t with
  | none => simp [hr] at h
  | some s2 =>
    simp only [hr] at h ⊢
    obtain ⟨s3, h3, hrel⟩ := run_normalise t _ _ s2 (Or.inl rfl) hr
    simp only [h3]
    rcases hrel with hrel | ⟨hrel, _⟩
    · rw [hrel]
    · subst hrel
      exact absurd rfl h

end json.internal

namespace json

open json.internal json.spec

/-- The codes of a text are those of the text with `+` deleted and `E` replaced. -/
theorem nibbles_normalise (t : List Char) : nibbles (normalise t) = nibbles t := by
  induction t with
  | nil => rfl
  | cons c r ih =>
    rw [normalise_cons, nibbles_cons]
    by_cases hp : c = '+'
    · rw [if_pos hp, if_pos hp, ih]
    · rw [if_neg hp, if_neg hp, nibbles_cons, ih, nibble_normalise]
      have hq : (if c = 'E' then 'e' else c) ≠ '+' := by
        by_cases he : c = 'E'
        · rw [if_pos he]; decide
        · rw [if_neg he]; exact hp
      rw [if_neg hq]

theorem normalise_length (t : List Char) : (normalise t).length = (strip_plus t).length := by
  simp [normalise, strip_plus]

theorem normalise_length_le (t : List Char) : (normalise t).length ≤ t.length := by
  rw [normalise_length]
  exact List.length_filter_le _ _

/-- The loop of `unpack` on bytes that hold an even number of codes and nothing after
them runs off their end. -/
theorem unpack_loop_full (ns : List Nat) :
    ∀ (i : Nat) (buffer : List Char), (∀ n ∈ ns, n < 15) → ns.length % 2 = 0 →
      i + ns.length ≤ 48 → unpack_loop (pair_up ns) i buffer = none := by
  induction ns using pair_up.induct with
  | case1 =>
    intro i buffer _ _ _
    rfl
  | case2 a =>
    intro i buffer _ hev _
    simp at hev
  | case3 a b r ih =>
    intro i buffer hns hev hi
    have ha : a < 15 := hns a (by simp)
    have hb : b < 15 := hns b (by simp)
    simp only [List.length_cons] at hi hev
    obtain ⟨h1, h2⟩ := byte_split a ha b (by omega)
    simp only [pair_up, unpack_loop, sizeof_unpacked_type, capacity_, h1, h2]
    rw [if_pos (by omega), if_neg (map_ne_nul a ha), if_neg (by omega),
      if_neg (map_ne_nul b hb)]
    exact ih (i + 2) _ (fun n hn => hns n (by simp [hn])) (by omega) (by omega)

/-- The bytes that hold 48 codes are the paired codes, with no filler. -/
theorem packed_full (ns : List Nat) (h : ns.length = 48) : packed ns = pair_up ns := by
  simp [packed, h, sizeof_value_, capacity_]

end json

namespace json.claims

open json json.internal json.spec

/-- C1, as stated, fails: the accepted text "1E5" comes back from `string()` as "1e5",
which is not the text with its `+` characters removed. -/
theorem roundtrip_uppercase_exponent_counterexample :
    validate_number 4 (cstr ['1', 'E', '5']) = some .Float ∧
    (['1', 'E', '5'] : List Char).length ≤ 48 ∧
    ∃ o, number_of_text 4 (List.replicate 24 0xFF) ['1', 'E', '5'] = some o ∧
      o.thrown = none ∧
      number_string o.value_ = some ['1', 'e', '5'] ∧
      number_string o.value_ ≠ some (strip_plus ['1', 'E', '5']) := by
  refine ⟨by decide, by decide, ⟨[0x1E, 0x5F] ++ List.replicate 22 0xFF, none⟩, ?_, rfl, ?_, ?_⟩
  · decide
  · decide
  · decide

/-- C1, amended: for every zero-terminated text that `validate_number` accepts, that is
no longer than 48 characters and shorter than 48 once `+` is removed, `string()` of the
number built from it returns the text with `+` deleted and `E` replaced by `e`. -/
theorem pack_unpack_roundtrip (storage : List Nat) (t : List Char) (fuel : Nat)
    (hs : storage.length = 24) (hfuel : t.length < fuel)
    (hacc : validate_number fuel (cstr t) ≠ some .BAD_NUMBER)
    (hcap : t.length ≤ 48) (hroom : (strip_plus t).length < 48) :
    ∃ o, number_of_text fuel storage t = some o ∧ o.thrown = none ∧
      number_string o.value_ = some (normalise t) := by
  rw [validate_number_cstr t fuel hfuel] at hacc
  have hv : verdict t ≠ .BAD_NUMBER := fun h => hacc (by rw [h])
  refine ⟨⟨packed (nibbles t), none⟩, assign_accepted fuel storage t hs hfuel hv hcap, rfl, ?_⟩
  have hl : (nibbles t).length < 48 := by
    simpa [nibbles, strip_plus] using hroom
  rw [number_string_packed (nibbles t) (nibbles_ne_nil_of_accepted hv) (nibbles_lt t) hl,
    map_nibbles (numeralChar_of_accepted hv)]

theorem pack_unpack_roundtrip_witness :
    (List.replicate 24 7).length = 24 ∧
    (['-', '1', '2', '.', '5', 'E', '+', '3'] : List Char).length < 9 ∧
    validate_number 9 (cstr ['-', '1', '2', '.', '5', 'E', '+', '3']) ≠ some .BAD_NUMBER ∧
    (['-', '1', '2', '.', '5', 'E', '+', '3'] : List Char).length ≤ 48 ∧
    (strip_plus ['-', '1', '2', '.', '5', 'E', '+', '3']).length < 48 ∧
    ∃ o, number_of_text 9 (List.replicate 24 7) ['-', '1', '2', '.', '5', 'E', '+', '3'] = some o ∧
      o.thrown = none ∧
      number_string o.value_ = some (normalise ['-', '1', '2', '.', '5', 'E', '+', '3']) :=
  ⟨by decide, by decide, by decide, by decide, by decide,
    pack_unpack_roundtrip _ _ 9 (by decide) (by decide) (by decide) (by decide) (by decide)⟩

/-- The member `string()` on a numeral of exactly 48 characters: `unpack` reads the
byte after `value_`. -/
theorem string_reads_past_value_at_capacity :
    ∃ o, number_of_text 49 (List.replicate 24 0xFF) ('1' :: List.replicate 47 '0') = some o ∧
      o.thrown = none ∧ number_string o.value_ = none := by
  rw [number_of_text, assign_accepted 49 _ _ (by decide) (by decide) (by decide) (by decide)]
  exact ⟨_, rfl, rfl, by decide⟩

/-- C2: on every range followed by a NUL terminator `validate_number` returns, and the
result differs from `BAD_NUMBER` if and only if the whole range matches the JSON number
grammar; a leading `+`, a leading zero followed by a digit, a `.` without a digit after
it, an exponent marker without a digit after it (and its optional sign), and any
character that no numeral is written with, each force `BAD_NUMBER`. -/
theorem validate_number_accepts_exactly_json_grammar (t : List Char) (fuel : Nat)
    (hfuel : t.length < fuel) :
    ∃ r, validate_number fuel (cstr t) = some r ∧
      (r ≠ .BAD_NUMBER ↔ JsonNumber t) ∧
      ((∃ rest, t = '+' :: rest) → r = .BAD_NUMBER) ∧
      ((∃ d rest, Digit d ∧ (t = '0' :: d :: rest ∨ t = '-' :: '0' :: d :: rest)) →
        r = .BAD_NUMBER) ∧
      ((∃ a b, t = a ++ '.' :: b ∧ NoDigitAhead b) → r = .BAD_NUMBER) ∧
      ((∃ a m b, t = a ++ m :: b ∧ (m = 'e' ∨ m = 'E') ∧ NoDigitAhead (afterSign b)) →
        r = .BAD_NUMBER) ∧
      ((∃ a c b, t = a ++ c :: b ∧ ¬ NumeralChar c) → r = .BAD_NUMBER) := by
  refine ⟨verdict t, validate_number_cstr t fuel hfuel, verdict_ne_bad_iff t, ?_, ?_, ?_, ?_, ?_⟩
  · rintro ⟨rest, rfl⟩
    exact verdict_plus rest
  · rintro ⟨d, rest, hd, rfl | rfl⟩
    · exact (verdict_leading_zero hd rest).1
    · exact (verdict_leading_zero hd rest).2
  · rintro ⟨a, b, rfl, hb⟩
    exact verdict_append_bad a _ (run_dot_no_digit hb)
  · rintro ⟨a, m, b, rfl, hm, hb⟩
    exact verdict_append_bad a _ (run_marker_no_digit hm hb)
  · rintro ⟨a, c, b, rfl, hc⟩
    exact verdict_append_bad a _ (run_bad_char hc b)

theorem validate_number_accepts_exactly_json_grammar_witness :
    (['-', '1', '.', '5', 'e', '+', '7'] : List Char).length < 8 ∧
    ∃ r, validate_number 8 (cstr ['-', '1', '.', '5', 'e', '+', '7']) = some r ∧
      (r ≠ .BAD_NUMBER ↔ JsonNumber ['-', '1', '.', '5', 'e', '+', '7']) ∧
      ((∃ rest, ['-', '1', '.', '5', 'e', '+', '7'] = '+' :: rest) → r = .BAD_NUMBER) ∧
      ((∃ d rest, Digit d ∧ (['-', '1', '.', '5', 'e', '+', '7'] = '0' :: d :: rest ∨
          ['-', '1', '.', '5', 'e', '+', '7'] = '-' :: '0' :: d :: rest)) →
        r = .BAD_NUMBER) ∧
      ((∃ a b, ['-', '1', '.', '5', 'e', '+', '7'] = a ++ '.' :: b ∧ NoDigitAhead b) →
        r = .BAD_NUMBER) ∧
      ((∃ a m b, ['-', '1', '.', '5', 'e', '+', '7'] = a ++ m :: b ∧ (m = 'e' ∨ m = 'E') ∧
          NoDigitAhead (afterSign b)) → r = .BAD_NUMBER) ∧
      ((∃ a c b, ['-', '1', '.', '5', 'e', '+', '7'] = a ++ c :: b ∧ ¬ NumeralChar c) →
        r = .BAD_NUMBER) :=
  ⟨by decide, validate_number_accepts_exactly_json_grammar _ 8 (by decide)⟩

/-- C3: on every zero-terminated text `validate_number` returns; the text is accepted
(the result is not `BAD_NUMBER`) exactly when it matches the JSON number grammar, and on
an accepted text the result is `Integer` exactly when the text has neither `.` nor
`e`/`E`, `Decimal` exactly when it has `.` but no `e`/`E`, and `Float` exactly when it
has `e` or `E`. -/
theorem validate_number_classification (t : List Char) (fuel : Nat)
    (hfuel : t.length < fuel) :
    ∃ r, validate_number fuel (cstr t) = some r ∧
      (r ≠ .BAD_NUMBER ↔ JsonNumber t) ∧
      (JsonNumber t →
        r = (if 'e' ∈ t ∨ 'E' ∈ t then .Float else if '.' ∈ t then .Decimal else .Integer)) ∧
      (r ≠ .BAD_NUMBER →
        (r = .Integer ↔ ('.' ∉ t ∧ 'e' ∉ t ∧ 'E' ∉ t)) ∧
        (r = .Decimal ↔ ('.' ∈ t ∧ 'e' ∉ t ∧ 'E' ∉ t)) ∧
        (r = .Float ↔ ('e' ∈ t ∨ 'E' ∈ t))) := by
  refine ⟨verdict t, validate_number_cstr t fuel hfuel, verdict_ne_bad_iff t, fun hj => ?_,
    fun h => verdict_classification h⟩
  obtain ⟨c1, c2, c3⟩ := verdict_classification ((verdict_ne_bad_iff t).2 hj)
  by_cases he : 'e' ∈ t ∨ 'E' ∈ t
  · rw [if_pos he]
    exact c3.2 he
  · rw [if_neg he]
    have he2 : 'e' ∉ t ∧ 'E' ∉ t := not_or.mp he
    by_cases hp : '.' ∈ t
    · rw [if_pos hp]
      exact c2.2 ⟨hp, he2⟩
    · rw [if_neg hp]
      exact c1.2 ⟨hp, he2⟩

theorem validate_number_classification_witness :
    (['3', '.', '1', '4'] : List Char).length < 5 ∧
    validate_number 5 (cstr ['3', '.', '1', '4']) = some .Decimal ∧
    validate_number 5 (cstr ['-', '7']) = some .Integer ∧
    validate_number 5 (cstr ['2', 'E', '8']) = some .Float ∧
    validate_number 5 (cstr ['3', '.']) = some .BAD_NUMBER ∧
    ∃ r, validate_number 5 (cstr ['3', '.', '1', '4']) = some r ∧
      (r ≠ .BAD_NUMBER ↔ JsonNumber ['3', '.', '1', '4']) ∧
      (JsonNumber ['3', '.', '1', '4'] →
        r = (if 'e' ∈ ['3', '.', '1', '4'] ∨ 'E' ∈ ['3', '.', '1', '4'] then .Float
          else if '.' ∈ ['3', '.', '1', '4'] then .Decimal else .Integer)) ∧
      (r ≠ .BAD_NUMBER →
        (r = .Integer ↔ ('.' ∉ ['3', '.', '1', '4'] ∧ 'e' ∉ ['3', '.', '1', '4'] ∧
          'E' ∉ ['3', '.', '1', '4'])) ∧
        (r = .Decimal ↔ ('.' ∈ ['3', '.', '1', '4'] ∧ 'e' ∉ ['3', '.', '1', '4'] ∧
          'E' ∉ ['3', '.', '1', '4'])) ∧
        (r = .Float ↔ ('e' ∈ ['3', '.', '1', '4'] ∨ 'E' ∈ ['3', '.', '1', '4']))) :=
  ⟨by decide, by decide, by decide, by decide, by decide,
    validate_number_classification _ 5 (by decide)⟩

/-- C4: the numeral classification table on zero-terminated text: "0" and "-0" give
`Integer`, "3.14" gives `Decimal`, "2e10" gives `Float`, and "01", "1.", ".5" and "1e"
give `BAD_NUMBER`. -/
theorem validate_number_table (fuel : Nat) (hfuel : 4 < fuel) :
    validate_number fuel (cstr ['0']) = some .Integer ∧
    validate_number fuel (cstr ['-', '0']) = some .Integer ∧
    validate_number fuel (cstr ['3', '.', '1', '4']) = some .Decimal ∧
    validate_number fuel (cstr ['2', 'e', '1', '0']) = some .Float ∧
    validate_number fuel (cstr ['0', '1']) = some .BAD_NUMBER ∧
    validate_number fuel (cstr ['1', '.']) = some .BAD_NUMBER ∧
    validate_number fuel (cstr ['.', '5']) = some .BAD_NUMBER ∧
    validate_number fuel (cstr ['1', 'e']) = some .BAD_NUMBER := by
  refine ⟨?_, ?_, ?_, ?_, ?_, ?_, ?_, ?_⟩ <;>
    (rw [validate_number_cstr _ fuel (lt_of_le_of_lt (by decide) hfuel)]; decide)

theorem validate_number_table_witness :
    4 < 5 ∧
    validate_number 5 (cstr ['0']) = some .Integer ∧
    validate_number 5 (cstr ['-', '0']) = some .Integer ∧
    validate_number 5 (cstr ['3', '.', '1', '4']) = some .Decimal ∧
    validate_number 5 (cstr ['2', 'e', '1', '0']) = some .Float ∧
    validate_number 5 (cstr ['0', '1']) = some .BAD_NUMBER ∧
    validate_number 5 (cstr ['1', '.']) = some .BAD_NUMBER ∧
    validate_number 5 (cstr ['.', '5']) = some .BAD_NUMBER ∧
    validate_number 5 (cstr ['1', 'e']) = some .BAD_NUMBER :=
  ⟨by decide, validate_number_table 5 (by decide)⟩

/-- C5: for every non-empty zero-terminated text of at most 48 characters, `assign`
throws "bad json::number" if and only if `validate_number` classifies the text as
`BAD_NUMBER`; otherwise it throws nothing and stores the packed text. -/
theorem assign_fails_exactly_on_bad_numerals (value_ : List Nat) (t : List Char) (fuel : Nat)
    (hs : value_.length = 24) (hne : t ≠ []) (hcap : t.length ≤ 48)
    (hfuel : t.length < fuel) :
    ∃ r o, validate_number fuel (cstr t) = some r ∧
      assign fuel value_ (some (cstr t)) = some o ∧
      (o.thrown = some "bad json::number" ↔ r = .BAD_NUMBER) ∧
      (o.thrown ≠ none ↔ r = .BAD_NUMBER) ∧
      (r ≠ .BAD_NUMBER → o = ⟨packed (nibbles t), none⟩) := by
  by_cases hv : verdict t = .BAD_NUMBER
  · refine ⟨verdict t, ⟨value_, some "bad json::number"⟩, validate_number_cstr t fuel hfuel,
      ?_, by simp [hv], by simp [hv], fun h => absurd hv h⟩
    rw [assign_cstr_eq fuel value_ t hne hfuel, if_neg (by simpa using hv)]
  · exact ⟨verdict t, ⟨packed (nibbles t), none⟩, validate_number_cstr t fuel hfuel,
      assign_accepted fuel value_ t hs hfuel hv hcap, by simp [hv], by simp [hv], fun _ => rfl⟩

theorem assign_fails_exactly_on_bad_numerals_witness :
    (List.replicate 24 0xFF).length = 24 ∧ (['4', '2'] : List Char) ≠ [] ∧
    (['4', '2'] : List Char).length ≤ 48 ∧ (['4', '2'] : List Char).length < 3 ∧
    ∃ r o, validate_number 3 (cstr ['4', '2']) = some r ∧
      assign 3 (List.replicate 24 0xFF) (some (cstr ['4', '2'])) = some o ∧
      (o.thrown = some "bad json::number" ↔ r = .BAD_NUMBER) ∧
      (o.thrown ≠ none ↔ r = .BAD_NUMBER) ∧
      (r ≠ .BAD_NUMBER → o = ⟨packed (nibbles ['4', '2']), none⟩) :=
  ⟨by decide, by decide, by decide, by decide,
    assign_fails_exactly_on_bad_numerals _ _ 3 (by decide) (by decide) (by decide) (by decide)⟩

/-- C6, as stated, fails: a number that holds "1" still holds "1" after `assign` has
thrown on the rejected text "x"; its bytes are not `0xFF` and `string()` is not "NaN". -/
theorem failed_assign_sentinel_counterexample :
    validate_number 2 (cstr ['x']) = some .BAD_NUMBER ∧
    number_of_text 2 (List.replicate 24 0xFF) ['1'] =
      some ⟨0x1F :: List.replicate 23 0xFF, none⟩ ∧
    ∃ o, assign 2 (0x1F :: List.replicate 23 0xFF) (some (cstr ['x'])) = some o ∧
      o.thrown = some "bad json::number" ∧
      o.value_ ≠ List.replicate 24 0xFF ∧
      number_string o.value_ = some ['1'] ∧
      number_string o.value_ ≠ some ['N', 'a', 'N'] := by
  refine ⟨by decide, by decide,
    ⟨0x1F :: List.replicate 23 0xFF, some "bad json::number"⟩, ?_, rfl, ?_, ?_, ?_⟩
  · decide
  · decide
  · decide
  · decide

/-- C6, amended: for every number and every non-empty zero-terminated text that
`validate_number` rejects, `assign` throws "bad json::number" and the packed bytes of
the number are what they were before the call. -/
theorem failed_assign_keeps_value (value_ : List Nat) (t : List Char) (fuel : Nat)
    (hne : t ≠ []) (hfuel : t.length < fuel)
    (hrej : validate_number fuel (cstr t) = some .BAD_NUMBER) :
    assign fuel value_ (some (cstr t)) = some ⟨value_, some "bad json::number"⟩ := by
  rw [validate_number_cstr t fuel hfuel] at hrej
  have hv : verdict t = .BAD_NUMBER := by simpa using hrej
  rw [assign_cstr_eq fuel value_ t hne hfuel, if_neg (by simpa using hv)]

theorem failed_assign_keeps_value_witness :
    (['1', '.'] : List Char) ≠ [] ∧ (['1', '.'] : List Char).length < 3 ∧
    validate_number 3 (cstr ['1', '.']) = some .BAD_NUMBER ∧
    assign 3 (0x1F :: List.replicate 23 0xFF) (some (cstr ['1', '.'])) =
      some ⟨0x1F :: List.replicate 23 0xFF, some "bad json::number"⟩ :=
  ⟨by decide, by decide, by decide,
    failed_assign_keeps_value _ _ 3 (by decide) (by decide) (by decide)⟩

/-- C7: for every well-formed numeral text of more than 48 characters, `assign` throws
"json::number range error" and the packed bytes of the number are what they were
before the call. -/
theorem assign_beyond_capacity (value_ : List Nat) (t : List Char) (fuel : Nat)
    (hfuel : t.length < fuel) (hwf : JsonNumber t) (hlong : 48 < t.length) :
    assign fuel value_ (some (cstr t)) = some ⟨value_, some "json::number range error"⟩ := by
  have hv : verdict t ≠ .BAD_NUMBER := (verdict_ne_bad_iff t).mpr hwf
  have hne : t ≠ [] := by
    intro h; rw [h] at hlong; simp at hlong
  rw [assign_cstr_eq fuel value_ t hne hfuel, if_pos hv]
  simp only [pack, if_neg hne]
  rw [if_pos (by simpa [capacity_] using hlong)]

theorem assign_beyond_capacity_witness :
    ('7' :: List.replicate 48 '0').length < 50 ∧ JsonNumber ('7' :: List.replicate 48 '0') ∧
    48 < ('7' :: List.replicate 48 '0').length ∧
    assign 50 (0x1F :: List.replicate 23 0xFF) (some (cstr ('7' :: List.replicate 48 '0'))) =
      some ⟨0x1F :: List.replicate 23 0xFF, some "json::number range error"⟩ :=
  have hj : JsonNumber ('7' :: List.replicate 48 '0') :=
    ⟨[], '7' :: List.replicate 48 '0', [], [], by simp, Or.inl rfl,
      Or.inr ⟨'7', List.replicate 48 '0', rfl, by decide, by decide,
        fun c hc => by rw [List.eq_of_mem_replicate hc]; exact ⟨by decide, by decide⟩⟩,
      Or.inl rfl, Or.inl rfl⟩
  ⟨by simp, hj, by simp, assign_beyond_capacity _ _ 50 (by simp) hj (by simp)⟩

/-- C8: a default-constructed number, and a number after `assign` with the null
pointer or with an empty range, has all 24 bytes equal to `0xFF`, nothing is thrown,
and `string()` is "NaN"; `string()` is never "NaN" for a number assigned from an
accepted numeral. -/
theorem sentinel_state (storage : List Nat) (hs : storage.length = 24) :
    number_default storage = List.replicate 24 0xFF ∧
    number_string (number_default storage) = some ['N', 'a', 'N'] ∧
    (∀ fuel, assign fuel storage none = some ⟨List.replicate 24 0xFF, none⟩) ∧
    (∀ fuel at_last, assign fuel storage (some ⟨[], at_last⟩) =
      some ⟨List.replicate 24 0xFF, none⟩) ∧
    number_string (List.replicate 24 0xFF) = some ['N', 'a', 'N'] ∧
    (∀ fuel t, t.length < fuel → validate_number fuel (cstr t) ≠ some .BAD_NUMBER →
      t.length ≤ 48 →
      ∃ o, assign fuel storage (some (cstr t)) = some o ∧ o.thrown = none ∧
        number_string o.value_ ≠ some ['N', 'a', 'N']) := by
  have hd : number_default storage = List.replicate 24 0xFF := memset_all storage hs
  refine ⟨hd, by rw [hd]; decide, ?_, ?_, by decide, ?_⟩
  · intro fuel
    simp only [assign, memset_all storage hs]
  · intro fuel at_last
    simp only [assign, if_true, memset_all storage hs]
  · intro fuel t hfuel hacc hcap
    rw [validate_number_cstr t fuel hfuel] at hacc
    have hv : verdict t ≠ .BAD_NUMBER := fun h => hacc (by rw [h])
    refine ⟨⟨packed (nibbles t), none⟩, assign_accepted fuel storage t hs hfuel hv hcap, rfl, ?_⟩
    intro h
    exact packed_head_ne (nibbles t) (nibbles_ne_nil_of_accepted hv) (nibbles_lt t)
      (number_string_nan h)

theorem sentinel_state_witness :
    (List.replicate 24 0x5A).length = 24 ∧
    number_default (List.replicate 24 0x5A) = List.replicate 24 0xFF ∧
    number_string (number_default (List.replicate 24 0x5A)) = some ['N', 'a', 'N'] ∧
    (∀ fuel, assign fuel (List.replicate 24 0x5A) none =
      some ⟨List.replicate 24 0xFF, none⟩) ∧
    (∀ fuel at_last, assign fuel (List.replicate 24 0x5A) (some ⟨[], at_last⟩) =
      some ⟨List.replicate 24 0xFF, none⟩) ∧
    number_string (List.replicate 24 0xFF) = some ['N', 'a', 'N'] ∧
    (∀ fuel t, t.length < fuel → validate_number fuel (cstr t) ≠ some .BAD_NUMBER →
      t.length ≤ 48 →
      ∃ o, assign fuel (List.replicate 24 0x5A) (some (cstr t)) = some o ∧ o.thrown = none ∧
        number_string o.value_ ≠ some ['N', 'a', 'N']) :=
  ⟨by decide, sentinel_state _ (by decide)⟩

/-- C9: for accepted numeral texts `s` and `t` of at most 48 characters, the numbers
built from them compare equal exactly when their bytes are identical, and exactly when
`s` and `t` are identical after `+` is deleted and `E` is replaced by `e`. -/
theorem packed_equality_is_normalised_text_equality (st1 st2 : List Nat) (s t : List Char)
    (fuel : Nat) (h1 : st1.length = 24) (h2 : st2.length = 24)
    (hsf : s.length < fuel) (htf : t.length < fuel)
    (hsa : validate_number fuel (cstr s) ≠ some .BAD_NUMBER)
    (hta : validate_number fuel (cstr t) ≠ some .BAD_NUMBER)
    (hsc : s.length ≤ 48) (htc : t.length ≤ 48) :
    ∃ a b, number_of_text fuel st1 s = some ⟨a, none⟩ ∧
      number_of_text fuel st2 t = some ⟨b, none⟩ ∧
      (is_equal a b = true ↔ a = b) ∧
      (is_equal a b = true ↔ normalise s = normalise t) := by
  rw [validate_number_cstr s fuel hsf] at hsa
  rw [validate_number_cstr t fuel htf] at hta
  have hvs : verdict s ≠ .BAD_NUMBER := fun h => hsa (by rw [h])
  have hvt : verdict t ≠ .BAD_NUMBER := fun h => hta (by rw [h])
  have hls : (nibbles s).length ≤ 48 := le_trans (nibbles_length_le s) hsc
  have hlt : (nibbles t).length ≤ 48 := le_trans (nibbles_length_le t) htc
  have key := is_equal_packed (nibbles_lt s) (nibbles_lt t) hls hlt
  refine ⟨packed (nibbles s), packed (nibbles t),
    assign_accepted fuel st1 s h1 hsf hvs hsc, assign_accepted fuel st2 t h2 htf hvt htc, ?_, ?_⟩
  · rw [key]
    exact ⟨fun h => by rw [h], packed_inj (nibbles_lt s) (nibbles_lt t)⟩
  · rw [key]
    exact nibbles_eq_iff (numeralChar_of_accepted hvs) (numeralChar_of_accepted hvt)

theorem packed_equality_is_normalised_text_equality_witness :
    (List.replicate 24 0).length = 24 ∧ (List.replicate 24 0xFF).length = 24 ∧
    (['1', 'e', '+', '5'] : List Char).length < 5 ∧ (['1', 'E', '5'] : List Char).length < 5 ∧
    validate_number 5 (cstr ['1', 'e', '+', '5']) ≠ some .BAD_NUMBER ∧
    validate_number 5 (cstr ['1', 'E', '5']) ≠ some .BAD_NUMBER ∧
    (['1', 'e', '+', '5'] : List Char).length ≤ 48 ∧ (['1', 'E', '5'] : List Char).length ≤ 48 ∧
    ∃ a b, number_of_text 5 (List.replicate 24 0) ['1', 'e', '+', '5'] = some ⟨a, none⟩ ∧
      number_of_text 5 (List.replicate 24 0xFF) ['1', 'E', '5'] = some ⟨b, none⟩ ∧
      (is_equal a b = true ↔ a = b) ∧
      (is_equal a b = true ↔ normalise ['1', 'e', '+', '5'] = normalise ['1', 'E', '5']) :=
  ⟨by decide, by decide, by decide, by decide, by decide, by decide, by decide, by decide,
    packed_equality_is_normalised_text_equality _ _ _ _ 5 (by decide) (by decide) (by decide)
      (by decide) (by decide) (by decide) (by decide) (by decide)⟩

/-- C10, as stated, fails: the accepted text "1.0" denotes the integer 1, yet the number
built from it does not compare equal to the integer 1. -/
theorem integral_equality_counterexample :
    validate_number 4 (cstr ['1', '.', '0']) = some .Decimal ∧
    Denotes ['1', '.', '0'] 1 ∧
    ∃ o, number_of_text 4 (List.replicate 24 0xFF) ['1', '.', '0'] = some o ∧
      o.thrown = none ∧
      eq_integral o.value_ (List.replicate 24 0xFF) 1 = some false := by
  refine ⟨by decide, by decide, ⟨[0x1D, 0x0F] ++ List.replicate 22 0xFF, none⟩, ?_, rfl, ?_⟩
  · decide
  · decide

/-- C10, amended: for every accepted numeral text `t` of at most 48 characters and
every integer `v` below `10 ^ 47` in absolute value, the number built from `t` compares
equal to `v` exactly when `t`, with `+` deleted and `E` replaced by `e`, is the decimal
rendering of `v`; when it compares equal, `t` denotes `v`. -/
theorem integral_equality_is_textual (st1 st2 : List Nat) (t : List Char) (v : Int)
    (fuel : Nat) (h1 : st1.length = 24) (h2 : st2.length = 24) (hfuel : t.length < fuel)
    (hacc : validate_number fuel (cstr t) ≠ some .BAD_NUMBER) (hcap : t.length ≤ 48)
    (hv : v.natAbs < 10 ^ 47) :
    ∃ a b, number_of_text fuel st1 t = some ⟨a, none⟩ ∧
      eq_integral a st2 v = some b ∧
      (b = true ↔ normalise t = lexical_cast v) ∧
      (b = true → Denotes t v) := by
  rw [validate_number_cstr t fuel hfuel] at hacc
  have hvt : verdict t ≠ .BAD_NUMBER := fun h => hacc (by rw [h])
  obtain ⟨hne, hchars, hnorm, hlen⟩ := lexical_cast_chars v
  have hp : number_of_integral st2 v = ⟨packed (nibbles (lexical_cast v)), none⟩ :=
    pack_numeral st2 _ h2 hne (hlen hv) hchars
  have hlt : (nibbles t).length ≤ 48 := le_trans (nibbles_length_le t) hcap
  have hlv : (nibbles (lexical_cast v)).length ≤ 48 :=
    le_trans (nibbles_length_le _) (hlen hv)
  refine ⟨packed (nibbles t), is_equal (packed (nibbles t)) (packed (nibbles (lexical_cast v))),
    assign_accepted fuel st1 t h1 hfuel hvt hcap, by simp [eq_integral, hp], ?_⟩
  have key : is_equal (packed (nibbles t)) (packed (nibbles (lexical_cast v))) = true ↔
      normalise t = lexical_cast v := by
    rw [is_equal_packed (nibbles_lt t) (nibbles_lt _) hlt hlv,
      nibbles_eq_iff (numeralChar_of_accepted hvt) hchars, hnorm]
  exact ⟨key, fun hb => denotes_of_normalise_eq hvt (key.mp hb)⟩

theorem integral_equality_is_textual_witness :
    (List.replicate 24 0).length = 24 ∧ (List.replicate 24 0xFF).length = 24 ∧
    (['-', '4', '2'] : List Char).length < 4 ∧
    validate_number 4 (cstr ['-', '4', '2']) ≠ some .BAD_NUMBER ∧
    (['-', '4', '2'] : List Char).length ≤ 48 ∧ (-42 : Int).natAbs < 10 ^ 47 ∧
    ∃ a b, number_of_text 4 (List.replicate 24 0) ['-', '4', '2'] = some ⟨a, none⟩ ∧
      eq_integral a (List.replicate 24 0xFF) (-42) = some b ∧
      (b = true ↔ normalise ['-', '4', '2'] = lexical_cast (-42)) ∧
      (b = true → Denotes ['-', '4', '2'] (-42)) :=
  ⟨by decide, by decide, by decide, by decide, by decide, by decide,
    integral_equality_is_textual _ _ _ (-42) 4 (by decide) (by decide) (by decide) (by decide)
      (by decide) (by decide)⟩

end json.claims


namespace json.claims

open json.internal json.internal.string_buffer_base json.spec

/-- C11: for every inline capacity of at least 1 and every sequence of code units,
appending them one at a time with `append(code_unit)` to a fresh buffer, with an
allocator that grants every request, gives `size()` equal to the length of the sequence
and the sequence as content. -/
theorem growth_correctness (autoBuffer us : List Nat) (h : heap) (fuel : Nat)
    (hK : 1 ≤ autoBuffer.length) (hu : Unlimited h) (hf : us.length ≤ fuel) :
    ∃ b, append_all fuel h us (construct autoBuffer) = some ⟨b, some (), none⟩ ∧
      b.size = us.length ∧ b.content = us := by
  obtain ⟨b, h1, h2, h3, _⟩ := append_all_unlimited fuel h hu us (construct autoBuffer) hK
    (Nat.zero_le _) (by simp only [construct]; omega)
  refine ⟨b, h1, ?_, ?_⟩
  · rw [h2]; simp [construct, size]
  · rw [h3]; simp [construct, content]

theorem growth_correctness_witness :
    1 ≤ ([0, 0] : List Nat).length ∧ Unlimited (unlimited_heap 0xCD) ∧
    ([1, 2, 3, 4, 5] : List Nat).length ≤ 5 ∧
    ∃ b, append_all 5 (unlimited_heap 0xCD) [1, 2, 3, 4, 5] (construct [0, 0]) =
        some ⟨b, some (), none⟩ ∧
      b.size = ([1, 2, 3, 4, 5] : List Nat).length ∧ b.content = [1, 2, 3, 4, 5] :=
  ⟨by decide, unlimited_heap_unlimited _, by decide,
    growth_correctness [0, 0] [1, 2, 3, 4, 5] (unlimited_heap 0xCD) 5 (by decide)
      (unlimited_heap_unlimited _) (by decide)⟩

/-- C12: for every buffer state (write position inside the block, inline capacity at
least 1) and an allocator that grants every request, `terminate_if` returns, and a
second call right after it returns false and leaves the buffer exactly as the first
call left it; the first call appended one zero code unit or nothing. -/
theorem terminate_if_idempotent (b : string_buffer_base) (h : heap) (fuel : Nat)
    (hK : 1 ≤ b.auto_buffer_size_) (hv : b.size ≤ b.capazity) (hu : Unlimited h)
    (hf : b.size < fuel) :
    ∃ b1 r, terminate_if fuel h b = some ⟨b1, some r, none⟩ ∧
      terminate_if fuel h b1 = some ⟨b1, some false, none⟩ ∧
      ((b1.content = b.content ∧ b1.size = b.size) ∨
        (b1.content = b.content ++ [0] ∧ b1.size = b.size + 1)) := by
  obtain ⟨b1, r, h1, h2, h3, h4, _⟩ := terminate_if_unlimited fuel h b hu hK hv hf
  refine ⟨b1, r, h1, h2, ?_⟩
  cases r with
  | false => left; rw [h3 rfl]; exact ⟨rfl, rfl⟩
  | true => right; exact h4 rfl

theorem terminate_if_idempotent_witness :
    1 ≤ (construct [7, 7]).auto_buffer_size_ ∧
    (construct [7, 7]).size ≤ (construct [7, 7]).capazity ∧
    Unlimited (unlimited_heap 0xCD) ∧ (construct [7, 7]).size < 1 ∧
    ∃ b1 r, terminate_if 1 (unlimited_heap 0xCD) (construct [7, 7]) = some ⟨b1, some r, none⟩ ∧
      terminate_if 1 (unlimited_heap 0xCD) b1 = some ⟨b1, some false, none⟩ ∧
      ((b1.content = (construct [7, 7]).content ∧ b1.size = (construct [7, 7]).size) ∨
        (b1.content = (construct [7, 7]).content ++ [0] ∧
          b1.size = (construct [7, 7]).size + 1)) :=
  ⟨by decide, by decide, unlimited_heap_unlimited _, by decide,
    terminate_if_idempotent (construct [7, 7]) (unlimited_heap 0xCD) 1 (by decide) (by decide)
      (unlimited_heap_unlimited _) (by decide)⟩

/-- C13: `size() <= capazity()` holds in every state reached from a freshly constructed
buffer by a sequence of `append(code_unit)`, `append(ptr, len)`, `append_ascii`,
`terminate_if`, `reserve`, `reset()` and `reset(capazity)`, each call with any allocator,
calls that throw included. -/
theorem buffer_invariant (autoBuffer : List Nat) (ops : List (heap × buffer_op))
    (fuel : Nat) (b : string_buffer_base)
    (hr : run_ops fuel ops (construct autoBuffer) = some b) :
    b.size ≤ b.capazity :=
  run_ops_valid fuel ops (construct autoBuffer) b (Nat.zero_le _) hr

theorem buffer_invariant_witness :
    run_ops 50 [(unlimited_heap 0, .append 1), (unlimited_heap 0, .append 2),
        (exhausted_heap 0, .append 3), (unlimited_heap 0, .append_len [4, 5, 6]),
        (unlimited_heap 0, .terminate_if), (exhausted_heap 0, .reserve 100),
        (exhausted_heap 0, .reset_to 9), (unlimited_heap 0, .append_ascii 0x41)]
        (construct [0, 0]) = some ⟨[1, 2], .heap [0x41, 0], 1⟩ ∧
    (⟨[1, 2], .heap [0x41, 0], 1⟩ : string_buffer_base).size ≤
      (⟨[1, 2], .heap [0x41, 0], 1⟩ : string_buffer_base).capazity :=
  ⟨by decide,
    buffer_invariant [0, 0]
      [(unlimited_heap 0, .append 1), (unlimited_heap 0, .append 2),
        (exhausted_heap 0, .append 3), (unlimited_heap 0, .append_len [4, 5, 6]),
        (unlimited_heap 0, .terminate_if), (exhausted_heap 0, .reserve 100),
        (exhausted_heap 0, .reset_to 9), (unlimited_heap 0, .append_ascii 0x41)]
      50 ⟨[1, 2], .heap [0x41, 0], 1⟩ (by decide)⟩

/-- C14, the code at the failing input: on a buffer of 8 cells that holds 6 code units,
`reserve(9)` calls `grow(9 - left()) = grow(7)`, which has nothing to do; `reserve`
returns without throwing and `capazity()` is still 8, below 9. -/
theorem reserve_leaves_capazity_short :
    (⟨[1, 2, 3, 4, 5, 6, 0, 0], .auto, 6⟩ : string_buffer_base).size = 6 ∧
    (⟨[1, 2, 3, 4, 5, 6, 0, 0], .auto, 6⟩ : string_buffer_base).capazity = 8 ∧
    ∃ e, reserve 100 (unlimited_heap 0) ⟨[1, 2, 3, 4, 5, 6, 0, 0], .auto, 6⟩ 9 = some e ∧
      e.returned = some () ∧ e.thrown = none ∧ e.buffer.capazity = 8 ∧
      e.buffer.capazity < 9 := by
  refine ⟨by decide, by decide, ⟨⟨[1, 2, 3, 4, 5, 6, 0, 0], .auto, 6⟩, some (), none⟩, ?_, rfl,
    rfl, ?_, ?_⟩
  · decide
  · decide
  · decide

/-- C15, the code at the failing input: on a buffer of 8 cells that holds 5 code units,
`append_unicode(0x1F600)` (four UTF-8 code units) calls `reserve(size() + buffer_size)`,
which grows nothing (`grow(6)` for a `buffer_size` of 4, `grow(8)` for 6), and returns 4
with `size()` equal to 9, above `capazity()`, which is 8: the fourth unit was stored
past the end of the buffer. -/
theorem append_unicode_overruns :
    utf8_convert_one_unsafe 0x1F600 = ([0xF0, 0x9F, 0x98, 0x80], 4) ∧
    (⟨[1, 2, 3, 4, 5, 0, 0, 0], .auto, 5⟩ : string_buffer_base).size ≤
      (⟨[1, 2, 3, 4, 5, 0, 0, 0], .auto, 5⟩ : string_buffer_base).capazity ∧
    (∃ e, append_unicode 100 (unlimited_heap 0) utf8_buffer_size utf8_convert_one_unsafe
        ⟨[1, 2, 3, 4, 5, 0, 0, 0], .auto, 5⟩ 0x1F600 = some e ∧
      e.returned = some 4 ∧ e.thrown = none ∧
      e.buffer.size = 9 ∧ e.buffer.capazity = 8 ∧ ¬ e.buffer.size ≤ e.buffer.capazity) ∧
    (∃ e, append_unicode 100 (unlimited_heap 0) 6 utf8_convert_one_unsafe
        ⟨[1, 2, 3, 4, 5, 0, 0, 0], .auto, 5⟩ 0x1F600 = some e ∧
      e.returned = some 4 ∧ e.thrown = none ∧
      e.buffer.size = 9 ∧ e.buffer.capazity = 8 ∧ ¬ e.buffer.size ≤ e.buffer.capazity) := by
  refine ⟨by decide, by decide,
    ⟨⟨⟨[1, 2, 3, 4, 5, 0xF0, 0x9F, 0x98], .auto, 9⟩, some 4, none⟩, ?_, rfl, rfl, ?_, ?_, ?_⟩,
    ⟨⟨⟨[1, 2, 3, 4, 5, 0xF0, 0x9F, 0x98], .auto, 9⟩, some 4, none⟩, ?_, rfl, rfl, ?_, ?_, ?_⟩⟩
  all_goals decide

/-- C16, the code at the failing input: after `reset(5)` has failed on a buffer with
4 inline cells (`buffer_start_` is null), `append` with an allocator that refuses
every request never returns: `grow(1)` tries 4 cells again and again. No error is
raised. -/
theorem append_spins_after_failed_reset (fuel : Nat) :
    (reset_to (exhausted_heap 0) (construct [0, 0, 0, 0]) 5).returned = some false ∧
    (reset_to (exhausted_heap 0) (construct [0, 0, 0, 0]) 5).buffer = ⟨[0, 0, 0, 0], .null, 0⟩ ∧
    append fuel (exhausted_heap 0) ⟨[0, 0, 0, 0], .null, 0⟩ 0x41 = none := by
  refine ⟨by decide, by decide, ?_⟩
  have hd : double_until fuel 4 1 = some 4 := by
    unfold double_until
    rw [if_neg (by decide)]
  have hl := grow_loop_spins (exhausted_heap 0) ⟨[0, 0, 0, 0], .null, 0⟩ 1 4 rfl (by decide)
    (by decide) fuel
  have hg : grow fuel (exhausted_heap 0) ⟨[0, 0, 0, 0], .null, 0⟩ 1 = none := by
    unfold grow
    rw [if_neg (by decide)]
    show (match double_until fuel 4 1 with
      | none => none
      | some new_size => grow_loop (exhausted_heap 0) ⟨[0, 0, 0, 0], .null, 0⟩ 1 fuel new_size) = none
    rw [hd]
    exact hl
  unfold append
  rw [if_pos (by decide)]
  have e : (⟨[0, 0, 0, 0], .null, 0⟩ : string_buffer_base).size + 1 = 1 := rfl
  rw [e, hg]

/-- C17, as stated, fails: with an allocator that grants requests of at most 6 code
units, `grow(5)` on a fresh buffer of 4 cells reports failure although 5 is not above 6:
it tries 8 cells, then 4, which is below 5, and gives up. -/
theorem grow_gives_up_counterexample :
    (construct [0, 0, 0, 0]).capazity < 5 ∧ ¬ (5 > 6) ∧
    (threshold_heap 6 0).grants 5 = true ∧
    grow 100 (threshold_heap 6 0) (construct [0, 0, 0, 0]) 5 =
      some (false, construct [0, 0, 0, 0]) := by
  refine ⟨by decide, by decide, by decide, by decide⟩

/-- C17, amended: on a buffer that holds its auto buffer or a heap block, with an
allocator that grants exactly the requests of at most `M` code units and `min_size` at
most `max size_type >> 3` (no size wraps), `grow(min_size)` with `min_size > capazity()`
returns, and reports failure exactly when the least multiple of the inline capacity
that is not below `min_size` is above `M`; on failure the buffer is unchanged, on
success it has room for `min_size` units in a block of fewer than `2 * min_size`. -/
theorem grow_retries_in_steps (fuel : Nat) (b : string_buffer_base) (min_size M junk : Nat)
    (hK : 1 ≤ b.auto_buffer_size_) (hcap : b.auto_buffer_size_ ≤ b.capazity)
    (hv : b.size ≤ b.capazity) (hmin : b.capazity < min_size)
    (hfit : min_size ≤ size_type_max >>> 3) (hf : 2 * min_size ≤ fuel) :
    ∃ ok b2, grow fuel (threshold_heap M junk) b min_size = some (ok, b2) ∧
      (ok = false ↔ M < round_up b.auto_buffer_size_ min_size) ∧
      (ok = false → b2 = b) ∧
      (ok = true → min_size ≤ b2.capazity ∧ b2.content = b.content ∧ b2.size = b.size ∧
        b2.capazity < 2 * min_size ∧ 4 * b2.capazity ≤ size_type_max) := by
  obtain ⟨ok, b2, n, hg, hd, hle, _, hiff⟩ :=
    grow_tries fuel (threshold_heap M junk) b min_size hK hcap hmin hf
  obtain ⟨gf, gt⟩ := grow_spec fuel _ b min_size ok b2 hv hg
  have key : ok = true ↔ round_up b.auto_buffer_size_ min_size ≤ M := by
    rw [hiff]
    constructor
    · rintro ⟨m, hm, h1, _, h4⟩
      have h5 : m ≤ M := by simpa [threshold_heap] using h4
      exact le_trans (round_up_le _ _ m hK hm h1) h5
    · intro hr
      refine ⟨round_up b.auto_buffer_size_ min_size, round_up_dvd _ _, round_up_ge _ _ hK,
        round_up_le _ _ n hK hd hle, ?_⟩
      simpa [threshold_heap] using hr
  refine ⟨ok, b2, hg, ?_, fun hf2 => (gf hf2).1, fun ht => ?_⟩
  · cases ok with
    | false =>
      simp only [true_iff]
      by_contra hcon
      have := key.mpr (by omega)
      simp at this
    | true =>
      simp only [Bool.true_eq_false, false_iff, not_lt]
      exact key.mp rfl
  · obtain ⟨a1, _, a3, _, a5⟩ := gt ht
    subst ht
    obtain ⟨c1, c2⟩ := grow_cap_fits fuel _ b b2 min_size hK hcap hv hmin hfit (by omega) hg
    exact ⟨a3, a5, a1, c1, c2⟩

theorem grow_retries_in_steps_witness :
    1 ≤ (construct [0, 0, 0, 0]).auto_buffer_size_ ∧
    (construct [0, 0, 0, 0]).auto_buffer_size_ ≤ (construct [0, 0, 0, 0]).capazity ∧
    (construct [0, 0, 0, 0]).size ≤ (construct [0, 0, 0, 0]).capazity ∧
    (construct [0, 0, 0, 0]).capazity < 5 ∧ 5 ≤ size_type_max >>> 3 ∧ 2 * 5 ≤ 10 ∧
    grow 10 (threshold_heap 6 0) (construct [0, 0, 0, 0]) 5 =
      some (false, construct [0, 0, 0, 0]) ∧
    (grow 10 (threshold_heap 8 0) (construct [0, 0, 0, 0]) 5).map (fun r => r.1) = some true ∧
    ∃ ok b2, grow 10 (threshold_heap 6 0) (construct [0, 0, 0, 0]) 5 = some (ok, b2) ∧
      (ok = false ↔ 6 < round_up (construct [0, 0, 0, 0]).auto_buffer_size_ 5) ∧
      (ok = false → b2 = construct [0, 0, 0, 0]) ∧
      (ok = true → 5 ≤ b2.capazity ∧ b2.content = (construct [0, 0, 0, 0]).content ∧
        b2.size = (construct [0, 0, 0, 0]).size ∧ b2.capazity < 2 * 5 ∧
        4 * b2.capazity ≤ size_type_max) :=
  ⟨by decide, by decide, by decide, by decide, by decide, by decide, by decide, by decide,
    grow_retries_in_steps 10 (construct [0, 0, 0, 0]) 5 6 0 (by decide) (by decide) (by decide)
      (by decide) (by decide) (by decide)⟩

/-- C18: `reset()` leaves `size() == 0` and `capazity()` equal to the inline capacity;
`reset(c)` that returns true leaves `size() == 0`, and `capazity()` equal to the inline
capacity when `c` is not above it and to `c` when it is; `reset(c)` returns false exactly
when `c` is above the inline capacity and the allocation failed. It never throws. -/
theorem reset_resizes (h : heap) (b : string_buffer_base) (c : Nat) :
    (reset b).size = 0 ∧ (reset b).capazity = b.auto_buffer_size_ ∧
    (reset_to h b c).thrown = none ∧
    ((reset_to h b c).returned = some true ∨ (reset_to h b c).returned = some false) ∧
    ((reset_to h b c).returned = some true →
      (reset_to h b c).buffer.size = 0 ∧
      (c ≤ b.auto_buffer_size_ → (reset_to h b c).buffer.capazity = b.auto_buffer_size_) ∧
      (b.auto_buffer_size_ < c → (reset_to h b c).buffer.capazity = c)) ∧
    ((reset_to h b c).returned = some false ↔
      (b.auto_buffer_size_ < c ∧ h.grants c = false)) := by
  obtain ⟨r1, r2, _, _⟩ := reset_spec b
  obtain ⟨t1, t2, _, t4, t5, t6, t7, _⟩ := reset_to_spec h b c
  exact ⟨r1, r2, t1, t4, fun ht => ⟨t2, t5 ht, t6 ht⟩, t7⟩

/-- C19, the code at the failing input: on the zero-terminated string "abc",
`append_str` returns 3 but appends "bc" and the terminator, not "abc". -/
theorem append_str_skips_first_unit :
    ∃ e, append_str 100 (unlimited_heap 0) (construct [0, 0, 0, 0]) [0x61, 0x62, 0x63, 0] =
        some e ∧
      e.returned = some 3 ∧ e.thrown = none ∧
      e.buffer.content = [0x62, 0x63, 0] ∧ e.buffer.content ≠ [0x61, 0x62, 0x63] := by
  refine ⟨⟨⟨[0x62, 0x63, 0, 0], .auto, 3⟩, some 3, none⟩, ?_, rfl, rfl, ?_, ?_⟩
  · decide
  · decide
  · decide

/-- C20: for every byte sequence of at most `max size_t >> 3` units and an allocator
that grants every request, `append_cstr(cstr, len)` and `append_str(str, len)` on a
UTF-8 buffer each append exactly those units after the existing content, leave the
existing content as it was, increase `size()` by `len` and return `len`. -/
theorem verbatim_bulk_append (b : string_buffer_base) (src : List Nat) (h : heap) (fuel : Nat)
    (hK : 1 ≤ b.auto_buffer_size_) (hv : b.size ≤ b.capazity) (hu : Unlimited h)
    (hlen : src.length ≤ size_type_max >>> 3) (hf : b.size + src.length ≤ fuel) :
    ∃ b2, append_cstr fuel h b src = some ⟨b2, some src.length, none⟩ ∧
      append_str_len fuel h b src = some ⟨b2, some src.length, none⟩ ∧
      b2.content = b.content ++ src ∧ b2.content.take b.size = b.content ∧
      b2.size = b.size + src.length := by
  obtain ⟨b2, h1, h2, h3, _, _⟩ := append_len_unlimited fuel h b src hu hK hv hlen hf
  refine ⟨b2, ?_, ?_, h3, ?_, h2⟩
  · simp only [append_cstr, if_neg (not_lt.mpr hlen), h1, Option.map_some']
  · simp only [append_str_len, h1, Option.map_some']
  · rw [h3]
    have hl := valid_content_length hv
    simp only [size]
    rw [← hl]
    exact List.take_left _ _

theorem verbatim_bulk_append_witness :
    1 ≤ (construct [0, 0]).auto_buffer_size_ ∧ (construct [0, 0]).size ≤ (construct [0, 0]).capazity ∧
    Unlimited (unlimited_heap 0xCD) ∧
    ([0x68, 0x69, 0x21] : List Nat).length ≤ size_type_max >>> 3 ∧
    (construct [0, 0]).size + ([0x68, 0x69, 0x21] : List Nat).length ≤ 3 ∧
    ∃ b2, append_cstr 3 (unlimited_heap 0xCD) (construct [0, 0]) [0x68, 0x69, 0x21] =
        some ⟨b2, some ([0x68, 0x69, 0x21] : List Nat).length, none⟩ ∧
      append_str_len 3 (unlimited_heap 0xCD) (construct [0, 0]) [0x68, 0x69, 0x21] =
        some ⟨b2, some ([0x68, 0x69, 0x21] : List Nat).length, none⟩ ∧
      b2.content = (construct [0, 0]).content ++ [0x68, 0x69, 0x21] ∧
      b2.content.take (construct [0, 0]).size = (construct [0, 0]).content ∧
      b2.size = (construct [0, 0]).size + ([0x68, 0x69, 0x21] : List Nat).length :=
  ⟨by decide, by decide, unlimited_heap_unlimited _, by decide, by decide,
    verbatim_bulk_append (construct [0, 0]) [0x68, 0x69, 0x21] (unlimited_heap 0xCD) 3
      (by decide) (by decide) (unlimited_heap_unlimited _) (by decide) (by decide)⟩

end json.claims


namespace json.claims

open json.internal json.internal.string_buffer_base json.spec
open json.internal.number_state

/-- C21, as stated, fails: when the converter returns 0 for a code point and has stored
nothing, `append_unicode` returns 0 and leaves the content "A" as it was; when it
returns -1 after it has stored the byte ED, the content is "A" followed by ED. In
neither case are the code units EF BF BD of U+FFFD in the buffer. -/
theorem append_unicode_no_fallback_counterexample :
    ∃ e1 e2,
      append_unicode 100 (unlimited_heap 0) utf8_buffer_size
        (fun _ => (([] : List Nat), (0 : Int))) ⟨[0x41, 0, 0, 0, 0, 0, 0, 0], .auto, 1⟩ 0xD800 =
          some e1 ∧
      e1.returned = some 0 ∧ e1.buffer.content = [0x41] ∧
      append_unicode 100 (unlimited_heap 0) utf8_buffer_size
        (fun _ => (([0xED] : List Nat), (-1 : Int))) ⟨[0x41, 0, 0, 0, 0, 0, 0, 0], .auto, 1⟩
          0xD800 = some e2 ∧
      e2.returned = some 0 ∧ e2.buffer.content = [0x41, 0xED] ∧
      ( utf8_convert_one_unsafe 0xFFFD).1 = [0xEF, 0xBF, 0xBD] ∧
      e1.buffer.content ≠ [0x41] ++ ( utf8_convert_one_unsafe 0xFFFD).1 ∧
      e2.buffer.content ≠ [0x41] ++ ( utf8_convert_one_unsafe 0xFFFD).1 := by
  refine ⟨⟨⟨[0x41, 0, 0, 0, 0, 0, 0, 0], .auto, 1⟩, some 0, none⟩,
    ⟨⟨[0x41, 0xED, 0, 0, 0, 0, 0, 0], .auto, 2⟩, some 0, none⟩, ?_, rfl, ?_, ?_, rfl, ?_, ?_,
    ?_, ?_⟩ <;> decide

/-- C21, amended: for every converter and every code point for which it returns a
result `<= 0`, with an allocator that grants every request, `append_unicode` returns 0
and adds no replacement character: `size()` grows by the number of code units the converter has
stored, which follow the old content (when they fit the block `reserve` left), and when
the converter has stored nothing the content is what it was. U+FFFD is appended by
`append_unicode_replacement_character()`, a call of its own, which is
`append_unicode(0xFFFD)`. -/
theorem append_unicode_failure_returns_zero (fuel : Nat) (h : heap) (buffer_size : Nat)
    (conv : Nat → List Nat × Int) (b : string_buffer_base) (codepoint : Nat)
    (hK : 1 ≤ b.auto_buffer_size_) (hv : b.size ≤ b.capazity) (hu : Unlimited h)
    (hf : b.size + buffer_size ≤ fuel) (hfail : (conv codepoint).2 ≤ 0) :
    (∃ b0 e, reserve fuel h b (b.size + buffer_size) = some ⟨b0, some (), none⟩ ∧
      append_unicode fuel h buffer_size conv b codepoint = some e ∧
      e.thrown = none ∧ e.returned = some 0 ∧
      e.buffer.size = b.size + (conv codepoint).1.length ∧
      (b.size + (conv codepoint).1.length ≤ b0.capazity →
        e.buffer.content = b.content ++ (conv codepoint).1) ∧
      ((conv codepoint).1 = [] → e.buffer.content = b.content)) ∧
    append_unicode_replacement_character fuel h buffer_size conv b =
      append_unicode fuel h buffer_size conv b 0xFFFD :=
  ⟨append_unicode_failed fuel h buffer_size conv b codepoint hu hK hv hf hfail, rfl⟩

theorem append_unicode_failure_returns_zero_witness :
    1 ≤ (construct [0, 0, 0, 0, 0, 0, 0, 0]).auto_buffer_size_ ∧
    (construct [0, 0, 0, 0, 0, 0, 0, 0]).size ≤ (construct [0, 0, 0, 0, 0, 0, 0, 0]).capazity ∧
    Unlimited (unlimited_heap 0) ∧
    (construct [0, 0, 0, 0, 0, 0, 0, 0]).size + utf8_buffer_size ≤ 10 ∧
    ((fun _ => (([0xED] : List Nat), (-1 : Int))) 0xD800 : List Nat × Int).2 ≤ 0 ∧
    (∃ b0 e, reserve 10 (unlimited_heap 0) (construct [0, 0, 0, 0, 0, 0, 0, 0])
        ((construct [0, 0, 0, 0, 0, 0, 0, 0]).size + utf8_buffer_size) =
          some ⟨b0, some (), none⟩ ∧
      append_unicode 10 (unlimited_heap 0) utf8_buffer_size
        (fun _ => (([0xED] : List Nat), (-1 : Int))) (construct [0, 0, 0, 0, 0, 0, 0, 0])
          0xD800 = some e ∧
      e.thrown = none ∧ e.returned = some 0 ∧
      e.buffer.size = (construct [0, 0, 0, 0, 0, 0, 0, 0]).size +
        ((fun _ => (([0xED] : List Nat), (-1 : Int))) 0xD800 : List Nat × Int).1.length ∧
      ((construct [0, 0, 0, 0, 0, 0, 0, 0]).size +
          ((fun _ => (([0xED] : List Nat), (-1 : Int))) 0xD800 : List Nat × Int).1.length ≤
            b0.capazity →
        e.buffer.content = (construct [0, 0, 0, 0, 0, 0, 0, 0]).content ++
          ((fun _ => (([0xED] : List Nat), (-1 : Int))) 0xD800 : List Nat × Int).1) ∧
      (((fun _ => (([0xED] : List Nat), (-1 : Int))) 0xD800 : List Nat × Int).1 = [] →
        e.buffer.content = (construct [0, 0, 0, 0, 0, 0, 0, 0]).content)) ∧
    append_unicode_replacement_character 10 (unlimited_heap 0) utf8_buffer_size
        (fun _ => (([0xED] : List Nat), (-1 : Int))) (construct [0, 0, 0, 0, 0, 0, 0, 0]) =
      append_unicode 10 (unlimited_heap 0) utf8_buffer_size
        (fun _ => (([0xED] : List Nat), (-1 : Int))) (construct [0, 0, 0, 0, 0, 0, 0, 0])
          0xFFFD :=
  ⟨by decide, by decide, unlimited_heap_unlimited _, by decide, by decide,
    append_unicode_failure_returns_zero 10 (unlimited_heap 0) utf8_buffer_size
      (fun _ => (([0xED] : List Nat), (-1 : Int))) (construct [0, 0, 0, 0, 0, 0, 0, 0]) 0xD800
      (by decide) (by decide) (unlimited_heap_unlimited _) (by decide) (by decide)⟩

/-- C22, the code at the failing input: on UTF-32 storage whose byte order is not the
host's, `append_ascii('A')` of the parser's `string_buffer` appends the code unit
0x00000041 while `append_unicode(0x41)` appends the byte-swapped 0x41000000; for an
ASCII character the two agree exactly when the byte orders agree or the character
is NUL. -/
theorem append_ascii_ignores_byte_order :
    parser_internal.append_ascii [] 0x41 = [0x41] ∧
    parser_internal.append_unicode byte_swap .little_endian .big_endian [] 0x41 =
      [0x41000000] ∧
    parser_internal.append_ascii [] 0x41 ≠
      parser_internal.append_unicode byte_swap .little_endian .big_endian [] 0x41 ∧
    ∀ (host_endian_t to_endian_t : parser_internal.endian_tag) (s : List Nat) (ch : Nat),
      ch < 128 →
      (parser_internal.append_ascii s ch =
          parser_internal.append_unicode byte_swap host_endian_t to_endian_t s ch ↔
        (host_endian_t = to_endian_t ∨ ch = 0)) := by
  refine ⟨by decide, by decide, by decide, ?_⟩
  intro a b s ch hch
  exact parser_internal.append_ascii_eq_iff a b s ch hch

/-- C23, the code at the failing input: on the zero-terminated 16-bit text that holds
the one code unit 0x0131, `validate_number` returns `Integer`, as for "1"; on the 32-bit
text 0x10331 0x2E 0x0635 it returns `Decimal`, as for "1.5". On every text it returns
what it returns on the low eight bits of the code units; a code unit of eight bits with
the high bit set does make it return `BAD_NUMBER`. -/
theorem validate_number_truncates_wide_units :
    validate_number_units 10 [0x0131] 0 = some .Integer ∧
    validate_number_units 10 [0x10331, 0x2E, 0x0635] 0 = some .Decimal ∧
    (∀ (fuel : Nat) (units : List Nat) (at_last : Nat),
      validate_number_units fuel units at_last =
        validate_number_units fuel (units.map (fun u => u % 256)) (at_last % 256)) ∧
    (∀ (fuel : Nat) (units : List Nat) (u : Nat), units.length < fuel → u ∈ units →
      0x80 ≤ u → u < 256 → validate_number_units fuel units 0 = some .BAD_NUMBER) := by
  refine ⟨by decide, by decide, fun fuel units at_last =>
    (validate_number_units_mod fuel units at_last).symm, ?_⟩
  intro fuel units u hlt hu hlo hhi
  exact validate_number_units_8bit fuel units hlt u hu hlo hhi

/-- C24: over every sequence of calls on one parser, `start` returns YES for the first
call and NO for every later call, so at most one call returns YES. -/
theorem start_is_single_use (cs : List parser_call) :
    start_results async_parser_init cs =
      (match cs.count .start with
        | 0 => []
        | k + 1 => true :: List.replicate k false) ∧
    (start_results async_parser_init cs).count true ≤ 1 := by
  have h := start_results_idle cs async_parser_init rfl
  refine ⟨h, ?_⟩
  rw [h]
  cases cs.count parser_call.start with
  | zero => simp
  | succ k => simp [List.count_replicate]

/-- C26, as stated, fails: in state IntZero the digit '1' sets `done` and does not put
the scanner in state Int; the text "01" is a `BAD_NUMBER`. -/
theorem digit_after_zero_counterexample :
    transition number_int_is_zero '1' = none ∧
    transition number_int_is_zero '1' ≠ some number_state_int ∧
    validate_number 5 (cstr ['0', '1']) = some .BAD_NUMBER := by
  refine ⟨by decide, by decide, by decide⟩

/-- C26, amended: in state Int, reading a digit '0'..'9' keeps the scanner in state Int
and scanning continues with the next character; in state IntZero a digit ends the scan
(`done` is set, the state stays IntZero), and every text that starts with '0' and a
digit is a `BAD_NUMBER`. -/
theorem digit_in_integer_states (ch : Char) (rest : List Char) (fuel : Nat)
    (hd : Digit ch) (hf : rest.length + 2 < fuel) :
    transition number_state_int ch = some number_state_int ∧
    run number_state_int (ch :: rest) = run number_state_int rest ∧
    transition number_int_is_zero ch = none ∧
    run number_int_is_zero (ch :: rest) = none ∧
    validate_number fuel (cstr ('0' :: ch :: rest)) = some .BAD_NUMBER := by
  have h1 : transition number_state_int ch = some number_state_int := by
    simp only [transition, (digit_iff ch).1 hd, if_true]
  have h0 : transition number_int_is_zero ch = none := by
    simp only [Digit, char_le_iff, Char.reduceToNat] at hd
    simp only [transition, char_eq_iff, Char.reduceToNat]
    rw [if_neg (by omega), if_neg (by omega)]
  refine ⟨h1, ?_, h0, ?_, ?_⟩
  · simp only [run, h1]
  · simp only [run, h0]
  · rw [validate_number_cstr _ _ (by simpa using hf)]
    exact congrArg some (verdict_leading_zero hd rest).1

theorem digit_in_integer_states_witness :
    Digit '7' ∧ (['.', '5'] : List Char).length + 2 < 5 ∧
    transition number_state_int '7' = some number_state_int ∧
    run number_state_int ('7' :: ['.', '5']) = run number_state_int ['.', '5'] ∧
    transition number_int_is_zero '7' = none ∧
    run number_int_is_zero ('7' :: ['.', '5']) = none ∧
    validate_number 5 (cstr ('0' :: '7' :: ['.', '5'])) = some .BAD_NUMBER :=
  ⟨⟨by decide, by decide⟩, by decide,
    digit_in_integer_states '7' ['.', '5'] 5 ⟨by decide, by decide⟩ (by decide)⟩

/-- C27: on a buffer that holds its auto buffer or a heap block, with inline capacity
`K >= 1`, an allocator that grants every request and `min_size` at most
`max size_type >> 3` (no size wraps), `grow(min_size)` with `min_size > capazity()`
returns true and leaves `capazity()` at the smallest `K * 2 ^ j` with `j >= 1` that is
not below `min_size`, a size whose byte count fits `size_type`; with
`min_size <= capazity()` it returns true and changes nothing. -/
theorem geometric_growth (fuel : Nat) (h : heap) (b : string_buffer_base) (min_size : Nat)
    (hK : 1 ≤ b.auto_buffer_size_) (hcap : b.auto_buffer_size_ ≤ b.capazity)
    (hv : b.size ≤ b.capazity) (hu : Unlimited h)
    (hfit : min_size ≤ size_type_max >>> 3) (hf : min_size ≤ fuel) :
    (b.capazity < min_size →
      ∃ b2 j, grow fuel h b min_size = some (true, b2) ∧ 1 ≤ j ∧
        b2.capazity = b.auto_buffer_size_ * 2 ^ j ∧ min_size ≤ b.auto_buffer_size_ * 2 ^ j ∧
        (∀ i, 1 ≤ i → min_size ≤ b.auto_buffer_size_ * 2 ^ i →
          b.auto_buffer_size_ * 2 ^ j ≤ b.auto_buffer_size_ * 2 ^ i) ∧
        b2.capazity < 2 * min_size ∧ 4 * b2.capazity ≤ size_type_max) ∧
    (min_size ≤ b.capazity → grow fuel h b min_size = some (true, b)) := by
  constructor
  · intro hmin
    obtain ⟨b2, j, h1, h2, h3, h4, _⟩ :=
      grow_unlimited_capazity fuel h b min_size hu hK hv hmin hf
    obtain ⟨c1, c2⟩ := grow_cap_fits fuel h b b2 min_size hK hcap hv hmin hfit hf h1
    refine ⟨b2, j, h1, ?_, h2, h3, fun i _ hi => ?_, c1, c2⟩
    · cases j with
      | zero => simp only [pow_zero, Nat.mul_one] at h3; omega
      | succ k => omega
    · exact Nat.mul_le_mul_left _ (Nat.pow_le_pow_right (by decide) (h4 i hi))
  · intro hle
    unfold grow
    rw [if_pos hle]

theorem geometric_growth_witness :
    1 ≤ (construct [0, 0, 0, 0]).auto_buffer_size_ ∧
    (construct [0, 0, 0, 0]).auto_buffer_size_ ≤ (construct [0, 0, 0, 0]).capazity ∧
    (construct [0, 0, 0, 0]).size ≤ (construct [0, 0, 0, 0]).capazity ∧
    Unlimited (unlimited_heap 0) ∧ 9 ≤ size_type_max >>> 3 ∧ 9 ≤ 9 ∧
    (grow 9 (unlimited_heap 0) (construct [0, 0, 0, 0]) 9).map (fun r => r.2.capazity) =
      some 16 ∧
    ((construct [0, 0, 0, 0]).capazity < 9 →
      ∃ b2 j, grow 9 (unlimited_heap 0) (construct [0, 0, 0, 0]) 9 = some (true, b2) ∧ 1 ≤ j ∧
        b2.capazity = (construct [0, 0, 0, 0]).auto_buffer_size_ * 2 ^ j ∧
        9 ≤ (construct [0, 0, 0, 0]).auto_buffer_size_ * 2 ^ j ∧
        (∀ i, 1 ≤ i → 9 ≤ (construct [0, 0, 0, 0]).auto_buffer_size_ * 2 ^ i →
          (construct [0, 0, 0, 0]).auto_buffer_size_ * 2 ^ j ≤
            (construct [0, 0, 0, 0]).auto_buffer_size_ * 2 ^ i) ∧
        b2.capazity < 2 * 9 ∧ 4 * b2.capazity ≤ size_type_max) ∧
    (9 ≤ (construct [0, 0, 0, 0]).capazity →
      grow 9 (unlimited_heap 0) (construct [0, 0, 0, 0]) 9 =
        some (true, construct [0, 0, 0, 0])) :=
  ⟨by decide, by decide, by decide, unlimited_heap_unlimited _, by decide, by decide,
    by decide,
    geometric_growth 9 (unlimited_heap 0) (construct [0, 0, 0, 0]) 9 (by decide) (by decide)
      (by decide) (unlimited_heap_unlimited _) (by decide) (by decide)⟩

/-- C28: for every buffer state and every allocator, a call of `grow` that returns true
and a call of `reserve` that returns without throwing leave `size()` unchanged and each
of the first `size()` code units as it was; with an allocator that grants every request
and a size of at most `max size_type >> 3` (no size wraps) both calls do succeed. -/
theorem growth_preserves_content (fuel : Nat) (h : heap) (b : string_buffer_base)
    (min_size : Nat) (hv : b.size ≤ b.capazity) :
    (∀ b2, grow fuel h b min_size = some (true, b2) →
      b2.size = b.size ∧ b2.content = b.content ∧
      ∀ i, i < b.size → b2.cells[i]? = b.cells[i]?) ∧
    (∀ e, reserve fuel h b min_size = some e → e.thrown = none →
      e.buffer.size = b.size ∧ e.buffer.content = b.content ∧
      ∀ i, i < b.size → e.buffer.cells[i]? = b.cells[i]?) ∧
    (Unlimited h → 1 ≤ b.auto_buffer_size_ → min_size ≤ size_type_max >>> 3 →
      min_size ≤ fuel →
      (∃ b2, grow fuel h b min_size = some (true, b2)) ∧
      ∃ b2, reserve fuel h b min_size = some ⟨b2, some (), none⟩) := by
  have cell : ∀ b2 : string_buffer_base, b2.p_ = b.p_ → b2.content = b.content →
      ∀ i, i < b.size → b2.cells[i]? = b.cells[i]? := by
    intro b2 hp hc i hi
    simp only [size] at hi
    have e1 : b2.content[i]? = b2.cells[i]? := by
      simp only [content]
      rw [List.getElem?_take_of_lt (by omega)]
    have e2 : b.content[i]? = b.cells[i]? := by
      simp only [content]
      rw [List.getElem?_take_of_lt hi]
    rw [← e1, ← e2, hc]
  refine ⟨fun b2 hg => ?_, fun e he _ => ?_, fun hu hK _ hf => ?_⟩
  · obtain ⟨g1, _, _, _, g5⟩ := (grow_spec fuel h b min_size true b2 hv hg).2 rfl
    exact ⟨g1, g5, cell b2 g1 g5⟩
  · obtain ⟨_, r2, r3, _, _⟩ := reserve_valid fuel h b min_size e hv he
    exact ⟨r3, r2, cell e.buffer r3 r2⟩
  · obtain ⟨b1, h1, _⟩ := reserve_unlimited fuel h b min_size hu hK hv hf
    exact ⟨grow_unlimited fuel h b min_size hu hK hf, b1, h1⟩

theorem growth_preserves_content_witness :
    (⟨[0x61, 0x62, 0x63, 0], .auto, 3⟩ : string_buffer_base).size ≤
      (⟨[0x61, 0x62, 0x63, 0], .auto, 3⟩ : string_buffer_base).capazity ∧
    grow 9 (unlimited_heap 0xCD) ⟨[0x61, 0x62, 0x63, 0], .auto, 3⟩ 9 =
      some (true, ⟨[0x61, 0x62, 0x63, 0],
        .heap [0x61, 0x62, 0x63, 0, 0xCD, 0xCD, 0xCD, 0xCD, 0xCD, 0xCD, 0xCD, 0xCD, 0xCD,
          0xCD, 0xCD, 0xCD], 3⟩) ∧
    ((∀ b2, grow 9 (unlimited_heap 0xCD) ⟨[0x61, 0x62, 0x63, 0], .auto, 3⟩ 9 = some (true, b2) →
      b2.size = (⟨[0x61, 0x62, 0x63, 0], .auto, 3⟩ : string_buffer_base).size ∧
      b2.content = (⟨[0x61, 0x62, 0x63, 0], .auto, 3⟩ : string_buffer_base).content ∧
      ∀ i, i < (⟨[0x61, 0x62, 0x63, 0], .auto, 3⟩ : string_buffer_base).size →
        b2.cells[i]? = (⟨[0x61, 0x62, 0x63, 0], .auto, 3⟩ : string_buffer_base).cells[i]?) ∧
    (∀ e, reserve 9 (unlimited_heap 0xCD) ⟨[0x61, 0x62, 0x63, 0], .auto, 3⟩ 9 = some e →
      e.thrown = none →
      e.buffer.size = (⟨[0x61, 0x62, 0x63, 0], .auto, 3⟩ : string_buffer_base).size ∧
      e.buffer.content = (⟨[0x61, 0x62, 0x63, 0], .auto, 3⟩ : string_buffer_base).content ∧
      ∀ i, i < (⟨[0x61, 0x62, 0x63, 0], .auto, 3⟩ : string_buffer_base).size →
        e.buffer.cells[i]? =
          (⟨[0x61, 0x62, 0x63, 0], .auto, 3⟩ : string_buffer_base).cells[i]?) ∧
    (Unlimited (unlimited_heap 0xCD) →
      1 ≤ (⟨[0x61, 0x62, 0x63, 0], .auto, 3⟩ : string_buffer_base).auto_buffer_size_ →
      9 ≤ size_type_max >>> 3 → 9 ≤ 9 →
      (∃ b2, grow 9 (unlimited_heap 0xCD) ⟨[0x61, 0x62, 0x63, 0], .auto, 3⟩ 9 =
        some (true, b2)) ∧
      ∃ b2, reserve 9 (unlimited_heap 0xCD) ⟨[0x61, 0x62, 0x63, 0], .auto, 3⟩ 9 =
        some ⟨b2, some (), none⟩)) :=
  ⟨by decide, by decide,
    growth_preserves_content 9 (unlimited_heap 0xCD) ⟨[0x61, 0x62, 0x63, 0], .auto, 3⟩ 9
      (by decide)⟩

/-- C29: for every buffer state, with an allocator that grants every request,
`terminate_if` appends one zero code unit and returns true when the buffer is empty or
its last code unit is not zero, and appends nothing and returns false when the last
code unit is zero; afterwards the buffer is not empty and its last code unit is zero. -/
theorem terminate_if_reports (fuel : Nat) (h : heap) (b : string_buffer_base)
    (hK : 1 ≤ b.auto_buffer_size_) (hv : b.size ≤ b.capazity) (hu : Unlimited h)
    (hf : b.size < fuel) :
    ∃ b1 r, terminate_if fuel h b = some ⟨b1, some r, none⟩ ∧
      ((b.size = 0 ∨ b.content.getLast? ≠ some 0) →
        r = true ∧ b1.content = b.content ++ [0] ∧ b1.size = b.size + 1) ∧
      ((0 < b.size ∧ b.content.getLast? = some 0) → r = false ∧ b1 = b) ∧
      0 < b1.size ∧ b1.content.getLast? = some 0 := by
  obtain ⟨b1, r, h1, h2, h3, h4⟩ := terminate_if_cases fuel h b hu hK hv hf
  refine ⟨b1, r, h1, fun hc => ?_, fun hc => h3 hc.2, ?_, h4⟩
  · apply h2
    rcases hc with hc | hc
    · rw [content_empty b hc]
      simp
    · exact hc
  · by_cases hl : b.content.getLast? = some 0
    · have hb := (h3 hl).2
      rw [hb]
      by_contra hz
      rw [content_empty b (by simp only [size] at hz; omega)] at hl
      simp at hl
    · rw [(h2 hl).2.2]
      omega

theorem terminate_if_reports_witness :
    1 ≤ (⟨[0x61, 0], .auto, 1⟩ : string_buffer_base).auto_buffer_size_ ∧
    (⟨[0x61, 0], .auto, 1⟩ : string_buffer_base).size ≤
      (⟨[0x61, 0], .auto, 1⟩ : string_buffer_base).capazity ∧
    Unlimited (unlimited_heap 0) ∧ (⟨[0x61, 0], .auto, 1⟩ : string_buffer_base).size < 2 ∧
    terminate_if 2 (unlimited_heap 0) ⟨[0x61, 0], .auto, 1⟩ =
      some ⟨⟨[0x61, 0], .auto, 2⟩, some true, none⟩ ∧
    ∃ b1 r, terminate_if 2 (unlimited_heap 0) ⟨[0x61, 0], .auto, 1⟩ = some ⟨b1, some r, none⟩ ∧
      (((⟨[0x61, 0], .auto, 1⟩ : string_buffer_base).size = 0 ∨
          (⟨[0x61, 0], .auto, 1⟩ : string_buffer_base).content.getLast? ≠ some 0) →
        r = true ∧
        b1.content = (⟨[0x61, 0], .auto, 1⟩ : string_buffer_base).content ++ [0] ∧
        b1.size = (⟨[0x61, 0], .auto, 1⟩ : string_buffer_base).size + 1) ∧
      ((0 < (⟨[0x61, 0], .auto, 1⟩ : string_buffer_base).size ∧
          (⟨[0x61, 0], .auto, 1⟩ : string_buffer_base).content.getLast? = some 0) →
        r = false ∧ b1 = ⟨[0x61, 0], .auto, 1⟩) ∧
      0 < b1.size ∧ b1.content.getLast? = some 0 :=
  ⟨by decide, by decide, unlimited_heap_unlimited _, by decide, by decide,
    terminate_if_reports 2 (unlimited_heap 0) ⟨[0x61, 0], .auto, 1⟩ (by decide) (by decide)
      (unlimited_heap_unlimited _) (by decide)⟩

/-- C30: for every buffer state and every sequence of `len <= max size_t >> 3` code
units, with an allocator that grants every request, `append(ptr, len)` and `append(unit)`
for each of the units in order both return normally and leave the same `size()` and the
same content, the old content followed by the units. -/
theorem bulk_and_single_appends_agree (fuel : Nat) (h : heap) (b : string_buffer_base)
    (src : List Nat) (hK : 1 ≤ b.auto_buffer_size_) (hv : b.size ≤ b.capazity)
    (hu : Unlimited h) (hlen : src.length ≤ size_type_max >>> 3)
    (hf : b.size + src.length ≤ fuel) :
    ∃ b1 b2, append_len fuel h b src = some ⟨b1, some (), none⟩ ∧
      append_all fuel h src b = some ⟨b2, some (), none⟩ ∧
      b1.size = b2.size ∧ b1.content = b2.content ∧ b1.content = b.content ++ src ∧
      b1.size = b.size + src.length := by
  obtain ⟨b1, h1, h2, h3, _, _⟩ := append_len_unlimited fuel h b src hu hK hv hlen hf
  obtain ⟨b2, k1, k2, k3, _⟩ := append_all_unlimited fuel h hu src b hK hv hf
  refine ⟨b1, b2, h1, k1, ?_, by rw [h3, k3], h3, h2⟩
  simp only [size] at k2 ⊢
  omega

theorem bulk_and_single_appends_agree_witness :
    1 ≤ (construct [0, 0]).auto_buffer_size_ ∧
    (construct [0, 0]).size ≤ (construct [0, 0]).capazity ∧
    Unlimited (unlimited_heap 0xCD) ∧
    ([0x68, 0x69, 0x21, 0x3F, 0x2E] : List Nat).length ≤ size_type_max >>> 3 ∧
    (construct [0, 0]).size + ([0x68, 0x69, 0x21, 0x3F, 0x2E] : List Nat).length ≤ 5 ∧
    (append_len 5 (unlimited_heap 0xCD) (construct [0, 0]) [0x68, 0x69, 0x21, 0x3F, 0x2E]).map
        (fun e => e.buffer.capazity) = some 8 ∧
    ∃ b1 b2, append_len 5 (unlimited_heap 0xCD) (construct [0, 0])
          [0x68, 0x69, 0x21, 0x3F, 0x2E] = some ⟨b1, some (), none⟩ ∧
      append_all 5 (unlimited_heap 0xCD) [0x68, 0x69, 0x21, 0x3F, 0x2E] (construct [0, 0]) =
        some ⟨b2, some (), none⟩ ∧
      b1.size = b2.size ∧ b1.content = b2.content ∧
      b1.content = (construct [0, 0]).content ++ [0x68, 0x69, 0x21, 0x3F, 0x2E] ∧
      b1.size = (construct [0, 0]).size + ([0x68, 0x69, 0x21, 0x3F, 0x2E] : List Nat).length :=
  ⟨by decide, by decide, unlimited_heap_unlimited _, by decide, by decide, by decide,
    bulk_and_single_appends_agree 5 (unlimited_heap 0xCD) (construct [0, 0])
      [0x68, 0x69, 0x21, 0x3F, 0x2E] (by decide) (by decide) (unlimited_heap_unlimited _)
      (by decide) (by decide)⟩

end json.claims


namespace json.claims

open json.internal json.internal.string_buffer_base json.spec

/-- C31: for every buffer state, `append(ptr, len)` and `append_cstr(cstr, len)` with
`len > max size_type >> 3` throw "string too large" and leave the buffer as it was,
with its `size()`, `capazity()` and content. -/
theorem overlong_append_rejected (fuel : Nat) (h : heap) (b : string_buffer_base)
    (src : List Nat) (hlen : src.length > size_type_max >>> 3) :
    (∃ e, append_len fuel h b src = some e ∧ e.thrown = some "string too large" ∧
      e.returned = none ∧ e.buffer = b ∧ e.buffer.size = b.size ∧
      e.buffer.capazity = b.capazity ∧ e.buffer.content = b.content) ∧
    (∃ e, append_cstr fuel h b src = some e ∧ e.thrown = some "string too large" ∧
      e.returned = none ∧ e.buffer = b ∧ e.buffer.size = b.size ∧
      e.buffer.capazity = b.capazity ∧ e.buffer.content = b.content) := by
  refine ⟨⟨⟨b, none, some "string too large"⟩, ?_, rfl, rfl, rfl, rfl, rfl, rfl⟩,
    ⟨⟨b, none, some "string too large"⟩, ?_, rfl, rfl, rfl, rfl, rfl, rfl⟩⟩
  · simp only [append_len, if_pos hlen]
  · simp only [append_cstr, if_pos hlen]

theorem overlong_append_rejected_witness :
    (List.replicate (2 ^ 61) (0 : Nat)).length > size_type_max >>> 3 ∧
    (∃ e, append_len 0 (exhausted_heap 0) (construct [0x41, 0])
        (List.replicate (2 ^ 61) (0 : Nat)) = some e ∧
      e.thrown = some "string too large" ∧ e.returned = none ∧
      e.buffer = construct [0x41, 0] ∧ e.buffer.size = (construct [0x41, 0]).size ∧
      e.buffer.capazity = (construct [0x41, 0]).capazity ∧
      e.buffer.content = (construct [0x41, 0]).content) ∧
    (∃ e, append_cstr 0 (exhausted_heap 0) (construct [0x41, 0])
        (List.replicate (2 ^ 61) (0 : Nat)) = some e ∧
      e.thrown = some "string too large" ∧ e.returned = none ∧
      e.buffer = construct [0x41, 0] ∧ e.buffer.size = (construct [0x41, 0]).size ∧
      e.buffer.capazity = (construct [0x41, 0]).capazity ∧
      e.buffer.content = (construct [0x41, 0]).content) :=
  ⟨by rw [List.length_replicate]; decide,
    overlong_append_rejected 0 (exhausted_heap 0) (construct [0x41, 0])
      (List.replicate (2 ^ 61) (0 : Nat)) (by rw [List.length_replicate]; decide)⟩

/-- C32, the code at the failing input: for the `char` of value -1 (the byte 0xFF), the
assertion `ch <= 0x7F` of `string_buffer_base::append_ascii` passes, while the assertion
`ch >= 0 and ch < 0x80` of the parser's `append_ascii` fails. The first passes for every
value of a signed `char` of eight bits; the second passes exactly on `[0, 0x7F]`. -/
theorem append_ascii_assert_misses_negative :
    string_buffer_base.append_ascii_assert (-1) = true ∧
    parser_internal.append_ascii_assert (-1) = false ∧
    (∀ ch : Int, -128 ≤ ch → ch ≤ 127 → string_buffer_base.append_ascii_assert ch = true) ∧
    (∀ ch : Int, parser_internal.append_ascii_assert ch = true ↔ (0 ≤ ch ∧ ch ≤ 0x7F)) := by
  refine ⟨by decide, by decide, fun ch _ h => ?_, fun ch => ?_⟩
  · simp only [string_buffer_base.append_ascii_assert, decide_eq_true_eq]
    omega
  · simp only [parser_internal.append_ascii_assert, decide_eq_true_eq]
    omega

/-- C38, the code at the failing input: after `reset(5)` has failed on a buffer with 4
inline cells, `capazity()` is 0 and `grow(1)` with an allocator that refuses every
request does not return: the target size stays at 4, which is not below `min_size`.
So it is in every state with `capazity() < min_size <= K` when the request for `K`
units is refused. On a buffer that holds its auto buffer or a heap block `grow` does
return, whatever the allocator does. -/
theorem grow_spins_on_null_buffer (fuel : Nat) :
    (reset_to (exhausted_heap 0) (construct [0, 0, 0, 0]) 5).buffer.capazity = 0 ∧
    1 ≤ (reset_to (exhausted_heap 0) (construct [0, 0, 0, 0]) 5).buffer.auto_buffer_size_ ∧
    grow fuel (exhausted_heap 0) (reset_to (exhausted_heap 0) (construct [0, 0, 0, 0]) 5).buffer 1 =
      none ∧
    (∀ (h : heap) (b : string_buffer_base) (min_size : Nat),
      h.grants b.auto_buffer_size_ = false → b.capazity < min_size →
      min_size ≤ b.auto_buffer_size_ → grow fuel h b min_size = none) ∧
    (∀ (h : heap) (b : string_buffer_base) (min_size : Nat),
      1 ≤ b.auto_buffer_size_ → b.auto_buffer_size_ ≤ b.capazity →
      ∃ r, grow (2 * min_size) h b min_size = some r) := by
  refine ⟨by decide, by decide, ?_, fun h b m hg hc hm => grow_spins fuel h b m hg hc hm,
    fun h b m hK hc => grow_returns h b m (2 * m) hK hc (le_refl _)⟩
  exact grow_spins fuel _ _ 1 (by decide) (by decide) (by decide)

end json.claims


namespace json.claims

open json json.internal json.spec

/-- C33, the code at the failing input: on the range that holds "1", `validate_number`
returns `Integer` when a NUL is stored at `last` and `BAD_NUMBER` when a '.' is stored
there; `assign(s, 1)` stores "1" when `s` is "1", throws when `s` is "1.5", and does not
return when `s` is "12" (the loop reads the '2' at `last` again and again). -/
theorem validate_number_reads_at_last :
    validate_number 10 ⟨['1'], '\x00'⟩ = some .Integer ∧
    validate_number 10 ⟨['1'], '.'⟩ = some .BAD_NUMBER ∧
    assign_len 10 (List.replicate 24 0) ['1'] 1 = some ⟨packed (nibbles ['1']), none⟩ ∧
    assign_len 10 (List.replicate 24 0) ['1', '.', '5'] 1 =
      some ⟨List.replicate 24 0, some "bad json::number"⟩ ∧
    ∀ fuel, assign_len fuel (List.replicate 24 0) ['1', '2'] 1 = none := by
  refine ⟨by decide, by decide, by decide, by decide, fun fuel => ?_⟩
  have hv : validate_number fuel ⟨['1'], '2'⟩ = none := by
    cases fuel with
    | zero => rfl
    | succ f =>
      have h1 : transition number_state.number_state_start '1' =
          some number_state.number_state_int := by decide
      simp only [validate_number, validate_loop, List.headD_cons, List.tail_cons, h1,
        validate_loop_spins '2' ⟨by decide, by decide⟩ f]
  have e : assign_len fuel (List.replicate 24 0) ['1', '2'] 1 =
      assign fuel (List.replicate 24 0) (some ⟨['1'], '2'⟩) := rfl
  rw [e]
  simp only [assign, hv]
  rfl

/-- C34: for every range, the empty one included, with a character at `last` that is
not a digit, the loop of `validate_number` sets `done` within `(last - first) + 3`
turns, and the function returns. -/
theorem validate_number_terminates (r : char_range) (hlast : ¬ Digit r.at_last) :
    ∃ v, validate_number (r.chars.length + 3) r = some v := by
  have hc : is_digit r.at_last = false := by
    cases h : is_digit r.at_last with
    | false => rfl
    | true => exact absurd ((digit_iff _).2 h) hlast
  obtain ⟨res, hres⟩ := validate_loop_terminates r.at_last hc r.chars
    number_state.number_state_start (r.chars.length + 3) (by omega)
  obtain ⟨s, rest⟩ := res
  refine ⟨if rest ≠ [] then .BAD_NUMBER else classify s, ?_⟩
  simp only [validate_number, hres]

theorem validate_number_terminates_witness :
    ¬ Digit (char_range.mk ['-', '1', '2'] '.').at_last ∧
    ∃ v, validate_number ((char_range.mk ['-', '1', '2'] '.').chars.length + 3)
      (char_range.mk ['-', '1', '2'] '.') = some v :=
  ⟨fun h => absurd h.1 (by decide),
    validate_number_terminates (char_range.mk ['-', '1', '2'] '.')
      (fun h => absurd h.1 (by decide))⟩

/-- C35: for every accepted numeral text `t` of at most 47 characters, `string()` of
the number built from `t` is `t` with every `+` deleted and every `E` replaced by `e`,
and its length is the number of characters of `t` other than `+`. -/
theorem exact_normalisation (storage : List Nat) (t : List Char) (fuel : Nat)
    (hs : storage.length = 24) (hfuel : t.length < fuel)
    (hacc : validate_number fuel (cstr t) ≠ some .BAD_NUMBER) (hlen : t.length ≤ 47) :
    ∃ o s, number_of_text fuel storage t = some o ∧ o.thrown = none ∧
      number_string o.value_ = some s ∧
      s = (t.filter (fun c => c ≠ '+')).map (fun c => if c = 'E' then 'e' else c) ∧
      s.length = (t.filter (fun c => c ≠ '+')).length := by
  rw [validate_number_cstr t fuel hfuel] at hacc
  have hv : verdict t ≠ .BAD_NUMBER := fun h => hacc (by rw [h])
  have hl : (nibbles t).length < 48 := by
    have := nibbles_length_le t
    omega
  refine ⟨⟨packed (nibbles t), none⟩, normalise t,
    assign_accepted fuel storage t hs hfuel hv (by omega), rfl, ?_, rfl, ?_⟩
  · rw [number_string_packed (nibbles t) (nibbles_ne_nil_of_accepted hv) (nibbles_lt t) hl,
      map_nibbles (numeralChar_of_accepted hv)]
  · simp [normalise]

theorem exact_normalisation_witness :
    (List.replicate 24 7).length = 24 ∧
    (['-', '1', '.', '5', 'E', '+', '1', '0'] : List Char).length < 9 ∧
    validate_number 9 (cstr ['-', '1', '.', '5', 'E', '+', '1', '0']) ≠ some .BAD_NUMBER ∧
    (['-', '1', '.', '5', 'E', '+', '1', '0'] : List Char).length ≤ 47 ∧
    ∃ o s, number_of_text 9 (List.replicate 24 7) ['-', '1', '.', '5', 'E', '+', '1', '0'] =
        some o ∧ o.thrown = none ∧
      number_string o.value_ = some s ∧
      s = ((['-', '1', '.', '5', 'E', '+', '1', '0'] : List Char).filter
        (fun c => c ≠ '+')).map (fun c => if c = 'E' then 'e' else c) ∧
      s.length = ((['-', '1', '.', '5', 'E', '+', '1', '0'] : List Char).filter
        (fun c => c ≠ '+')).length :=
  ⟨by decide, by decide, by decide, by decide,
    exact_normalisation _ _ 9 (by decide) (by decide) (by decide) (by decide)⟩

/-- C36, the code at the failing input: for the numeral of 48 characters "1000...0",
`assign` fills all 24 bytes of `value_`, and `unpack` then reads the byte after them:
on the 24 bytes alone it has no defined result, with 0xFF after them it returns 48,
with 0x11 after them it writes past the 49 characters of its buffer. So it is for
every accepted numeral of 48 characters without `+`. -/
theorem unpack_runs_off_packed_array :
    (∃ o, number_of_text 49 (List.replicate 24 0xFF) ('1' :: List.replicate 47 '0') = some o ∧
      o.thrown = none ∧ o.value_.length = 24 ∧ unpack o.value_ = none ∧
      unpack (o.value_ ++ [0xFF]) = some ('1' :: List.replicate 47 '0', 48) ∧
      unpack (o.value_ ++ [0x11, 0xFF]) = none) ∧
    (∀ (storage : List Nat) (t : List Char) (fuel : Nat), storage.length = 24 →
      t.length < fuel → validate_number fuel (cstr t) ≠ some .BAD_NUMBER → t.length = 48 →
      (∀ c ∈ t, c ≠ '+') →
      ∃ o, number_of_text fuel storage t = some o ∧ o.thrown = none ∧
        unpack o.value_ = none ∧ number_string o.value_ = none) := by
  constructor
  · rw [number_of_text, assign_accepted 49 _ _ (by decide) (by decide) (by decide) (by decide)]
    exact ⟨_, rfl, rfl, by decide, by decide, by decide, by decide⟩
  · intro storage t fuel hs hfuel hacc hlen hplus
    rw [validate_number_cstr t fuel hfuel] at hacc
    have hv : verdict t ≠ .BAD_NUMBER := fun h => hacc (by rw [h])
    have hn : (nibbles t).length = 48 := by
      have hf : t.filter (fun c => c ≠ '+') = t := by
        rw [List.filter_eq_self]
        intro c hc
        simpa using hplus c hc
      simp only [nibbles, hf, List.length_map, hlen]
    have hu : unpack (packed (nibbles t)) = none := by
      rw [packed_full _ hn]
      exact unpack_loop_full (nibbles t) 0 [] (nibbles_lt t) (by omega) (by omega)
    refine ⟨⟨packed (nibbles t), none⟩,
      assign_accepted fuel storage t hs hfuel hv (by omega), rfl, hu, ?_⟩
    simp only [number_string,
      if_neg (packed_head_ne _ (nibbles_ne_nil_of_accepted hv) (nibbles_lt t)), hu]

/-- C37: for every accepted numeral text `t` of at most 47 characters, `string()` of
the number built from `t` is accepted by `validate_number` with the classification of
`t`, and the number built from it equals the number built from `t`. -/
theorem repacking_is_identity (st1 st2 : List Nat) (t : List Char) (fuel : Nat)
    (hs1 : st1.length = 24) (hs2 : st2.length = 24) (hfuel : t.length < fuel)
    (hacc : validate_number fuel (cstr t) ≠ some .BAD_NUMBER) (hlen : t.length ≤ 47) :
    ∃ o s o2, number_of_text fuel st1 t = some o ∧ o.thrown = none ∧
      number_string o.value_ = some s ∧
      validate_number fuel (cstr s) = validate_number fuel (cstr t) ∧
      number_of_text fuel st2 s = some o2 ∧ o2.thrown = none ∧
      is_equal o2.value_ o.value_ = true ∧ o2.value_ = o.value_ := by
  have hacc2 := hacc
  rw [validate_number_cstr t fuel hfuel] at hacc2
  have hv : verdict t ≠ .BAD_NUMBER := fun h => hacc2 (by rw [h])
  have hl : (nibbles t).length < 48 := by
    have := nibbles_length_le t
    omega
  have hnl := normalise_length_le t
  have hvn : verdict (normalise t) = verdict t := verdict_normalise t hv
  have ha2 := assign_accepted fuel st2 (normalise t) hs2 (by omega) (by rw [hvn]; exact hv)
    (by omega)
  rw [nibbles_normalise] at ha2
  refine ⟨⟨packed (nibbles t), none⟩, normalise t, ⟨packed (nibbles t), none⟩,
    assign_accepted fuel st1 t hs1 hfuel hv (by omega), rfl, ?_, ?_, ha2, rfl, ?_, rfl⟩
  · rw [number_string_packed (nibbles t) (nibbles_ne_nil_of_accepted hv) (nibbles_lt t) hl,
      map_nibbles (numeralChar_of_accepted hv)]
  · rw [validate_number_cstr _ _ (by omega), validate_number_cstr t fuel hfuel, hvn]
  · exact (is_equal_packed (nibbles_lt t) (nibbles_lt t) (by omega) (by omega)).2 rfl

theorem repacking_is_identity_witness :
    (List.replicate 24 7).length = 24 ∧ (List.replicate 24 9).length = 24 ∧
    (['-', '1', '.', '5', 'E', '+', '1', '0'] : List Char).length < 9 ∧
    validate_number 9 (cstr ['-', '1', '.', '5', 'E', '+', '1', '0']) ≠ some .BAD_NUMBER ∧
    (['-', '1', '.', '5', 'E', '+', '1', '0'] : List Char).length ≤ 47 ∧
    ∃ o s o2, number_of_text 9 (List.replicate 24 7) ['-', '1', '.', '5', 'E', '+', '1', '0'] =
        some o ∧ o.thrown = none ∧
      number_string o.value_ = some s ∧
      validate_number 9 (cstr s) =
        validate_number 9 (cstr ['-', '1', '.', '5', 'E', '+', '1', '0']) ∧
      number_of_text 9 (List.replicate 24 9) s = some o2 ∧ o2.thrown = none ∧
      is_equal o2.value_ o.value_ = true ∧ o2.value_ = o.value_ :=
  ⟨by decide, by decide, by decide, by decide, by decide,
    repacking_is_identity _ _ _ 9 (by decide) (by decide) (by decide) (by decide) (by decide)⟩

end json.claims
